import Mathlib

/-!
# dmenu: match / rank / navigation engine

A shallow embedding of the matcher, pager and query-buffer code of `dmenu.c`.

Conventions of the embedding

* a C string is the list of its bytes before the terminating NUL (`List Nat`);
* the candidate store `items` is the list of the array's entries before the
  sentinel whose `text` is `NULL`; a pointer to an entry is its index;
* the intrusive doubly linked Match List (`matches` .. `matchend`, linked by
  `left` / `right`) is the list of the store indices it links, in list order;
  `appenditem` appends at the end;
* the cursors `prev`, `curr`, `next`, `sel` are optional positions in the Match
  List (`none` is `NULL`).
-/

namespace Dmenu

/-! ## Data model -/

/-- One entry of the candidate store (`struct item`); `left`, `right` are carried by
the Match List and `distance` by the fuzzy pass. -/
structure item where
  text : List Nat
  out : Nat
  hp : Nat
deriving DecidableEq, Repr

/-! ## libc string primitives used by the matcher -/

/-- ASCII `tolower` (the C and UTF-8 locales: only `A`..`Z` are folded). -/
def tolower (c : Nat) : Nat :=
  if 65 ≤ c ∧ c ≤ 90 then c + 32 else c

/-- Sign of the difference of two bytes, as the `str*cmp` family reports it. -/
def bytecmp (a b : Nat) : Int :=
  if a = b then 0 else if a < b then -1 else 1

/-- `strncmp(a, b, n)`: compares at most `n` bytes, stopping at a terminator. -/
def strncmp : List Nat → List Nat → Nat → Int
  | _, _, 0 => 0
  | [], [], _ + 1 => 0
  | [], _ :: _, _ + 1 => -1
  | _ :: _, [], _ + 1 => 1
  | a :: as, b :: bs, n + 1 => if a = b then strncmp as bs n else bytecmp a b

/-- `strncasecmp(a, b, n)`: as `strncmp` on the lower-cased bytes. -/
def strncasecmp : List Nat → List Nat → Nat → Int
  | _, _, 0 => 0
  | [], [], _ + 1 => 0
  | [], _ :: _, _ + 1 => -1
  | _ :: _, [], _ + 1 => 1
  | a :: as, b :: bs, n + 1 =>
    if tolower a = tolower b then strncasecmp as bs n else bytecmp (tolower a) (tolower b)

/-- Inner loop of `strstr`: does the needle start at this position of the haystack. -/
def strstr.scan : List Nat → List Nat → Bool
  | [], _ => true
  | _ :: _, [] => false
  | c :: n, d :: h => c == d && strstr.scan n h

/-- `strstr(h, n)`: the suffix of `h` at the first occurrence of `n`, if any. -/
def strstr (h n : List Nat) : Option (List Nat) :=
  match n with
  | [] => some h
  | _ :: _ =>
    match h with
    | [] => none
    | c :: r => if strstr.scan n (c :: r) then some (c :: r) else strstr r n

/-- Inner loop of `cistrstr`:
`for (i = 0; n[i] && tolower(n[i]) == tolower(h[i]); ++i);` followed by the test
`n[i] == 0`. -/
def cistrstr.scan : List Nat → List Nat → Bool
  | [], _ => true
  | _ :: _, [] => false
  | c :: n, d :: h => tolower c == tolower d && cistrstr.scan n h

/-- `cistrstr(h, n)` (dmenu.c:185): case-insensitive `strstr`. -/
def cistrstr (h n : List Nat) : Option (List Nat) :=
  match n with
  | [] => some h
  | _ :: _ =>
    match h with
    | [] => none
    | c :: r => if cistrstr.scan n (c :: r) then some (c :: r) else cistrstr r n

/-- The function pointer `fstrncmp`: `strncasecmp` under `-i`, else `strncmp`. -/
def fstrncmp (ci : Bool) : List Nat → List Nat → Nat → Int :=
  if ci then strncasecmp else strncmp

/-- The function pointer `fstrstr`: `cistrstr` under `-i`, else `strstr`. -/
def fstrstr (ci : Bool) : List Nat → List Nat → Option (List Nat) :=
  if ci then cistrstr else strstr

/-- The active case folding on one byte. -/
def fold (ci : Bool) (c : Nat) : Nat :=
  if ci then tolower c else c

/-- Scanner behind the loop `for (s = strtok(buf, " "); s; s = strtok(NULL, " "))`:
the tokens are the maximal runs of bytes other than the delimiter; `acc` holds the
bytes of the token being scanned, last byte first. -/
def strtok.go (delim : Nat) : List Nat → List Nat → List (List Nat)
  | [], acc => if acc = [] then [] else [acc.reverse]
  | c :: s, acc =>
    if c = delim then
      (if acc = [] then strtok.go delim s [] else acc.reverse :: strtok.go delim s [])
    else strtok.go delim s (c :: acc)

/-- The token vector `tokv[0..tokc)` that `match` builds from `text` (delimiter `" "`). -/
def tokv (text : List Nat) : List (List Nat) :=
  strtok.go 32 text []

/-! ## Token matcher (`match`, dmenu.c:503-551) -/

/-- The four lists the token matcher fills: `matches`, `lhpprefix`, `lprefix`,
`lsubstr` (each with its end pointer). -/
structure Buckets where
  exact : List Nat
  hppre : List Nat
  pre : List Nat
  substr : List Nat
deriving DecidableEq, Repr

/-- `appenditem(item, &list, &last)` (dmenu.c:124): link `item` after `*last`. -/
def appenditem (it : Nat) (list : List Nat) : List Nat :=
  list ++ [it]

/-- Do all tokens occur in the text:
`for (i = 0; i < tokc; i++) if (!fstrstr(item->text, tokv[i])) break;` leaves
`i == tokc`. -/
def alltokens (ci : Bool) (toks : List (List Nat)) (t : List Nat) : Bool :=
  toks.all fun tok => (fstrstr ci t tok).isSome

/-- Body of the loop over the store in `match` for the entry at index `idx`. -/
def matchstep (ci : Bool) (text : List Nat) (toks : List (List Nat)) (it : item) (idx : Nat)
    (b : Buckets) : Buckets :=
  if !alltokens ci toks it.text then b
  else if toks.isEmpty || fstrncmp ci text it.text (text.length + 1) == 0 then
    { b with exact := appenditem idx b.exact }
  else if it.hp != 0 && fstrncmp ci (toks.headD []) it.text (toks.headD []).length == 0 then
    { b with hppre := appenditem idx b.hppre }
  else if fstrncmp ci (toks.headD []) it.text (toks.headD []).length == 0 then
    { b with pre := appenditem idx b.pre }
  else
    { b with substr := appenditem idx b.substr }

/-- The loop `for (item = items; item && item->text; item++)` of `match`. -/
def matchloop (ci : Bool) (text : List Nat) (toks : List (List Nat)) :
    List item → Nat → Buckets → Buckets
  | [], _, b => b
  | it :: rest, idx, b => matchloop ci text toks rest (idx + 1) (matchstep ci text toks it idx b)

/-- Splice of the four lists at the end of `match` (dmenu.c:528-551). -/
def Buckets.splice (b : Buckets) : List Nat :=
  b.exact ++ b.hppre ++ b.pre ++ b.substr

/-- The Match List built by the token strategy of `match` (no dynamic command). -/
def tokenmatch (ci : Bool) (items : List item) (text : List Nat) : List Nat :=
  (matchloop ci text (tokv text) items 0 ⟨[], [], [], []⟩).splice

/-! ## Fuzzy matcher (`fuzzymatch`, dmenu.c:370-435) -/

/-- The `double` arithmetic the fuzzy pass uses, over a type `D` of values compared by
`<` and `==`: `log` is `log((double) k)`, `ofInt` the conversion `(double) k`, `add`
the sum. The development holds for every such arithmetic on a linear order. -/
structure Libm (D : Type) where
  log : Int → D
  ofInt : Int → D
  add : D → D → D

/-- The scan of one candidate text (dmenu.c:386-400), from index `i` with pattern
pointer `pidx` and start index `sidx`; returns `(sidx, eidx)`, `-1` meaning unset.

    for (i = 0; i < itext_len && (c = it->text[i]); i++)
        if (!fstrncmp(&text[pidx], &c, 1)) {
            if (sidx == -1) sidx = i;
            pidx++;
            if (pidx == text_len) { eidx = i; break; }
        } -/
def fuzzyscan (ci : Bool) (text : List Nat) : List Nat → Nat → Nat → Int → Int × Int
  | [], _, _, sidx => (sidx, -1)
  | c :: rest, i, pidx, sidx =>
    if fstrncmp ci (text.drop pidx) [c] 1 == 0 then
      let sidx1 : Int := if sidx == -1 then (i : Int) else sidx
      if pidx + 1 == text.length then (sidx1, (i : Int))
      else fuzzyscan ci text rest (i + 1) (pidx + 1) sidx1
    else fuzzyscan ci text rest (i + 1) pidx sidx

/-- The distance written to `it->distance` (dmenu.c:406):
`log(sidx + 2) + (double)(eidx - sidx - text_len)`. -/
def distance {D : Type} (L : Libm D) (sidx eidx : Int) (text_len : Nat) : D :=
  L.add (L.log (sidx + 2)) (L.ofInt (eidx - sidx - (text_len : Int)))

/-- The first loop of `fuzzymatch` for a non-empty query: the matching entries in the
order they are appended, each with the distance stored in it. -/
def fuzzycollect {D : Type} (L : Libm D) (ci : Bool) (text : List Nat) :
    List item → Nat → List (Nat × D)
  | [], _ => []
  | it :: rest, idx =>
    let r := fuzzyscan ci text it.text 0 0 (-1)
    if r.2 != -1 then
      (idx, distance L r.1 r.2 text.length) :: fuzzycollect L ci text rest (idx + 1)
    else fuzzycollect L ci text rest (idx + 1)

/-- The comparator `compare_distance` (dmenu.c:356) on two entries of the array of
matches, each an item pointer together with the `distance` stored in the item. The
array holds no null pointer, so the two null guards do not fire. -/
def compare_distance {D : Type} [LinearOrder D] (da db : Nat × D) : Int :=
  if da.2 = db.2 then 0 else if da.2 < db.2 then -1 else 1

/-- The Match List built by `fuzzymatch`; `qsort` is the C library sort applied to the
array of matches. With an empty query every entry is appended and nothing is sorted
(`number_of_matches` stays `0`). -/
def fuzzymatch {D : Type} [LinearOrder D] (L : Libm D)
    (qsort : (Nat × D → Nat × D → Int) → List (Nat × D) → List (Nat × D))
    (ci : Bool) (items : List item) (text : List Nat) : List Nat :=
  if text.length != 0 then
    let fuzzymatches := fuzzycollect L ci text items 0
    if fuzzymatches.length != 0 then (qsort compare_distance fuzzymatches).map Prod.fst
    else []
  else List.range items.length

/-- What the C standard promises of `qsort` with this comparator: the result is a
rearrangement of the array, in ascending order of the comparator. -/
def QsortSorts {D : Type} [LinearOrder D]
    (qsort : (Nat × D → Nat × D → Int) → List (Nat × D) → List (Nat × D)) : Prop :=
  ∀ l, List.Perm (qsort compare_distance l) l ∧
    List.Pairwise (fun a b => compare_distance a b ≤ 0) (qsort compare_distance l)

/-- A stable sort meeting the `qsort` contract: insertion sort. -/
def stableqsort {D : Type} (cmp : Nat × D → Nat × D → Int) (l : List (Nat × D)) :
    List (Nat × D) :=
  l.insertionSort fun a b => cmp a b ≤ 0

/-- A sort meeting the `qsort` contract that is not stable, written here to tell the
contract from stability (it is no library's `qsort`): insertion sort running over the
array from its other end, so that equal elements come out reversed. -/
def backqsort {D : Type} (cmp : Nat × D → Nat × D → Int) (l : List (Nat × D)) :
    List (Nat × D) :=
  l.reverse.insertionSort fun a b => cmp a b ≤ 0

/-- Floor of the binary logarithm, by repeated halving. -/
def ilog2 : Nat → Nat → Nat
  | 0, _ => 0
  | fuel + 1, n => if n < 2 then 0 else ilog2 fuel (n / 2) + 1

/-- An exact integer stand-in for the `double` arithmetic, used to run the examples:
`log` is the floor of the binary logarithm. -/
def intLibm : Libm Int where
  log := fun k => (ilog2 k.toNat k.toNat : Int)
  ofInt := fun k => k
  add := fun a b => a + b

/-! ## Engine state and collaborators -/

/-- The configuration and the collaborators that stay fixed once `setup` has run: the
command-line switches, the geometry, the font metrics of the drawing library, the
`double` arithmetic and `qsort` of the C library, and the external dynamic command. -/
structure Env (D : Type) where
  /-- `-i`: `fstrncmp == strncasecmp`, `fstrstr == cistrstr`. -/
  insensitive : Bool
  fuzzy : Bool
  /-- `-dy CMD`; `none` is `NULL`. -/
  dynamic : Option (List Nat)
  passwd : Bool
  max_lines : Nat
  /-- `-hp`: the high-priority strings; `none` is `NULL`. -/
  hpitems : Option (List (List Nat))
  centered : Bool
  promptheight : Int
  bh : Int
  mw : Int
  promptw : Int
  lrpad : Int
  /-- `sizeof text`. -/
  BUFSIZ : Nat
  /-- `drw_fontset_getwidth(drw, str)`. -/
  getwidth : List Nat → Nat
  /-- `drw_fontset_getwidth_clamp(drw, str, n)`. -/
  getwidth_clamp : List Nat → Nat → Nat
  /-- The lines `getline` returns from the output of `popen(cmd, "r")`. -/
  popen : List Nat → List (List Nat)
  /-- Content of `items[i].hp` that `readstdin` leaves unwritten when `hpitems` is `NULL`. -/
  heap_hp : Nat → Nat
  libm : Libm D
  qsort : (Nat × D → Nat × D → Int) → List (Nat × D) → List (Nat × D)

/-- The mutable globals of `dmenu.c`, with what the process has written to standard
output and its exit status once it has exited. `matches_` is the Match List
`matches` .. `matchend`. -/
structure State where
  items : List item
  text : List Nat
  cursor : Nat
  matches_ : List Nat
  prev : Option Nat
  curr : Option Nat
  next : Option Nat
  sel : Option Nat
  lines : Nat
  inputw : Int
  numbers : List Nat
  stdout : List (List Nat)
  exited : Option Nat
deriving DecidableEq, Repr

/-- `p->right` for a position `p` of the Match List. -/
def right (ms : List Nat) (p : Nat) : Option Nat :=
  if p + 1 < ms.length then some (p + 1) else none

/-- `p->left` for a position `p` of the Match List. -/
def left (p : Nat) : Option Nat :=
  if 0 < p then some (p - 1) else none

/-- The head pointer `matches` as a position. -/
def first (ms : List Nat) : Option Nat :=
  if ms = [] then none else some 0

/-- The end pointer `matchend` as a position. -/
def matchend (ms : List Nat) : Option Nat :=
  if ms = [] then none else some (ms.length - 1)

/-- The text of the entry at position `p` of the Match List. -/
def textat (s : State) (p : Nat) : List Nat :=
  ((s.items.get? (s.matches_.getD p 0)).map item.text).getD []

/-! ## Pager (`calcoffsets`, dmenu.c:137) -/

/-- `TEXTW(X)`: `drw_fontset_getwidth(drw, X) + lrpad`. -/
def TEXTW {D : Type} (e : Env D) (x : List Nat) : Int :=
  (e.getwidth x : Int) + e.lrpad

/-- Conversion of an `int` to `unsigned int`. -/
def toUnsigned (n : Int) : Nat :=
  (n % 4294967296).toNat

/-- `textw_clamp(str, n)` (dmenu.c:94): `MIN(w, n)` in `unsigned int`, the `int`
argument `n` being converted at the call. -/
def textw_clamp {D : Type} (e : Env D) (str : List Nat) (n : Int) : Nat :=
  let w := toUnsigned ((e.getwidth_clamp str (toUnsigned n) : Int) + e.lrpad)
  min w (toUnsigned n)

/-- Conversion of an `unsigned int` result to `int`: the value modulo `2^32` taken in
`-2^31 .. 2^31 - 1`. -/
def toSigned (n : Int) : Int :=
  (n + 2147483648) % 4294967296 - 2147483648

/-- The page budget `n` computed at the head of `calcoffsets`. The right-hand sides are
`unsigned int` expressions (`lines` and the widths are unsigned), so they are taken
modulo `2^32`, and the result is stored in the `int n`. -/
def budget {D : Type} (e : Env D) (s : State) : Int :=
  toSigned
    (if s.lines > 0 then
      (if e.centered then (s.lines : Int) * e.bh
       else ((s.lines : Int) - 1) * e.bh + e.promptheight)
    else
      e.mw - (e.promptw + s.inputw + TEXTW e [60] + TEXTW e [62] + TEXTW e s.numbers))

/-- What one entry adds to `i` in the loops of `calcoffsets`:
`(lines > 0) ? bh : textw_clamp(text, n)`. -/
def extent {D : Type} (e : Env D) (s : State) (n : Int) (p : Nat) : Int :=
  if s.lines > 0 then e.bh else (textw_clamp e (textat s p) n : Int)

/-- `for (i = 0, next = curr; next; next = next->right) if ((i += ..) > n) break;`
run from position `p` with `k` entries left in the list. -/
def calcnext {D : Type} (e : Env D) (s : State) (n : Int) : Nat → Nat → Int → Option Nat
  | 0, _, _ => none
  | k + 1, p, i =>
    if i + extent e s n p > n then some p else calcnext e s n k (p + 1) (i + extent e s n p)

/-- `for (i = 0, prev = curr; prev && prev->left; prev = prev->left)
if ((i += .. prev->left ..) > n) break;` run from position `p`. -/
def calcprev {D : Type} (e : Env D) (s : State) (n : Int) : Nat → Int → Nat
  | 0, _ => 0
  | p + 1, i =>
    if i + extent e s n p > n then p + 1 else calcprev e s n p (i + extent e s n p)

/-- `calcoffsets()`: recompute `next` and `prev` from `curr`. -/
def calcoffsets {D : Type} (e : Env D) (s : State) : State :=
  let n := budget e s
  match s.curr with
  | none => { s with next := none, prev := none }
  | some c =>
    { s with next := calcnext e s n (s.matches_.length - c) c 0,
             prev := some (calcprev e s n c 0) }

/-- The window height `mh` that `setup` derives from `lines` (dmenu.c:1111): one input
row and `lines` list rows. -/
def menuheight {D : Type} (e : Env D) (lines : Nat) : Int :=
  if e.centered then ((lines : Int) + 1) * e.bh else (lines : Int) * e.bh + e.promptheight

/-! ## Candidate store (`readstdin`) and dynamic source (`refreshoptions`) -/

/-- `strcmp` / `strcasecmp` as `str_compar` picks them (dmenu.c:101): the whole strings
are compared. -/
def str_compar (ci : Bool) (s0 s1 : List Nat) : Int :=
  fstrncmp ci s0 s1 (max s0.length s1.length + 1)

/-- The C string `items[i].text` that `readstdin` leaves for a line returned by
`getline`: a newline at the end of the line is overwritten by the terminator
(`line[len - 1] = 0`), and the string ends at the first NUL byte of the line. -/
def chomp (line : List Nat) : List Nat :=
  (if line.getLast? = some 10 then line.dropLast else line).takeWhile fun c => c != 0

/-- The value stored in `items[i].hp` (dmenu.c:981): the result of `bsearch` in the
sorted `hpitems` cast to `int` (non-zero for a hit) when a list is configured, else
the slot keeps what it held. -/
def hpflag {D : Type} (e : Env D) (i : Nat) (text : List Nat) : Nat :=
  match e.hpitems with
  | some hp => if hp.any (fun h => str_compar e.insensitive text h == 0) then 1 else 0
  | none => e.heap_hp i

/-- The loop of `readstdin` over the lines `getline` returns, from slot `i`. -/
def readlines {D : Type} (e : Env D) : List (List Nat) → Nat → List item
  | [], _ => []
  | line :: rest, i => ⟨chomp line, 0, hpflag e i (chomp line)⟩ :: readlines e rest (i + 1)

/-- `readstdin(stream)` (dmenu.c:957); the stream is given by its lines. -/
def readstdin {D : Type} (e : Env D) (s : State) (stream : List (List Nat)) : State :=
  if e.passwd then { s with inputw := 0, lines := 0 }
  else { s with items := readlines e stream 0, lines := min e.max_lines stream.length }

/-- The quoting loop of `refreshoptions` (dmenu.c:457): a quote becomes the four bytes
quote, backslash, quote, quote. -/
def shellquote : List Nat → List Nat
  | [] => []
  | c :: t => if c = 39 then 39 :: 92 :: 39 :: 39 :: shellquote t else c :: shellquote t

/-- The command line `cmd` built by `refreshoptions`. -/
def dyncmd (dynamic text : List Nat) : List Nat :=
  dynamic ++ [32, 39] ++ shellquote text ++ [39]

/-- The size `cmdlen` that `refreshoptions` allocates (dmenu.c:443-448):
`dynlen + 4`, plus 4 for a quote of the query and 1 for any other byte. -/
def cmdlen (dynamic : List Nat) : List Nat → Nat
  | [] => dynamic.length + 4
  | c :: t => cmdlen dynamic t + (if c = 39 then 4 else 1)

/-- `refreshoptions()` (dmenu.c:439); `popen` and `pclose` are taken to succeed. -/
def refreshoptions {D : Type} (e : Env D) (s : State) (dynamic : List Nat) : State :=
  readstdin e s (e.popen (dyncmd dynamic s.text))

/-! ## `match` (dmenu.c:478) -/

/-- The tail shared by the three branches: `curr = sel = matches; calcoffsets();`. -/
def rewind {D : Type} (e : Env D) (s : State) (ms : List Nat) : State :=
  calcoffsets e { s with matches_ := ms, curr := first ms, sel := first ms }

/-- `match()`: the fuzzy pass when `fuzzy` is set; else, with a dynamic command, the
refresh followed by the list of the whole store; else the token pass. -/
def match_ {D : Type} [LinearOrder D] (e : Env D) (s : State) : State :=
  if e.fuzzy then
    rewind e s (fuzzymatch e.libm e.qsort e.insensitive s.items s.text)
  else
    match e.dynamic with
    | some dynamic =>
      let s1 := refreshoptions e s dynamic
      rewind e s1 (List.range s1.items.length)
    | none => rewind e s (tokenmatch e.insensitive s.items s.text)

/-! ## Query buffer (`insert`, `nextrune`, `movewordedge`) -/

/-- The test `(c & 0xc0) == 0x80`: a UTF-8 continuation byte. -/
def iscont (c : Nat) : Bool :=
  c &&& 0xc0 == 0x80

/-- The byte `text[n]`; the terminator at the end of the string. -/
def byteat (text : List Nat) (n : Int) : Nat :=
  text.getD n.toNat 0

/-- The loop of `nextrune`:
`for (..; n + inc >= 0 && (text[n] & 0xc0) == 0x80; n += inc);`. -/
def nextrune.loop (text : List Nat) (inc : Int) : Nat → Int → Int
  | 0, n => n
  | fuel + 1, n =>
    if n + inc ≥ 0 ∧ iscont (byteat text n) = true then nextrune.loop text inc fuel (n + inc)
    else n

/-- `nextrune(inc)` (dmenu.c:569): the place of the next rune in direction `inc`. -/
def nextrune (s : State) (inc : Int) : Int :=
  nextrune.loop s.text inc (s.text.length + 1) ((s.cursor : Int) + inc)

/-- `insert(str, n)` (dmenu.c:556). The bound is tested in `size_t`; a negative `n`
removes the `-n` bytes before the cursor. -/
def insert {D : Type} [LinearOrder D] (e : Env D) (s : State) (str : List Nat) (n : Int) :
    State :=
  if ((s.text.length : Int) + n) % 18446744073709551616 > (e.BUFSIZ : Int) - 1 then s
  else
    let text1 :=
      if n > 0 then s.text.take s.cursor ++ str.take n.toNat ++ s.text.drop s.cursor
      else s.text.take ((s.cursor : Int) + n).toNat ++ s.text.drop s.cursor
    match_ e { s with text := text1, cursor := ((s.cursor : Int) + n).toNat }

/-- `strchr(worddelimiters, c)` is not null, for `worddelimiters = " "`. -/
def isdelim (c : Nat) : Bool :=
  c == 32 || c == 0

/-- `while (cursor > 0 && [!]strchr(worddelimiters, text[nextrune(-1)]))
cursor = nextrune(-1);` -/
def wordleft (delim : Bool) : Nat → State → State
  | 0, s => s
  | fuel + 1, s =>
    if s.cursor > 0 ∧ isdelim (byteat s.text (nextrune s (-1))) = delim then
      wordleft delim fuel { s with cursor := (nextrune s (-1)).toNat }
    else s

/-- `while (text[cursor] && [!]strchr(worddelimiters, text[cursor]))
cursor = nextrune(+1);` -/
def wordright (delim : Bool) : Nat → State → State
  | 0, s => s
  | fuel + 1, s =>
    if byteat s.text s.cursor ≠ 0 ∧ isdelim (byteat s.text s.cursor) = delim then
      wordright delim fuel { s with cursor := (nextrune s 1).toNat }
    else s

/-- `movewordedge(dir)` (dmenu.c:580). -/
def movewordedge (s : State) (dir : Int) : State :=
  if dir < 0 then
    wordleft false (s.text.length + 1) (wordleft true (s.text.length + 1) s)
  else
    wordright false (s.text.length + 1) (wordright true (s.text.length + 1) s)

/-- `while (cursor > 0 && [!]strchr(worddelimiters, text[nextrune(-1)]))
insert(NULL, nextrune(-1) - cursor);` of the delete-word key. -/
def deleteword {D : Type} [LinearOrder D] (e : Env D) (delim : Bool) : Nat → State → State
  | 0, s => s
  | fuel + 1, s =>
    if s.cursor > 0 ∧ isdelim (byteat s.text (nextrune s (-1))) = delim then
      deleteword e delim fuel (insert e s [] (nextrune s (-1) - (s.cursor : Int)))
    else s

/-! ## Renderer state (`drawmenu`) -/

/-- `recalculatenumbers()` (dmenu.c:218): `"%d/%d"` of the number of matches and the
number of candidates. -/
def recalculatenumbers (s : State) : List Nat :=
  (Nat.toDigits 10 s.matches_.length).map Char.toNat ++ [47] ++
    (Nat.toDigits 10 s.items.length).map Char.toNat

/-- The string `drawmenu` hands to `drw_text` for the input field (dmenu.c:255-269):
the query, or under `passwd` the buffer `censort`, zeroed and then filled with `.` over
`strlen(text)` bytes by `memset`. -/
def inputcell {D : Type} (e : Env D) (s : State) : List Nat :=
  if e.passwd then List.replicate s.text.length 46 else s.text

/-- `drawmenu()`: the only global it writes is `numbers`. What it reads to draw (`curr`,
`next`, the entries of the page) is not part of the embedding: a run in which `curr` is
`NULL` while entries are to be drawn, where the program faults on `curr->left` or in
`drawitem`, goes on here. -/
def drawmenu (s : State) : State :=
  { s with numbers := recalculatenumbers s }

/-! ## Input dispatcher (`keypress`, dmenu.c:596) -/

/-- The key symbols `keypress` tells apart. -/
inductive KeySym where
  | XK_a | XK_b | XK_c | XK_d | XK_e | XK_f | XK_g | XK_G | XK_h | XK_i | XK_j | XK_J
  | XK_k | XK_l | XK_m | XK_M | XK_n | XK_p | XK_u | XK_w | XK_y | XK_Y
  | XK_Left | XK_KP_Left | XK_Right | XK_KP_Right | XK_Up | XK_KP_Up | XK_Down | XK_KP_Down
  | XK_Return | XK_KP_Enter | XK_bracketleft | XK_Home | XK_KP_Home | XK_End | XK_KP_End
  | XK_Delete | XK_KP_Delete | XK_BackSpace | XK_Escape | XK_Next | XK_KP_Next
  | XK_Prior | XK_KP_Prior | XK_Tab | other
deriving DecidableEq, Repr

/-- The status `XmbLookupString` reports. -/
inductive Status where
  | XLookupNone | XBufferOverflow | XLookupChars | XLookupKeySym | XLookupBoth
deriving DecidableEq, Repr

/-- A key press as `keypress` sees it: the modifier bits of `ev->state` and what
`XmbLookupString` returned (`buf` is the 32-byte buffer, `len` the count written). -/
structure XKeyEvent where
  control : Bool
  mod1 : Bool
  shift : Bool
  ksym : KeySym
  buf : List Nat
  len : Nat
  status : Status
deriving DecidableEq, Repr

/-- `iscntrl` in the C locale. -/
def iscntrl (c : Nat) : Bool :=
  c < 32 || c == 127

/-- `sel->out = 1` on the store entry at index `i`. -/
def markout : List item → Nat → List item
  | [], _ => []
  | it :: rest, 0 => ⟨it.text, 1, it.hp⟩ :: rest
  | it :: rest, i + 1 => it :: markout rest i

/-- `exit(code)`. -/
def exit (s : State) (code : Nat) : State :=
  { s with exited := some code }

/-- The loop `while (next && (curr = curr->right)) calcoffsets();` of the End key. -/
def endloop {D : Type} (e : Env D) : Nat → State → State
  | 0, s => s
  | fuel + 1, s =>
    match s.next with
    | none => s
    | some _ =>
      match s.curr.bind (right s.matches_) with
      | none => { s with curr := none }
      | some c => endloop e fuel (calcoffsets e { s with curr := some c })

/-- The cases `XK_Up` and `XK_Down` of `keypress`, reached also from Left and Right. -/
def keyup {D : Type} (e : Env D) (s : State) : State :=
  match s.sel with
  | none => s
  | some p =>
    match left p with
    | none => s
    | some q =>
      if s.curr = some p then calcoffsets e { s with sel := some q, curr := s.prev }
      else { s with sel := some q }

/-- The case `XK_Down` of `keypress`. -/
def keydown {D : Type} (e : Env D) (s : State) : State :=
  match s.sel with
  | none => s
  | some p =>
    match right s.matches_ p with
    | none => s
    | some q =>
      if s.next = some q then calcoffsets e { s with sel := some q, curr := s.next }
      else { s with sel := some q }

/-- The second `switch (ksym)` of `keypress` (dmenu.c:687), before the final
`drawmenu()`; `return` leaves the state undrawn, which the flag in the result tells. -/
def keysym {D : Type} [LinearOrder D] (e : Env D) (s : State) (ev : XKeyEvent) (k : KeySym) :
    State × Bool :=
  match k with
  | .XK_Delete | .XK_KP_Delete =>
    if byteat s.text s.cursor = 0 then (s, false)
    else
      let s1 := { s with cursor := (nextrune s 1).toNat }
      if s1.cursor = 0 then (s1, false)
      else (insert e s1 [] (nextrune s1 (-1) - (s1.cursor : Int)), true)
  | .XK_BackSpace =>
    if s.cursor = 0 then (s, false)
    else (insert e s [] (nextrune s (-1) - (s.cursor : Int)), true)
  | .XK_End | .XK_KP_End =>
    if byteat s.text s.cursor ≠ 0 then ({ s with cursor := s.text.length }, true)
    else
      match s.next with
      | some _ =>
        let s1 := calcoffsets e { s with curr := matchend s.matches_ }
        let s2 := calcoffsets e { s1 with curr := s1.prev }
        let s3 := endloop e s.matches_.length s2
        ({ s3 with sel := matchend s.matches_ }, true)
      | none => ({ s with sel := matchend s.matches_ }, true)
  | .XK_Escape => (exit s 1, false)
  | .XK_Home | .XK_KP_Home =>
    if s.sel = first s.matches_ then ({ s with cursor := 0 }, true)
    else (calcoffsets e { s with sel := first s.matches_, curr := first s.matches_ }, true)
  | .XK_Left | .XK_KP_Left =>
    if s.cursor > 0 ∧ (s.sel = none ∨ s.sel.bind left = none ∨ s.lines > 0) then
      ({ s with cursor := (nextrune s (-1)).toNat }, true)
    else if s.lines > 0 then (s, false)
    else (keyup e s, true)
  | .XK_Up | .XK_KP_Up => (keyup e s, true)
  | .XK_Next | .XK_KP_Next =>
    match s.next with
    | none => (s, false)
    | some p => (calcoffsets e { s with sel := some p, curr := some p }, true)
  | .XK_Prior | .XK_KP_Prior =>
    match s.prev with
    | none => (s, false)
    | some p => (calcoffsets e { s with sel := some p, curr := some p }, true)
  | .XK_Return | .XK_KP_Enter =>
    let line := match s.sel with
      | some p => if ev.shift then s.text else textat s p
      | none => s.text
    let s1 := { s with stdout := s.stdout ++ [line] }
    if !ev.control then (exit s1 0, false)
    else
      match s1.sel with
      | some p =>
        ({ s1 with items := markout s1.items (s1.matches_.getD p 0) }, true)
      | none => (s1, true)
  | .XK_Right | .XK_KP_Right =>
    if byteat s.text s.cursor ≠ 0 then ({ s with cursor := (nextrune s 1).toNat }, true)
    else if s.lines > 0 then (s, false)
    else (keydown e s, true)
  | .XK_Down | .XK_KP_Down => (keydown e s, true)
  | .XK_Tab =>
    match s.sel with
    | none => (s, false)
    | some p =>
      let cursor := min (textat s p).length (e.BUFSIZ - 1)
      (match_ e { s with cursor := cursor, text := (textat s p).take cursor }, true)
  | _ =>
    if !iscntrl (ev.buf.headD 0) then (insert e s ev.buf ev.len, true) else (s, true)

/-- The first `switch` of `keypress` under `ControlMask` (dmenu.c:615). A case that
ends in `break` goes on to the second `switch` with the key symbol it leaves in `ksym`;
for the editing keys `k`, `u`, `w` that is the key itself, hence the `default` case. -/
def keycontrol {D : Type} [LinearOrder D] (e : Env D) (s : State) (ev : XKeyEvent) :
    State × Bool :=
  match ev.ksym with
  | .XK_a => keysym e s ev .XK_Home
  | .XK_b => keysym e s ev .XK_Left
  | .XK_c => keysym e s ev .XK_Escape
  | .XK_d => keysym e s ev .XK_Delete
  | .XK_e => keysym e s ev .XK_End
  | .XK_f => keysym e s ev .XK_Right
  | .XK_g => keysym e s ev .XK_Escape
  | .XK_h => keysym e s ev .XK_BackSpace
  | .XK_i => keysym e s ev .XK_Tab
  | .XK_j | .XK_J | .XK_m | .XK_M => keysym e s { ev with control := false } .XK_Return
  | .XK_n => keysym e s ev .XK_Down
  | .XK_p => keysym e s ev .XK_Up
  | .XK_k => keysym e (match_ e { s with text := s.text.take s.cursor }) ev ev.ksym
  | .XK_u => keysym e (insert e s [] (0 - (s.cursor : Int))) ev ev.ksym
  | .XK_w =>
    keysym e (deleteword e false (s.text.length + 1) (deleteword e true (s.text.length + 1) s))
      ev ev.ksym
  | .XK_y | .XK_Y => (s, false)
  | .XK_Left | .XK_KP_Left => (movewordedge s (-1), true)
  | .XK_Right | .XK_KP_Right => (movewordedge s 1, true)
  | .XK_Return | .XK_KP_Enter => keysym e s ev ev.ksym
  | .XK_bracketleft => (exit s 1, false)
  | _ => (s, false)

/-- The first `switch` of `keypress` under `Mod1Mask` (dmenu.c:668). -/
def keymod1 {D : Type} [LinearOrder D] (e : Env D) (s : State) (ev : XKeyEvent) :
    State × Bool :=
  match ev.ksym with
  | .XK_b => (movewordedge s (-1), true)
  | .XK_f => (movewordedge s 1, true)
  | .XK_g => keysym e s ev .XK_Home
  | .XK_G => keysym e s ev .XK_End
  | .XK_h => keysym e s ev .XK_Up
  | .XK_j => keysym e s ev .XK_Next
  | .XK_k => keysym e s ev .XK_Prior
  | .XK_l => keysym e s ev .XK_Down
  | _ => (s, false)

/-- `keypress(ev)` up to the label `draw`. -/
def keydispatch {D : Type} [LinearOrder D] (e : Env D) (s : State) (ev : XKeyEvent) :
    State × Bool :=
  match ev.status with
  | .XLookupNone | .XBufferOverflow => (s, false)
  | .XLookupChars => keysym e s ev .other
  | .XLookupKeySym | .XLookupBoth =>
    if ev.control then keycontrol e s ev
    else if ev.mod1 then keymod1 e s ev
    else keysym e s ev ev.ksym

/-- `keypress(ev)` (dmenu.c:596). -/
def keypress {D : Type} [LinearOrder D] (e : Env D) (s : State) (ev : XKeyEvent) : State :=
  let r := keydispatch e s ev
  if r.2 then drawmenu r.1 else r.1

/-- The event loop of `run` over key presses: events are taken until the process exits. -/
def runkeys {D : Type} [LinearOrder D] (e : Env D) : List XKeyEvent → State → State
  | [], s => s
  | ev :: evs, s => if s.exited.isSome then s else runkeys e evs (keypress e s ev)

/-! ## Reference notions the matcher is compared with -/

/-- The space-separated tokens of a query: the non-empty pieces between spaces. -/
def spaceTokens (q : List Nat) : List (List Nat) :=
  (q.splitOn 32).filter fun t => t ≠ []

/-- Substring under the active case folding. -/
def foldInfix (ci : Bool) (t h : List Nat) : Prop :=
  t.map (fold ci) <:+: h.map (fold ci)

instance (ci : Bool) (t h : List Nat) : Decidable (foldInfix ci t h) := by
  unfold foldInfix; infer_instance

/-- Leading substring under the active case folding. -/
def foldStarts (ci : Bool) (t h : List Nat) : Prop :=
  t.map (fold ci) <+: h.map (fold ci)

instance (ci : Bool) (t h : List Nat) : Decidable (foldStarts ci t h) := by
  unfold foldStarts; infer_instance

/-- The token predicate of the spec: every token of the query is a substring of the text. -/
def tokenPred (ci : Bool) (q t : List Nat) : Prop :=
  ∀ tok ∈ spaceTokens q, foldInfix ci tok t

instance (ci : Bool) (q t : List Nat) : Decidable (tokenPred ci q t) := by
  unfold tokenPred; infer_instance

/-- Does the text start with the first token of the query (false without a token). -/
def startsFirstToken (ci : Bool) (q t : List Nat) : Prop :=
  ∃ tok ∈ (spaceTokens q).head?, foldStarts ci tok t

instance (ci : Bool) (q t : List Nat) : Decidable (startsFirstToken ci q t) := by
  unfold startsFirstToken; infer_instance

/-- The first bucket of the spec whose condition a candidate meets: `0` Exact, `1`
High-priority prefix, `2` Prefix, `3` Substring; `none` when it does not match. -/
def specBucket (ci : Bool) (q : List Nat) (it : item) : Option Nat :=
  if ¬ tokenPred ci q it.text then none
  else if it.text.map (fold ci) = q.map (fold ci) then some 0
  else if it.hp ≠ 0 ∧ startsFirstToken ci q it.text then some 1
  else if startsFirstToken ci q it.text then some 2
  else some 3

/-- The candidates of bucket `k`, in store order. -/
def bucketList (ci : Bool) (q : List Nat) (items : List item) (k : Nat) : List Nat :=
  (items.enum.filter fun p => specBucket ci q p.2 = some k).map Prod.fst

/-- The order the spec prescribes for the token strategy: Exact, High-priority
prefix, Prefix, Substring, each in store order. -/
def bucketOrder (ci : Bool) (q : List Nat) (items : List item) : List Nat :=
  bucketList ci q items 0 ++ bucketList ci q items 1 ++ bucketList ci q items 2 ++
    bucketList ci q items 3

/-- Append the index to the list of bucket `k` (to none of them without a bucket). -/
def Buckets.add (b : Buckets) (k : Option Nat) (idx : Nat) : Buckets :=
  match k with
  | none => b
  | some 0 => { b with exact := b.exact ++ [idx] }
  | some 1 => { b with hppre := b.hppre ++ [idx] }
  | some 2 => { b with pre := b.pre ++ [idx] }
  | some 3 => { b with substr := b.substr ++ [idx] }
  | some _ => b

/-- The indices, counted from `idx`, of the entries that a classifier sends to bucket `k`. -/
def pick (cls : item → Option Nat) (k : Nat) (idx : Nat) (items : List item) : List Nat :=
  ((items.enumFrom idx).filter fun p => cls p.2 = some k).map Prod.fst

/-- The greedy earliest embedding of the query bytes `q` in `rest`, the part of a text
from index `off` on: each byte is placed at its first occurrence after the place of
the byte before it (compared under the active case folding). The result lists the
places `p_0 < p_1 < ..`; `none` when a byte has no place left. -/
def earliest (ci : Bool) : List Nat → List Nat → Nat → Option (List Nat)
  | [], _, _ => some []
  | c :: q, rest, off =>
    let k := (rest.map (fold ci)).indexOf (fold ci c)
    if k < rest.length then
      (earliest ci q (rest.drop (k + 1)) (off + k + 1)).map fun ps => (off + k) :: ps
    else none

/-- The distance of the spec: `ln(p_first + 2) + (p_last - p_first - n)` for the greedy
earliest embedding `p_first .. p_last` of the `n` query bytes; `none` without one. -/
def specDistance {D : Type} (L : Libm D) (ci : Bool) (q t : List Nat) : Option D :=
  (earliest ci q t 0).map fun ps =>
    L.add (L.log ((ps.headD 0 : Nat) + 2))
      (L.ofInt ((ps.getLastD 0 : Nat) - (ps.headD 0 : Nat) - (q.length : Int)))

/-- The fuzzy predicate of the spec: the query bytes occur in the text in order, not
necessarily adjacent, compared under the active case folding. -/
def fuzzyPred (ci : Bool) (q t : List Nat) : Prop :=
  List.Sublist (q.map (fold ci)) (t.map (fold ci))

instance (ci : Bool) (q t : List Nat) : Decidable (fuzzyPred ci q t) := by
  unfold fuzzyPred; infer_instance

/-- The pager invariant of the spec: with a non-empty Match List `curr` and `sel` are
set, `curr` is at or before `sel`, and `sel` is strictly before `next` (`NULL` being
past the end); with an empty one `curr` and `sel` are both `NULL`. -/
def pagerInv (s : State) : Bool :=
  match s.matches_, s.curr, s.sel with
  | [], c, p => c == none && p == none
  | _ :: _, some c, some p =>
    decide (c ≤ p) && decide (p < s.matches_.length) &&
      (match s.next with
       | none => true
       | some n => decide (p < n))
  | _ :: _, _, _ => false

/-- The number of entries of the visible page `curr` .. `next`. -/
def pagerows (s : State) : Nat :=
  match s.curr, s.next with
  | some c, some n => n - c
  | some c, none => s.matches_.length - c
  | none, _ => 0

/-- Length of the rune a lead byte opens (`0` for a byte that opens none): one byte
below `0x80`, two from `0xC0`, three from `0xE0`, four from `0xF0` to `0xF7`. -/
def runelen (c : Nat) : Nat :=
  if c < 0x80 then 1
  else if 0xC0 ≤ c ∧ c < 0xE0 then 2
  else if 0xE0 ≤ c ∧ c < 0xF0 then 3
  else if 0xF0 ≤ c ∧ c < 0xF8 then 4
  else 0

/-- Well-formed UTF-8 text of a C string, read left to right; `need` is the number of
continuation bytes the open rune still lacks. A rune is a lead byte (not `NUL`, not a
continuation byte) followed by as many continuation bytes as the lead byte asks for. -/
def utf8 : Nat → List Nat → Bool
  | 0, [] => true
  | _ + 1, [] => false
  | 0, c :: r => !iscont c && c != 0 && runelen c != 0 && utf8 (runelen c - 1) r
  | need + 1, c :: r => iscont c && utf8 need r

/-- A well-formed UTF-8 string. -/
def wellformed (str : List Nat) : Bool :=
  utf8 0 str

/-- The number of runes of a string: its bytes that are not continuation bytes. -/
def runecount (str : List Nat) : Nat :=
  str.countP fun c => !iscont c

/-- The Query Buffer invariant of the spec: `0 <= cursor <= length` and the byte at the
cursor is not a continuation byte. -/
def bufferInv (s : State) : Prop :=
  s.cursor ≤ s.text.length ∧ iscont (byteat s.text s.cursor) = false

instance (s : State) : Decidable (bufferInv s) := by
  unfold bufferInv; infer_instance

/-- The key press BackSpace without modifiers. -/
def backspace : XKeyEvent :=
  { control := false, mod1 := false, shift := false, ksym := .XK_BackSpace, buf := [8],
    len := 1, status := .XLookupBoth }

/-- The same key pressed `k` times. -/
def presses {D : Type} [LinearOrder D] (e : Env D) (ev : XKeyEvent) : Nat → State → State
  | 0, s => s
  | k + 1, s => presses e ev k (keypress e s ev)

/-- A key press that types the bytes `str`. -/
def typed (str : List Nat) : XKeyEvent :=
  { control := false, mod1 := false, shift := false, ksym := .other, buf := str,
    len := str.length, status := .XLookupChars }

/-- A key press of the key `k` with the given modifiers, no text attached. -/
def key (k : KeySym) (control mod1 shift : Bool) : XKeyEvent :=
  { control := control, mod1 := mod1, shift := shift, ksym := k, buf := [], len := 0,
    status := .XLookupKeySym }

/-- The invariant carried through the key presses: the buffer invariant, and the text
does not begin with a continuation byte. -/
def bufOk (s : State) : Prop :=
  s.cursor ≤ s.text.length ∧ iscont (byteat s.text s.cursor) = false ∧
    iscont (byteat s.text 0) = false

/-- No candidate text begins with a continuation byte. -/
def itemsOk (items : List item) : Prop :=
  ∀ it ∈ items, iscont (it.text.headD 0) = false

/-- The part of the state the buffer invariant depends on: the query, the cursor and the
candidate texts. -/
def core (s : State) : List Nat × Nat × List (List Nat) :=
  (s.text, s.cursor, s.items.map item.text)

/-- A key press whose text, when `keypress` inserts it (first byte not a control
character), is `len` bytes of well-formed UTF-8 held in `buf`. -/
def evOk (ev : XKeyEvent) : Prop :=
  iscntrl (ev.buf.headD 0) = false →
    ev.len ≤ ev.buf.length ∧ wellformed (ev.buf.take ev.len) = true

instance (ev : XKeyEvent) : Decidable (evOk ev) := by
  unfold evOk; infer_instance

/-- The invariant carried through the key presses, with the one on the store. -/
def keyOk (s : State) : Prop :=
  bufOk s ∧ itemsOk s.items

/-- The quoted argument of the spec: each single-quote byte replaced by the four bytes
`'\''`, every other byte copied unchanged. -/
def quoted (q : List Nat) : List Nat :=
  q.flatMap fun c => if c = 39 then [39, 92, 39, 39] else [c]

/-- The line a commit writes, as the spec has it: the text of the selection when there
is one and the raw modifier (Shift) is not held, else the query. -/
def commitline (s : State) (shift : Bool) : List Nat :=
  match s.sel with
  | some p => if shift then s.text else textat s p
  | none => s.text

/-- A commit key press: Return or Enter looked up as a key symbol, with `Control` (the
keep modifier) or else without `Mod1` (under `Mod1` alone the key is not bound). -/
def iscommit (ev : XKeyEvent) : Prop :=
  (ev.ksym = .XK_Return ∨ ev.ksym = .XK_KP_Enter) ∧
    (ev.status = .XLookupKeySym ∨ ev.status = .XLookupBoth) ∧
    (ev.control = true ∨ ev.mod1 = false)

instance (ev : XKeyEvent) : Decidable (iscommit ev) := by
  unfold iscommit; infer_instance

/-- A key looked up as a key symbol and pressed without `Control` and without `Mod1`. -/
def isplain (ev : XKeyEvent) : Prop :=
  (ev.status = .XLookupKeySym ∨ ev.status = .XLookupBoth) ∧ ev.control = false ∧
    ev.mod1 = false

instance (ev : XKeyEvent) : Decidable (isplain ev) := by
  unfold isplain; infer_instance

/-- The globals `calcoffsets` reads besides `curr`: `lines`, `inputw`, `numbers`, the
store and the Match List. -/
def geom (s : State) : Nat × Int × List Nat × List item × List Nat :=
  (s.lines, s.inputw, s.numbers, s.items, s.matches_)

/-! ## Concrete inputs of the examples -/

/-- The store `aaa`, `bab`, `bba` of end-to-end scenario 7. -/
def scenario7 : List item :=
  [⟨[97, 97, 97], 0, 0⟩, ⟨[98, 97, 98], 0, 0⟩, ⟨[98, 98, 97], 0, 0⟩]

/-- The store `xxa`, `a`: the second candidate matches `a` earlier. -/
def latehit : List item :=
  [⟨[120, 120, 97], 0, 0⟩, ⟨[97], 0, 0⟩]

/-- Two candidates with the same text `a`. -/
def twins : List item :=
  [⟨[97], 0, 0⟩, ⟨[97], 0, 0⟩]

/-- The store `apple`, `banana`, `cherry` of the end-to-end scenarios. -/
def fruit : List item :=
  [⟨[97, 112, 112, 108, 101], 0, 0⟩, ⟨[98, 97, 110, 97, 110, 97], 0, 0⟩,
    ⟨[99, 104, 101, 114, 114, 121], 0, 0⟩]

/-- The globals as `main` leaves them before the first `readstdin`: no store, empty
query, `numbers` empty. -/
def State.initial (lines : Nat) (inputw : Int) : State :=
  { items := [], text := [], cursor := 0, matches_ := [], prev := none, curr := none,
    next := none, sel := none, lines := lines, inputw := inputw, numbers := [],
    stdout := [], exited := none }

/-- A configuration for the examples: token strategy, case-sensitive, no dynamic
command, vertical list of rows 20 high under a prompt row 30 high, every glyph 8 wide,
a buffer of 16 bytes, and a dynamic command whose output is the two lines `x`, `y`. -/
def demo : Env Int :=
  { insensitive := false, fuzzy := false, dynamic := none, passwd := false, max_lines := 3,
    hpitems := none, centered := false, promptheight := 30, bh := 20, mw := 600,
    promptw := 0, lrpad := 16, BUFSIZ := 16,
    getwidth := fun str => 8 * str.length,
    getwidth_clamp := fun str n => min (8 * str.length) n,
    popen := fun _ => [[120, 10], [121, 10]],
    heap_hp := fun _ => 0, libm := intLibm, qsort := stableqsort }

/-- Five candidate lines `a` .. `e`, each ending in a newline. -/
def fivelines : List (List Nat) :=
  [[97, 10], [98, 10], [99, 10], [100, 10], [101, 10]]

/-- A store with the one candidate `hé`, read from standard input. -/
def accent : State :=
  readstdin demo (State.initial 3 200) [[104, 195, 169, 10]]

/-- Key presses: type `hé`, Left, type `€`, Ctrl-Left, Right, Delete, End, BackSpace,
Ctrl-w, Tab, Ctrl-k, Home. -/
def demokeys : List XKeyEvent :=
  [typed [104, 195, 169], key .XK_Left false false false, typed [226, 130, 172],
    key .XK_Left true false false, key .XK_Right false false false,
    key .XK_Delete false false false, key .XK_End false false false, backspace,
    key .XK_w true false false, key .XK_Tab false false false, key .XK_k true false false,
    key .XK_Home false false false]

/-- A query of ten bytes `aaaaaaaaaa` with the cursor after the third, matched against
the store `hé`. -/
def tenbytes : State :=
  match_ demo { accent with text := List.replicate 10 97, cursor := 3 }

/-- The store `Apple`, `BANANA`, `apricot`, the second entry high-priority. -/
def mixedcase : List item :=
  [⟨[65, 112, 112, 108, 101], 0, 0⟩, ⟨[66, 65, 78, 65, 78, 65], 0, 1⟩,
    ⟨[97, 112, 114, 105, 99, 111, 116], 0, 0⟩]

/-- The same store written `aPPLE`, `banana`, `APRICOT`. -/
def casemixed : List item :=
  [⟨[97, 80, 80, 76, 69], 0, 0⟩, ⟨[98, 97, 110, 97, 110, 97], 0, 1⟩,
    ⟨[65, 80, 82, 73, 67, 79, 84], 0, 0⟩]

/-- The demo configuration with a horizontal list (`lines = 0`). -/
def hdemo : Env Int :=
  { demo with max_lines := 0 }

/-- Horizontal mode, store `apple`, `banana`, `cherry`: after typing `a` (the matches
are `apple` and `banana`) and pressing Left, the cursor is at the start of the query. -/
def typedleft : State :=
  runkeys hdemo [typed [97], key .XK_Left false false false]
    (match_ hdemo { State.initial 0 200 with items := fruit })

/-- The store `a` .. `e` read under `demo` (three lines) and matched with the empty
query: five matches, the first page open. -/
def fivepage : State :=
  match_ demo (readstdin demo (State.initial 3 200) fivelines)

/-- The store `pear`, `apple pie`, `apple`, `apple pie` matched under `demo` with the
query `pie`: the Match List is the two `apple pie` entries, the first one selected. -/
def pies : State :=
  match_ demo { State.initial 3 200 with
    items := [⟨[112, 101, 97, 114], 0, 0⟩,
      ⟨[97, 112, 112, 108, 101, 32, 112, 105, 101], 0, 0⟩,
      ⟨[97, 112, 112, 108, 101], 0, 0⟩,
      ⟨[97, 112, 112, 108, 101, 32, 112, 105, 101], 0, 0⟩],
    text := [112, 105, 101], cursor := 3 }

/-- The state `pies` after Down: the second `apple pie` (store index 3) is selected. -/
def piesnext : State :=
  runkeys demo [key .XK_Down false false false] pies

/-! # Theorems -/

/-! ## String primitives -/

theorem strstr_scan_iff (n h : List Nat) : strstr.scan n h = true ↔ n <+: h := by
  induction n generalizing h with
  | nil => simp [strstr.scan]
  | cons c n ih =>
    cases h with
    | nil => simp [strstr.scan]
    | cons d h => simp [strstr.scan, ih, List.cons_prefix_cons]

theorem cistrstr_scan_iff (n h : List Nat) :
    cistrstr.scan n h = true ↔ n.map tolower <+: h.map tolower := by
  induction n generalizing h with
  | nil => simp [cistrstr.scan]
  | cons c n ih =>
    cases h with
    | nil => simp [cistrstr.scan]
    | cons d h => simp [cistrstr.scan, ih, List.cons_prefix_cons]

theorem strstr_isSome_iff (h n : List Nat) : (strstr h n).isSome = true ↔ n <:+: h := by
  cases n with
  | nil => simp [strstr]
  | cons a n =>
    induction h with
    | nil => simp [strstr]
    | cons c r ih =>
      rw [strstr]
      by_cases hs : strstr.scan (a :: n) (c :: r) = true
      · simp only [hs, if_true, Option.isSome_some, true_iff]
        exact ((strstr_scan_iff _ _).1 hs).isInfix
      · simp only [hs, if_false, Bool.false_eq_true]
        rw [ih, List.infix_cons_iff]
        have : ¬ (a :: n <+: c :: r) := fun hp => hs ((strstr_scan_iff _ _).2 hp)
        tauto

theorem cistrstr_isSome_iff (h n : List Nat) :
    (cistrstr h n).isSome = true ↔ n.map tolower <:+: h.map tolower := by
  cases n with
  | nil => simp [cistrstr]
  | cons a n =>
    induction h with
    | nil => simp [cistrstr]
    | cons c r ih =>
      rw [cistrstr]
      by_cases hs : cistrstr.scan (a :: n) (c :: r) = true
      · simp only [hs, if_true, Option.isSome_some, true_iff]
        exact ((cistrstr_scan_iff _ _).1 hs).isInfix
      · simp only [hs, if_false, Bool.false_eq_true]
        rw [ih, List.map_cons, List.map_cons, List.infix_cons_iff]
        have : ¬ ((a :: n).map tolower <+: (c :: r).map tolower) :=
          fun hp => hs ((cistrstr_scan_iff _ _).2 hp)
        simp only [List.map_cons] at this
        tauto

theorem fstrstr_isSome_iff (ci : Bool) (h n : List Nat) :
    (fstrstr ci h n).isSome = true ↔ foldInfix ci n h := by
  cases ci
  · have hf : fold false = id := by funext c; simp [fold]
    simp [fstrstr, foldInfix, hf, strstr_isSome_iff]
  · have hf : fold true = tolower := by funext c; simp [fold]
    simp [fstrstr, foldInfix, hf, cistrstr_isSome_iff]

theorem strtok_go_eq (s acc : List Nat) :
    strtok.go 32 s acc =
      (List.splitOnP.go (fun c => c == 32) s acc).filter fun t => t ≠ [] := by
  induction s generalizing acc with
  | nil =>
    by_cases h : acc = []
    · simp [strtok.go, List.splitOnP.go, h]
    · simp [strtok.go, List.splitOnP.go, h]
  | cons c s ih =>
    by_cases hc : c = 32
    · by_cases h : acc = []
      · simp [strtok.go, List.splitOnP.go, hc, h, ih]
      · simp [strtok.go, List.splitOnP.go, hc, h, ih]
    · simp [strtok.go, List.splitOnP.go, hc, ih]

theorem tokv_eq_spaceTokens (q : List Nat) : tokv q = spaceTokens q := by
  unfold tokv spaceTokens List.splitOn List.splitOnP
  exact strtok_go_eq q []

theorem strncasecmp_eq (a b : List Nat) (n : Nat) :
    strncasecmp a b n = strncmp (a.map tolower) (b.map tolower) n := by
  induction n generalizing a b with
  | zero => simp [strncasecmp, strncmp]
  | succ n ih =>
    cases a with
    | nil => cases b <;> simp [strncasecmp, strncmp]
    | cons x a =>
      cases b with
      | nil => simp [strncasecmp, strncmp]
      | cons y b => simp [strncasecmp, strncmp, ih]

theorem fstrncmp_eq (ci : Bool) (a b : List Nat) (n : Nat) :
    fstrncmp ci a b n = strncmp (a.map (fold ci)) (b.map (fold ci)) n := by
  cases ci
  · have hf : fold false = id := by funext c; simp [fold]
    simp [fstrncmp, hf]
  · have hf : fold true = tolower := by funext c; simp [fold]
    simp [fstrncmp, hf, strncasecmp_eq]

theorem bytecmp_ne (a b : Nat) (h : a ≠ b) : bytecmp a b ≠ 0 := by
  unfold bytecmp
  split_ifs <;> simp_all

theorem strncmp_length_iff (a b : List Nat) : strncmp a b a.length = 0 ↔ a <+: b := by
  induction a generalizing b with
  | nil => simp [strncmp]
  | cons x a ih =>
    cases b with
    | nil => simp [strncmp]
    | cons y b =>
      by_cases h : x = y
      · simp [strncmp, h, ih, List.cons_prefix_cons]
      · simp [strncmp, h, List.cons_prefix_cons, bytecmp_ne x y h]

theorem strncmp_succ_length_iff (a b : List Nat) : strncmp a b (a.length + 1) = 0 ↔ a = b := by
  induction a generalizing b with
  | nil => cases b <;> simp [strncmp]
  | cons x a ih =>
    cases b with
    | nil => simp [strncmp]
    | cons y b =>
      by_cases h : x = y
      · simp [strncmp, h, ih]
      · simp [strncmp, h, bytecmp_ne x y h]

/-! ## Token matcher -/

theorem alltokens_iff (ci : Bool) (q t : List Nat) :
    alltokens ci (tokv q) t = true ↔ tokenPred ci q t := by
  simp [alltokens, tokenPred, tokv_eq_spaceTokens, fstrstr_isSome_iff]

theorem fstrncmp_exact_iff (ci : Bool) (q t : List Nat) :
    fstrncmp ci q t (q.length + 1) = 0 ↔ t.map (fold ci) = q.map (fold ci) := by
  rw [fstrncmp_eq]
  have := strncmp_succ_length_iff (q.map (fold ci)) (t.map (fold ci))
  rw [List.length_map] at this
  rw [this]
  exact eq_comm

theorem fstrncmp_starts_iff (ci : Bool) (tok t : List Nat) :
    fstrncmp ci tok t tok.length = 0 ↔ foldStarts ci tok t := by
  rw [fstrncmp_eq]
  have := strncmp_length_iff (tok.map (fold ci)) (t.map (fold ci))
  rw [List.length_map] at this
  rw [this]
  rfl

theorem matchstep_eq_add (ci : Bool) (q : List Nat) (it : item) (idx : Nat) (b : Buckets)
    (h : tokv q ≠ []) :
    matchstep ci q (tokv q) it idx b = b.add (specBucket ci q it) idx := by
  obtain ⟨t1, ts, hts⟩ := List.exists_cons_of_ne_nil h
  have hhead : (spaceTokens q).head? = some t1 := by
    rw [← tokv_eq_spaceTokens, hts]; rfl
  have hstart : startsFirstToken ci q it.text ↔ foldStarts ci t1 it.text := by
    simp [startsFirstToken, hhead]
  unfold matchstep specBucket
  by_cases h1 : tokenPred ci q it.text
  · have h1b : alltokens ci (tokv q) it.text = true := (alltokens_iff ci q it.text).2 h1
    rw [hts] at h1b
    by_cases h2 : it.text.map (fold ci) = q.map (fold ci)
    · have h2b : fstrncmp ci q it.text (q.length + 1) = 0 := (fstrncmp_exact_iff ci q it.text).2 h2
      simp [h1, h1b, h2, h2b, hts, Buckets.add, appenditem]
    · have h2b : ¬ fstrncmp ci q it.text (q.length + 1) = 0 :=
        fun hh => h2 ((fstrncmp_exact_iff ci q it.text).1 hh)
      by_cases h3 : foldStarts ci t1 it.text
      · have h3b : fstrncmp ci t1 it.text t1.length = 0 := (fstrncmp_starts_iff ci t1 it.text).2 h3
        by_cases h4 : it.hp = 0
        · simp [h1, h1b, h2, h2b, hts, hstart, h3, h3b, h4, Buckets.add, appenditem]
        · simp [h1, h1b, h2, h2b, hts, hstart, h3, h3b, h4, Buckets.add, appenditem]
      · have h3b : ¬ fstrncmp ci t1 it.text t1.length = 0 :=
          fun hh => h3 ((fstrncmp_starts_iff ci t1 it.text).1 hh)
        simp [h1, h1b, h2, h2b, hts, hstart, h3, h3b, Buckets.add, appenditem]
  · have h1b : alltokens ci (tokv q) it.text = false := by
      rw [← Bool.not_eq_true]; exact fun hh => h1 ((alltokens_iff ci q it.text).1 hh)
    simp [h1, h1b, Buckets.add]

theorem matchstep_no_tokens (ci : Bool) (q : List Nat) (it : item) (idx : Nat) (b : Buckets) :
    matchstep ci q [] it idx b = b.add (some 0) idx := by
  simp [matchstep, alltokens, Buckets.add, appenditem]

theorem matchloop_eq_pick (ci : Bool) (q : List Nat) (toks : List (List Nat))
    (cls : item → Option Nat)
    (hstep : ∀ it idx b, matchstep ci q toks it idx b = b.add (cls it) idx)
    (items : List item) (idx : Nat) (b : Buckets) :
    matchloop ci q toks items idx b =
      ⟨b.exact ++ pick cls 0 idx items, b.hppre ++ pick cls 1 idx items,
        b.pre ++ pick cls 2 idx items, b.substr ++ pick cls 3 idx items⟩ := by
  induction items generalizing idx b with
  | nil => simp [matchloop, pick]
  | cons it rest ih =>
    rw [matchloop, ih, hstep]
    rcases hc : cls it with _ | k
    · simp [Buckets.add, pick, List.enumFrom, List.filter_cons, hc]
    · match k with
      | 0 => simp [Buckets.add, pick, List.enumFrom, List.filter_cons, hc]
      | 1 => simp [Buckets.add, pick, List.enumFrom, List.filter_cons, hc]
      | 2 => simp [Buckets.add, pick, List.enumFrom, List.filter_cons, hc]
      | 3 => simp [Buckets.add, pick, List.enumFrom, List.filter_cons, hc]
      | k + 4 => simp [Buckets.add, pick, List.enumFrom, List.filter_cons, hc]

theorem bucketList_eq_pick (ci : Bool) (q : List Nat) (items : List item) (k : Nat) :
    bucketList ci q items k = pick (specBucket ci q) k 0 items := rfl

theorem pick_const_zero (items : List item) (idx : Nat) :
    pick (fun _ => some 0) 0 idx items = List.range' idx items.length := by
  simp [pick, List.enumFrom_map_fst]

theorem pick_const_succ (items : List item) (idx k : Nat) :
    pick (fun _ => some 0) (k + 1) idx items = [] := by
  simp [pick]

theorem tokenmatch_eq (ci : Bool) (items : List item) (q : List Nat) :
    tokenmatch ci items q =
      if spaceTokens q = [] then List.range items.length else bucketOrder ci q items := by
  unfold tokenmatch
  by_cases h : spaceTokens q = []
  · have ht : tokv q = [] := by rw [tokv_eq_spaceTokens]; exact h
    rw [if_pos h, ht,
      matchloop_eq_pick ci q [] (fun _ => some 0) (matchstep_no_tokens ci q) items 0]
    simp [Buckets.splice, pick_const_zero, pick_const_succ, List.range_eq_range']
  · have ht : tokv q ≠ [] := by rw [tokv_eq_spaceTokens]; exact h
    rw [if_neg h, matchloop_eq_pick ci q (tokv q) (specBucket ci q)
      (fun it idx b => matchstep_eq_add ci q it idx b ht) items 0]
    simp [Buckets.splice, bucketOrder, bucketList_eq_pick]

theorem mem_pick (cls : item → Option Nat) (k i : Nat) (items : List item) :
    i ∈ pick cls k 0 items ↔ ∃ it, items[i]? = some it ∧ cls it = some k := by
  simp only [pick, List.mem_map, List.mem_filter, decide_eq_true_eq, Prod.exists,
    List.mk_mem_enumFrom_iff_le_and_getElem?_sub]
  constructor
  · rintro ⟨a, it, ⟨⟨_, h1⟩, h2⟩, rfl⟩
    exact ⟨it, by simpa using h1, h2⟩
  · rintro ⟨it, h1, h2⟩
    exact ⟨i, it, ⟨⟨Nat.zero_le _, by simpa using h1⟩, h2⟩, rfl⟩

theorem nodup_pick (cls : item → Option Nat) (k idx : Nat) (items : List item) :
    (pick cls k idx items).Nodup := by
  have hs : List.Sublist (pick cls k idx items) ((items.enumFrom idx).map Prod.fst) :=
    (List.filter_sublist _).map _
  refine List.Nodup.sublist hs ?_
  rw [List.enumFrom_map_fst]
  exact List.nodup_range' _ _

theorem specBucket_isSome_iff (ci : Bool) (q : List Nat) (it : item) :
    (∃ k, specBucket ci q it = some k) ↔ tokenPred ci q it.text := by
  unfold specBucket
  by_cases h : tokenPred ci q it.text
  · simp only [h, not_true_eq_false, if_false, iff_true]
    split_ifs <;> exact ⟨_, rfl⟩
  · simp [h]

theorem specBucket_lt (ci : Bool) (q : List Nat) (it : item) (k : Nat)
    (h : specBucket ci q it = some k) : k < 4 := by
  unfold specBucket at h
  split_ifs at h <;> simp at h <;> omega

theorem mem_bucketOrder (ci : Bool) (q : List Nat) (items : List item) (i : Nat) :
    i ∈ bucketOrder ci q items ↔ ∃ it, items[i]? = some it ∧ tokenPred ci q it.text := by
  simp only [bucketOrder, bucketList_eq_pick, List.mem_append, mem_pick]
  constructor
  · rintro (((⟨it, h1, h2⟩ | ⟨it, h1, h2⟩) | ⟨it, h1, h2⟩) | ⟨it, h1, h2⟩) <;>
      exact ⟨it, h1, (specBucket_isSome_iff ci q it).1 ⟨_, h2⟩⟩
  · rintro ⟨it, h1, h2⟩
    obtain ⟨k, hk⟩ := (specBucket_isSome_iff ci q it).2 h2
    have hlt := specBucket_lt ci q it k hk
    have hcases : k = 0 ∨ k = 1 ∨ k = 2 ∨ k = 3 := by omega
    rcases hcases with rfl | rfl | rfl | rfl
    · exact Or.inl (Or.inl (Or.inl ⟨it, h1, hk⟩))
    · exact Or.inl (Or.inl (Or.inr ⟨it, h1, hk⟩))
    · exact Or.inl (Or.inr ⟨it, h1, hk⟩)
    · exact Or.inr ⟨it, h1, hk⟩

theorem pick_disjoint (cls : item → Option Nat) (k1 k2 : Nat) (items : List item)
    (h : k1 ≠ k2) : List.Disjoint (pick cls k1 0 items) (pick cls k2 0 items) := by
  intro i h1 h2
  obtain ⟨it1, ha, hb⟩ := (mem_pick cls k1 i items).1 h1
  obtain ⟨it2, hc, hd⟩ := (mem_pick cls k2 i items).1 h2
  rw [ha] at hc
  cases hc
  rw [hb] at hd
  exact h (Option.some.inj hd)

theorem nodup_bucketOrder (ci : Bool) (q : List Nat) (items : List item) :
    (bucketOrder ci q items).Nodup := by
  simp only [bucketOrder, bucketList_eq_pick]
  refine List.Nodup.append (List.Nodup.append (List.Nodup.append ?_ ?_ ?_) ?_ ?_) ?_ ?_
  · exact nodup_pick _ _ _ _
  · exact nodup_pick _ _ _ _
  · exact pick_disjoint _ _ _ _ (by decide)
  · exact nodup_pick _ _ _ _
  · intro i h1 h2
    rcases List.mem_append.1 h1 with h | h
    · exact pick_disjoint _ 0 2 items (by decide) h h2
    · exact pick_disjoint _ 1 2 items (by decide) h h2
  · exact nodup_pick _ _ _ _
  · intro i h1 h2
    rcases List.mem_append.1 h1 with h | h
    · rcases List.mem_append.1 h with h | h
      · exact pick_disjoint _ 0 3 items (by decide) h h2
      · exact pick_disjoint _ 1 3 items (by decide) h h2
    · exact pick_disjoint _ 2 3 items (by decide) h h2

theorem nodup_tokenmatch (ci : Bool) (items : List item) (q : List Nat) :
    (tokenmatch ci items q).Nodup := by
  rw [tokenmatch_eq]
  split_ifs
  · exact List.nodup_range _
  · exact nodup_bucketOrder ci q items

theorem mem_tokenmatch (ci : Bool) (items : List item) (q : List Nat) (i : Nat) :
    i ∈ tokenmatch ci items q ↔ ∃ it, items[i]? = some it ∧ tokenPred ci q it.text := by
  rw [tokenmatch_eq]
  split_ifs with h
  · rw [List.mem_range]
    constructor
    · intro hi
      exact ⟨items[i], List.getElem?_eq_getElem hi, by simp [tokenPred, h]⟩
    · rintro ⟨it, h1, _⟩
      exact (List.getElem?_eq_some_iff.1 h1).1
  · exact mem_bucketOrder ci q items i

/-- C1. Token strategy without a dynamic command: a store index occurs in the Match
List built by `match` exactly once when the entry at that index has every
space-separated token of the query as a substring of its text under the active case
folding, and does not occur otherwise; when the query has no token the Match List
holds every candidate. -/
theorem token_match_membership (ci : Bool) (items : List item) (q : List Nat) :
    (∀ i, ((tokenmatch ci items q).count i = 1 ↔
        ∃ it, items[i]? = some it ∧
          ∀ tok ∈ (q.splitOn 32).filter (fun t => t ≠ []),
            tok.map (fold ci) <:+: it.text.map (fold ci)) ∧
      (i ∈ tokenmatch ci items q → (tokenmatch ci items q).count i = 1)) ∧
      ((q.splitOn 32).filter (fun t => t ≠ []) = [] →
        ∀ i, i < items.length → i ∈ tokenmatch ci items q) := by
  constructor
  · intro i
    have hm := mem_tokenmatch ci items q i
    simp only [tokenPred, spaceTokens, foldInfix] at hm
    have hone : i ∈ tokenmatch ci items q → (tokenmatch ci items q).count i = 1 :=
      fun hi => List.count_eq_one_of_mem (nodup_tokenmatch ci items q) hi
    refine ⟨⟨fun hc => hm.1 ?_, fun hp => hone (hm.2 hp)⟩, hone⟩
    exact List.count_pos_iff.1 (by omega)
  · intro h i hi
    rw [mem_tokenmatch]
    refine ⟨items[i], List.getElem?_eq_getElem hi, ?_⟩
    intro tok htok
    rw [spaceTokens, h] at htok
    cases htok

/-- Witness for C1: the query ` an ` has the single token `an`, which occurs in
`banana` (index 1) only; the empty query has no token and keeps all three candidates. -/
theorem token_match_membership_witness :
    tokenmatch false fruit [32, 97, 110, 32] = [1] ∧
      ∀ i, i < fruit.length → i ∈ tokenmatch false fruit [] :=
  ⟨by decide, (token_match_membership false fruit []).2 (by decide)⟩

/-- C2, as the code has it. Token strategy: when the query has at least one token the
Match List is the concatenation Exact, High-priority prefix, Prefix, Substring, each
matching candidate in the first bucket whose condition it meets and each bucket in
store order; when the query has no token (empty or spaces only) the Match List is the
whole store in store order, whatever texts equal the query. -/
theorem token_match_bucket_order (ci : Bool) (items : List item) (q : List Nat) :
    tokenmatch ci items q =
      if (q.splitOn 32).filter (fun t => t ≠ []) = [] then List.range items.length
      else bucketOrder ci q items :=
  tokenmatch_eq ci items q

/-- C2 fails as stated: with the empty query and the store `a`, `` (an empty line), the
candidate equal to the query is index 1, so the bucket order puts it first, while
`match` keeps store order. -/
theorem token_match_bucket_order_fails :
    tokenmatch false [⟨[97], 0, 0⟩, ⟨[], 0, 0⟩] [] = [0, 1] ∧
      bucketOrder false [] [⟨[97], 0, 0⟩, ⟨[], 0, 0⟩] = [1, 0] ∧
      tokenmatch false [⟨[97], 0, 0⟩, ⟨[], 0, 0⟩] [] ≠
        bucketOrder false [] [⟨[97], 0, 0⟩, ⟨[], 0, 0⟩] := by
  decide

/-! ## Fuzzy matcher -/

theorem fstrncmp_one_iff (ci : Bool) (q0 c : Nat) (qs : List Nat) :
    (fstrncmp ci (q0 :: qs) [c] 1 == 0) = true ↔ fold ci q0 = fold ci c := by
  rw [fstrncmp_eq]
  by_cases h : fold ci q0 = fold ci c
  · simp [strncmp, h]
  · simp [strncmp, h, bytecmp_ne _ _ h]

theorem earliest_cons_eq (ci : Bool) (q0 c : Nat) (qs r : List Nat) (off : Nat)
    (h : fold ci q0 = fold ci c) :
    earliest ci (q0 :: qs) (c :: r) off =
      (earliest ci qs r (off + 1)).map fun ps => off :: ps := by
  simp [earliest, h]

theorem earliest_cons_ne (ci : Bool) (q0 c : Nat) (qs r : List Nat) (off : Nat)
    (h : fold ci q0 ≠ fold ci c) :
    earliest ci (q0 :: qs) (c :: r) off = earliest ci (q0 :: qs) r (off + 1) := by
  have hne : fold ci c ≠ fold ci q0 := fun e => h e.symm
  simp only [earliest, List.map_cons, List.indexOf_cons_ne _ hne, List.length_cons,
    Nat.succ_eq_add_one, Nat.add_lt_add_iff_right, List.drop_succ_cons]
  have e1 : off + (List.indexOf (fold ci q0) (List.map (fold ci) r) + 1) + 1 =
      off + 1 + List.indexOf (fold ci q0) (List.map (fold ci) r) + 1 := by omega
  have e2 : off + (List.indexOf (fold ci q0) (List.map (fold ci) r) + 1) =
      off + 1 + List.indexOf (fold ci q0) (List.map (fold ci) r) := by omega
  rw [e1, e2]

theorem earliest_nil_text (ci : Bool) (q0 : Nat) (qs : List Nat) (off : Nat) :
    earliest ci (q0 :: qs) [] off = none := by
  simp [earliest]

theorem earliest_ne_nil (ci : Bool) (q0 : Nat) (qs rest : List Nat) (off : Nat)
    (ps : List Nat) (h : earliest ci (q0 :: qs) rest off = some ps) : ps ≠ [] := by
  unfold earliest at h
  simp only at h
  split_ifs at h
  simp only [Option.map_eq_some'] at h
  obtain ⟨a, _, rfl⟩ := h
  simp

/-- The scan finds an end index exactly when the rest of the query is a subsequence of
the rest of the text: the greedy scan misses no embedding. -/
theorem fuzzyscan_snd_iff (ci : Bool) (text : List Nat) (rest : List Nat) (i pidx : Nat)
    (sidx : Int) (hp : pidx < text.length) :
    (fuzzyscan ci text rest i pidx sidx).2 ≠ -1 ↔
      List.Sublist ((text.drop pidx).map (fold ci)) (rest.map (fold ci)) := by
  induction rest generalizing i pidx sidx with
  | nil =>
    obtain ⟨q0, qs, hq⟩ : ∃ q0 qs, text.drop pidx = q0 :: qs := by
      cases hd : text.drop pidx with
      | nil => simp at hd; omega
      | cons a b => exact ⟨a, b, rfl⟩
    simp [fuzzyscan, hq]
  | cons c r ih =>
    obtain ⟨q0, qs, hq⟩ : ∃ q0 qs, text.drop pidx = q0 :: qs := by
      cases hd : text.drop pidx with
      | nil => simp at hd; omega
      | cons a b => exact ⟨a, b, rfl⟩
    have hq1 : text.drop (pidx + 1) = qs := by
      have := congrArg (List.drop 1) hq
      simpa [List.drop_drop, Nat.add_comm] using this
    rw [fuzzyscan, hq]
    by_cases h : fold ci q0 = fold ci c
    · rw [if_pos ((fstrncmp_one_iff ci q0 c qs).2 h)]
      simp only [List.map_cons, h, List.cons_sublist_cons]
      by_cases hl : pidx + 1 = text.length
      · have hqs : qs = [] := by
          rw [← hq1]; exact List.drop_eq_nil_of_le (by omega)
        simp only [hl, beq_self_eq_true, if_true, hqs, List.map_nil, List.nil_sublist, iff_true]
        omega
      · have hl2 : (pidx + 1 == text.length) = false := by simpa using hl
        simp only [hl2, Bool.false_eq_true, if_false]
        rw [ih (i + 1) (pidx + 1) _ (by omega), hq1]
    · have hb : (fstrncmp ci (q0 :: qs) [c] 1 == 0) = false := by
        rw [← Bool.not_eq_true]; exact fun hh => h ((fstrncmp_one_iff ci q0 c qs).1 hh)
      rw [hb]
      simp only [Bool.false_eq_true, if_false]
      rw [ih (i + 1) pidx sidx hp, hq]
      simp only [List.map_cons]
      constructor
      · intro hs
        exact List.Sublist.cons _ hs
      · intro hs
        rcases List.sublist_cons_iff.1 hs with h1 | ⟨r1, he, _⟩
        · exact h1
        · exact absurd (List.cons.inj he).1 h

/-- The scan returns the first and the last place of the greedy earliest embedding. -/
theorem fuzzyscan_eq_earliest (ci : Bool) (text : List Nat) (rest : List Nat) (i pidx : Nat)
    (sidx : Int) (hp : pidx < text.length) (ps : List Nat)
    (he : earliest ci (text.drop pidx) rest i = some ps) :
    fuzzyscan ci text rest i pidx sidx =
      (if sidx = -1 then ((ps.headD 0 : Nat) : Int) else sidx, ((ps.getLastD 0 : Nat) : Int)) := by
  induction rest generalizing i pidx sidx ps with
  | nil =>
    obtain ⟨q0, qs, hq⟩ : ∃ q0 qs, text.drop pidx = q0 :: qs := by
      cases hd : text.drop pidx with
      | nil => simp at hd; omega
      | cons a b => exact ⟨a, b, rfl⟩
    rw [hq, earliest_nil_text] at he
    cases he
  | cons c r ih =>
    obtain ⟨q0, qs, hq⟩ : ∃ q0 qs, text.drop pidx = q0 :: qs := by
      cases hd : text.drop pidx with
      | nil => simp at hd; omega
      | cons a b => exact ⟨a, b, rfl⟩
    have hq1 : text.drop (pidx + 1) = qs := by
      have := congrArg (List.drop 1) hq
      simpa [List.drop_drop, Nat.add_comm] using this
    rw [fuzzyscan, hq]
    rw [hq] at he
    by_cases h : fold ci q0 = fold ci c
    · rw [if_pos ((fstrncmp_one_iff ci q0 c qs).2 h)]
      rw [earliest_cons_eq ci q0 c qs r i h] at he
      simp only [Option.map_eq_some'] at he
      obtain ⟨ps1, hps1, rfl⟩ := he
      by_cases hl : pidx + 1 = text.length
      · have hqs : qs = [] := by
          rw [← hq1]; exact List.drop_eq_nil_of_le (by omega)
        rw [hqs] at hps1
        simp only [earliest, Option.some.injEq] at hps1
        subst hps1
        by_cases hs : sidx = -1
        · simp [hl, hs]
        · simp [hl, hs]
      · have hl2 : (pidx + 1 == text.length) = false := by simpa using hl
        simp only [hl2, Bool.false_eq_true, if_false]
        have hqs : qs ≠ [] := by
          rw [← hq1]
          intro hnil
          have := List.drop_eq_nil_iff.1 hnil
          omega
        obtain ⟨q1, qs1, hqs1⟩ := List.exists_cons_of_ne_nil hqs
        have hne : ps1 ≠ [] := by
          rw [hqs1] at hps1
          exact earliest_ne_nil ci q1 qs1 r (i + 1) ps1 hps1
        obtain ⟨p1, ps2, rfl⟩ := List.exists_cons_of_ne_nil hne
        rw [ih (i + 1) (pidx + 1) _ (by omega) (p1 :: ps2) (by rw [hq1]; exact hps1)]
        have hi : ((i : Nat) : Int) ≠ -1 := by omega
        by_cases hs : sidx = -1
        · simp [hs, hi, List.getLastD_cons]
        · simp [hs, List.getLastD_cons]
    · have hb : (fstrncmp ci (q0 :: qs) [c] 1 == 0) = false := by
        rw [← Bool.not_eq_true]; exact fun hh => h ((fstrncmp_one_iff ci q0 c qs).1 hh)
      rw [hb]
      simp only [Bool.false_eq_true, if_false]
      rw [earliest_cons_ne ci q0 c qs r i h] at he
      exact ih (i + 1) pidx sidx hp ps (by rw [hq]; exact he)

theorem earliest_isSome_iff (ci : Bool) (text t : List Nat) (ht : text ≠ []) :
    (earliest ci text t 0).isSome = true ↔ fuzzyPred ci text t := by
  have hp : 0 < text.length := List.length_pos.2 ht
  have h1 := fuzzyscan_snd_iff ci text t 0 0 (-1) hp
  simp only [List.drop_zero] at h1
  unfold fuzzyPred
  rw [← h1]
  cases he : earliest ci text t 0 with
  | none =>
    simp only [Option.isSome_none, Bool.false_eq_true, false_iff, not_not]
    by_contra hne
    have h2 := h1.1 hne
    -- a subsequence gives an embedding, by the same induction on the text
    have key : ∀ (q r : List Nat) (off : Nat),
        List.Sublist (q.map (fold ci)) (r.map (fold ci)) → (earliest ci q r off).isSome = true := by
      intro q r
      induction r generalizing q with
      | nil =>
        intro off hs
        cases q with
        | nil => simp [earliest]
        | cons a b => simp at hs
      | cons c r ih =>
        intro off hs
        cases q with
        | nil => simp [earliest]
        | cons q0 qs =>
          by_cases h : fold ci q0 = fold ci c
          · rw [earliest_cons_eq ci q0 c qs r off h]
            simp only [List.map_cons, h, List.cons_sublist_cons] at hs
            simpa using ih qs (off + 1) hs
          · rw [earliest_cons_ne ci q0 c qs r off h]
            apply ih
            simp only [List.map_cons] at hs
            rcases List.sublist_cons_iff.1 hs with h3 | ⟨r1, he1, _⟩
            · simpa using h3
            · exact absurd (List.cons.inj he1).1 h
    have := key text t 0 h2
    rw [he] at this
    simp at this
  | some ps =>
    simp only [Option.isSome_some, true_iff]
    rw [fuzzyscan_eq_earliest ci text t 0 0 (-1) hp ps (by simpa using he)]
    simp only [ne_eq]
    omega

theorem fuzzycollect_eq {D : Type} (L : Libm D) (ci : Bool) (text : List Nat) (ht : text ≠ [])
    (items : List item) (idx : Nat) :
    fuzzycollect L ci text items idx =
      (items.enumFrom idx).filterMap fun p =>
        (specDistance L ci text p.2.text).map fun d => (p.1, d) := by
  have hp : 0 < text.length := List.length_pos.2 ht
  induction items generalizing idx with
  | nil => simp [fuzzycollect]
  | cons it rest ih =>
    rw [fuzzycollect, ih, List.enumFrom, List.filterMap_cons]
    cases he : earliest ci text it.text 0 with
    | none =>
      have h1 : (fuzzyscan ci text it.text 0 0 (-1)).2 = -1 := by
        by_contra hne
        have h2 := (fuzzyscan_snd_iff ci text it.text 0 0 (-1) hp).1 hne
        have h3 := (earliest_isSome_iff ci text it.text ht).2 (by simpa [fuzzyPred] using h2)
        rw [he] at h3
        simp at h3
      simp [h1, specDistance, he]
    | some ps =>
      have h1 := fuzzyscan_eq_earliest ci text it.text 0 0 (-1) hp ps (by simpa using he)
      have h2 : ((ps.getLastD 0 : Nat) : Int) ≠ -1 := by omega
      simp [h1, h2, specDistance, he, distance]

theorem compare_distance_le_iff {D : Type} [LinearOrder D] (a b : Nat × D) :
    compare_distance a b ≤ 0 ↔ a.2 ≤ b.2 := by
  unfold compare_distance
  split_ifs with h1 h2
  · simp [h1]
  · simp [le_of_lt h2]
  · have : ¬ a.2 ≤ b.2 := fun hle => h2 (lt_of_le_of_ne hle h1)
    simp [this]

theorem stableqsort_sorts {D : Type} [LinearOrder D] : QsortSorts (@stableqsort D) := by
  intro l
  haveI : IsTotal (Nat × D) (fun a b => compare_distance a b ≤ 0) :=
    ⟨fun a b => by simp only [compare_distance_le_iff]; exact le_total _ _⟩
  haveI : IsTrans (Nat × D) (fun a b => compare_distance a b ≤ 0) :=
    ⟨fun a b c => by simp only [compare_distance_le_iff]; exact le_trans⟩
  exact ⟨List.perm_insertionSort _ l, List.sorted_insertionSort _ l⟩

theorem backqsort_sorts {D : Type} [LinearOrder D] : QsortSorts (@backqsort D) := by
  intro l
  haveI : IsTotal (Nat × D) (fun a b => compare_distance a b ≤ 0) :=
    ⟨fun a b => by simp only [compare_distance_le_iff]; exact le_total _ _⟩
  haveI : IsTrans (Nat × D) (fun a b => compare_distance a b ≤ 0) :=
    ⟨fun a b c => by simp only [compare_distance_le_iff]; exact le_trans⟩
  exact ⟨(List.perm_insertionSort _ l.reverse).trans (List.reverse_perm l),
    List.sorted_insertionSort _ l.reverse⟩

/-- For a non-empty query the Match List is the list of indices of a rearrangement of
the collected matches that is in ascending order of the stored distance. -/
theorem fuzzymatch_eq_sorted {D : Type} [LinearOrder D] (L : Libm D)
    (qsort : (Nat × D → Nat × D → Int) → List (Nat × D) → List (Nat × D))
    (hq : QsortSorts qsort) (ci : Bool) (items : List item) (q : List Nat) (hne : q ≠ []) :
    ∃ sorted, fuzzymatch L qsort ci items q = sorted.map Prod.fst ∧
      List.Perm sorted (fuzzycollect L ci q items 0) ∧
      List.Pairwise (fun a b => a.2 ≤ b.2) sorted := by
  have hlen : (q.length != 0) = true := by
    simpa using hne
  unfold fuzzymatch
  simp only [hlen, if_true]
  by_cases hc : fuzzycollect L ci q items 0 = []
  · refine ⟨[], ?_, ?_, List.Pairwise.nil⟩
    · simp [hc]
    · rw [hc]
  · have hc2 : ((fuzzycollect L ci q items 0).length != 0) = true := by
      simpa using hc
    simp only [hc2, if_true]
    refine ⟨qsort compare_distance (fuzzycollect L ci q items 0), rfl, (hq _).1, ?_⟩
    exact (hq _).2.imp fun h => (compare_distance_le_iff _ _).1 h

theorem mem_fuzzycollect {D : Type} (L : Libm D) (ci : Bool) (q : List Nat) (hne : q ≠ [])
    (items : List item) (i : Nat) (d : D) :
    (i, d) ∈ fuzzycollect L ci q items 0 ↔
      ∃ it, items[i]? = some it ∧ specDistance L ci q it.text = some d := by
  rw [fuzzycollect_eq L ci q hne]
  simp only [List.mem_filterMap, Option.map_eq_some', Prod.mk.injEq, Prod.exists,
    List.mk_mem_enumFrom_iff_le_and_getElem?_sub]
  constructor
  · rintro ⟨a, it, ⟨_, h1⟩, d1, h2, rfl, rfl⟩
    exact ⟨it, by simpa using h1, h2⟩
  · rintro ⟨it, h1, h2⟩
    exact ⟨i, it, ⟨Nat.zero_le _, by simpa using h1⟩, d, h2, rfl, rfl⟩

theorem specDistance_isSome_iff {D : Type} (L : Libm D) (ci : Bool) (q t : List Nat)
    (hne : q ≠ []) : (∃ d, specDistance L ci q t = some d) ↔ fuzzyPred ci q t := by
  rw [← earliest_isSome_iff ci q t hne]
  unfold specDistance
  cases earliest ci q t 0 <;> simp

/-- C3. Fuzzy strategy: for a non-empty query a store index is in the Match List built
by `fuzzymatch` exactly when the query bytes occur in the entry's text as a subsequence
(in order, not necessarily adjacent, compared under the active case folding); the
greedy scan of a text finds an end index exactly when such an embedding exists; and
with an empty query every candidate is in the list. The library `qsort` is assumed to
return a rearrangement of its input in comparator order. -/
theorem fuzzy_match_membership {D : Type} [LinearOrder D] (L : Libm D)
    (qsort : (Nat × D → Nat × D → Int) → List (Nat × D) → List (Nat × D))
    (hq : QsortSorts qsort) (ci : Bool) (items : List item) (q : List Nat) :
    (q ≠ [] → ∀ i, i ∈ fuzzymatch L qsort ci items q ↔
        ∃ it, items[i]? = some it ∧
          List.Sublist (q.map (fold ci)) (it.text.map (fold ci))) ∧
      (q ≠ [] → ∀ t, (fuzzyscan ci q t 0 0 (-1)).2 ≠ -1 ↔
          List.Sublist (q.map (fold ci)) (t.map (fold ci))) ∧
      (q = [] → ∀ i, i < items.length → i ∈ fuzzymatch L qsort ci items q) := by
  refine ⟨?_, ?_, ?_⟩
  · intro hne i
    obtain ⟨sorted, h1, h2, _⟩ := fuzzymatch_eq_sorted L qsort hq ci items q hne
    rw [h1]
    simp only [List.mem_map, Prod.exists, exists_and_right, exists_eq_right]
    constructor
    · rintro ⟨d, hd⟩
      obtain ⟨it, hi, hs⟩ := (mem_fuzzycollect L ci q hne items i d).1 (h2.mem_iff.1 hd)
      exact ⟨it, hi, (specDistance_isSome_iff L ci q it.text hne).1 ⟨d, hs⟩⟩
    · rintro ⟨it, hi, hs⟩
      obtain ⟨d, hd⟩ := (specDistance_isSome_iff L ci q it.text hne).2 hs
      exact ⟨d, h2.mem_iff.2 ((mem_fuzzycollect L ci q hne items i d).2 ⟨it, hi, hd⟩)⟩
  · intro hne t
    have := fuzzyscan_snd_iff ci q t 0 0 (-1) (List.length_pos.2 hne)
    simpa using this
  · intro he i hi
    subst he
    simp [fuzzymatch, hi]

/-- Witness for C3 (scenario 7): of `aaa`, `bab`, `bba` only `bab` has `ab` as a
subsequence, so index 1 is in the list with the stable insertion sort as `qsort`. -/
theorem fuzzy_match_membership_witness :
    QsortSorts (@stableqsort Int) ∧
      (1 ∈ fuzzymatch intLibm stableqsort false scenario7 [97, 98] ↔
        ∃ it, scenario7[1]? = some it ∧
          List.Sublist ([97, 98].map (fold false)) (it.text.map (fold false))) :=
  ⟨stableqsort_sorts,
    (fuzzy_match_membership intLibm stableqsort stableqsort_sorts false scenario7
      [97, 98]).1 (by decide) 1⟩

/-- The first place of the greedy earliest embedding is the index of the first
occurrence of the first query byte in the text. -/
theorem earliest_head (ci : Bool) (c : Nat) (q t ps : List Nat)
    (h : earliest ci (c :: q) t 0 = some ps) :
    ps.headD 0 = (t.map (fold ci)).indexOf (fold ci c) := by
  unfold earliest at h
  simp only at h
  split_ifs at h
  simp only [Option.map_eq_some'] at h
  obtain ⟨a, _, rfl⟩ := h
  simp

/-- C4. Fuzzy strategy: for a non-empty query the Match List is in non-decreasing
order of distance, the distance of a candidate being
`log(p_first + 2) + (p_last - p_first - n)` for the first place `p_first` and the last
place `p_last` of the greedy earliest embedding of the `n` query bytes in its text (so
no candidate of smaller distance comes after one of larger distance), and every entry
of the list has such a distance. The `double` arithmetic is any `Libm` on a linear
order and `qsort` any sort meeting the C contract. -/
theorem fuzzy_match_sorted {D : Type} [LinearOrder D] (L : Libm D)
    (qsort : (Nat × D → Nat × D → Int) → List (Nat × D) → List (Nat × D))
    (hq : QsortSorts qsort) (ci : Bool) (items : List item) (q : List Nat) (hne : q ≠ []) :
    List.Pairwise (fun i j => ∀ it jt di dj, items[i]? = some it → items[j]? = some jt →
        specDistance L ci q it.text = some di → specDistance L ci q jt.text = some dj →
        di ≤ dj) (fuzzymatch L qsort ci items q) ∧
      ∀ i ∈ fuzzymatch L qsort ci items q,
        ∃ it d, items[i]? = some it ∧ specDistance L ci q it.text = some d := by
  obtain ⟨sorted, h1, h2, h3⟩ := fuzzymatch_eq_sorted L qsort hq ci items q hne
  rw [h1]
  constructor
  · rw [List.pairwise_map]
    refine List.Pairwise.imp_of_mem ?_ h3
    intro a b ha hb hab it jt di dj hi hj hdi hdj
    obtain ⟨it1, hi1, hd1⟩ := (mem_fuzzycollect L ci q hne items a.1 a.2).1 (h2.mem_iff.1 ha)
    obtain ⟨jt1, hj1, hd2⟩ := (mem_fuzzycollect L ci q hne items b.1 b.2).1 (h2.mem_iff.1 hb)
    rw [hi] at hi1
    rw [hj] at hj1
    cases hi1
    cases hj1
    rw [hdi] at hd1
    rw [hdj] at hd2
    cases hd1
    cases hd2
    exact hab
  · intro i hi
    simp only [List.mem_map, Prod.exists, exists_and_right, exists_eq_right] at hi
    obtain ⟨d, hd⟩ := hi
    obtain ⟨it, h4, h5⟩ := (mem_fuzzycollect L ci q hne items i d).1 (h2.mem_iff.1 hd)
    exact ⟨it, d, h4, h5⟩

/-- Witness for C4: the query `a` on the store `xxa`, `a` with the stable insertion
sort as `qsort` and the integer stand-in for the arithmetic; the later candidate has
the smaller distance and comes first. -/
theorem fuzzy_match_sorted_witness :
    QsortSorts (@stableqsort Int) ∧ ([97] : List Nat) ≠ [] ∧
      fuzzymatch intLibm stableqsort false latehit [97] = [1, 0] ∧
      specDistance intLibm false [97] [120, 120, 97] = some 1 ∧
      specDistance intLibm false [97] [97] = some 0 ∧
      ∀ i ∈ fuzzymatch intLibm stableqsort false latehit [97],
        ∃ it d, latehit[i]? = some it ∧ specDistance intLibm false [97] it.text = some d :=
  ⟨stableqsort_sorts, by decide, by decide, by decide, by decide,
    (fuzzy_match_sorted intLibm stableqsort stableqsort_sorts false latehit [97]
      (by decide)).2⟩

theorem backqsort_twins {D : Type} [LinearOrder D] (L : Libm D) :
    fuzzymatch L backqsort false twins [97] = [1, 0] := by
  simp [fuzzymatch, twins, fuzzycollect, fuzzyscan, backqsort, compare_distance, fstrncmp,
    strncmp, List.insertionSort, List.orderedInsert]

/-- The ordering contract of `qsort` does not by itself fix the order of equal elements:
`backqsort`, a sort written here to meet that contract while reversing equal elements,
returns the two candidates `a`, `a` of equal distance as `1, 0`. Stability is thus an
assumption on the library of its own, not a consequence of the contract. -/
theorem backqsort_reverses_ties :
    QsortSorts (@backqsort Int) ∧
      specDistance intLibm false [97] [97] = some 0 ∧
      fuzzymatch intLibm backqsort false twins [97] = [1, 0] ∧
      ¬ List.Sublist [0, 1] (fuzzymatch intLibm backqsort false twins [97]) ∧
      ∀ L : Libm Int, fuzzymatch L backqsort false twins [97] = [1, 0] :=
  ⟨backqsort_sorts, by decide, by decide, by decide, fun L => backqsort_twins L⟩

/-! ## `match` and the dynamic source -/

@[simp] theorem calcoffsets_items {D : Type} (e : Env D) (s : State) :
    (calcoffsets e s).items = s.items := by
  unfold calcoffsets; cases s.curr <;> rfl

@[simp] theorem calcoffsets_matches {D : Type} (e : Env D) (s : State) :
    (calcoffsets e s).matches_ = s.matches_ := by
  unfold calcoffsets; cases s.curr <;> rfl

@[simp] theorem calcoffsets_text {D : Type} (e : Env D) (s : State) :
    (calcoffsets e s).text = s.text := by
  unfold calcoffsets; cases s.curr <;> rfl

@[simp] theorem calcoffsets_cursor {D : Type} (e : Env D) (s : State) :
    (calcoffsets e s).cursor = s.cursor := by
  unfold calcoffsets; cases s.curr <;> rfl

@[simp] theorem calcoffsets_sel {D : Type} (e : Env D) (s : State) :
    (calcoffsets e s).sel = s.sel := by
  unfold calcoffsets; cases s.curr <;> rfl

@[simp] theorem calcoffsets_curr {D : Type} (e : Env D) (s : State) :
    (calcoffsets e s).curr = s.curr := by
  unfold calcoffsets; cases h : s.curr <;> simp [h]

theorem readlines_text {D : Type} (e : Env D) (stream : List (List Nat)) (i : Nat) :
    (readlines e stream i).map item.text = stream.map chomp := by
  induction stream generalizing i with
  | nil => rfl
  | cons l r ih => simp [readlines, ih]

theorem readlines_length {D : Type} (e : Env D) (stream : List (List Nat)) (i : Nat) :
    (readlines e stream i).length = stream.length := by
  induction stream generalizing i with
  | nil => rfl
  | cons l r ih => simp [readlines, ih]

/-- C6, as the code has it. With a dynamic command set and the token strategy selected
(`fuzzy` off). Password mode off: a match pass replaces the Candidate Store by the
lines the command prints for the current query (each as the C string `readstdin` keeps
of it, in order), and the Match List is every candidate of the refreshed store in store
order, whatever the query is. Password mode on: the match pass leaves the Candidate
Store as it is, whatever the command prints, and the Match List is every candidate of
that store in store order. -/
theorem dynamic_match_refreshes {D : Type} [LinearOrder D] (e : Env D) (s : State)
    (cmd : List Nat) (hd : e.dynamic = some cmd) (hf : e.fuzzy = false) :
    (e.passwd = false →
      (match_ e s).items.map item.text = (e.popen (dyncmd cmd s.text)).map chomp ∧
      (match_ e s).matches_ = List.range (match_ e s).items.length ∧
      (match_ e s).matches_ = List.range (e.popen (dyncmd cmd s.text)).length) ∧
    (e.passwd = true →
      (match_ e s).items = s.items ∧
      (match_ e s).matches_ = List.range s.items.length) := by
  constructor
  · intro hp
    simp [match_, hd, hf, rewind, refreshoptions, readstdin, hp, readlines_text,
      readlines_length]
  · intro hp
    simp [match_, hd, hf, rewind, refreshoptions, readstdin, hp]

/-- Witness for C6 as amended: the demo command prints `x`, `y`; after a match pass on
the query `q` the store is `x`, `y` and the Match List is `0, 1`. In password mode a
store `apple`, `banana`, `cherry` is still that store after the match pass, with the
Match List `0, 1, 2`. -/
theorem dynamic_match_refreshes_witness :
    ((match_ { demo with dynamic := some [108, 115] }
        { State.initial 3 200 with text := [113] }).items.map item.text = [[120], [121]]) ∧
      (match_ { demo with dynamic := some [108, 115] }
        { State.initial 3 200 with text := [113] }).matches_ = [0, 1] ∧
      (match_ { demo with dynamic := some [108, 115], passwd := true }
        { State.initial 3 200 with items := fruit, text := [113] }).items = fruit ∧
      (match_ { demo with dynamic := some [108, 115], passwd := true }
        { State.initial 3 200 with items := fruit, text := [113] }).matches_ = [0, 1, 2] := by
  have h := (dynamic_match_refreshes { demo with dynamic := some [108, 115] }
    { State.initial 3 200 with text := [113] } [108, 115] rfl rfl).1 rfl
  have h2 := (dynamic_match_refreshes { demo with dynamic := some [108, 115], passwd := true }
    { State.initial 3 200 with items := fruit, text := [113] } [108, 115] rfl rfl).2 rfl
  exact ⟨h.1.trans (by decide), h.2.2.trans (by decide), h2.1, h2.2.trans (by decide)⟩

/-- C6 fails as stated. With a dynamic command and the fuzzy strategy (the default)
`match` returns from the fuzzy pass before it reaches the refresh (an early return):
the store stays empty although the command prints `x`, `y`. With the token strategy and
password mode the guard at the head of `readstdin` returns before a line is read: the
store, empty since `main` skipped the first load, stays empty as well. -/
theorem dynamic_match_refreshes_fails :
    ((match_ { demo with dynamic := some [108, 115], fuzzy := true }
        { State.initial 3 200 with text := [113] }).items = [] ∧
      (match_ { demo with dynamic := some [108, 115], fuzzy := true }
        { State.initial 3 200 with text := [113] }).matches_ = []) ∧
      ((match_ { demo with dynamic := some [108, 115], passwd := true }
        { State.initial 3 200 with text := [113] }).items = [] ∧
      (match_ { demo with dynamic := some [108, 115], passwd := true }
        { State.initial 3 200 with text := [113] }).matches_ = []) ∧
      demo.popen (dyncmd [108, 115] [113]) = [[120, 10], [121, 10]] := by
  decide

/-! ## Pager -/

theorem calcnext_ge {D : Type} (e : Env D) (s : State) (n : Int) (k p : Nat) (i : Int)
    (q : Nat) (h : calcnext e s n k p i = some q) : p ≤ q := by
  induction k generalizing p i with
  | zero => simp [calcnext] at h
  | succ k ih =>
    rw [calcnext] at h
    split_ifs at h
    · simp only [Option.some.injEq] at h; omega
    · have := ih _ _ h; omega

/-- Vertical mode: when `r` rows fit the budget and `r + 1` do not, the page that starts
at position `p` with `k` entries left ends after `r` entries. -/
theorem calcnext_vertical {D : Type} (e : Env D) (s : State) (n : Int) (hl : s.lines > 0)
    (hbh : 0 < e.bh) (k p r : Nat) (i : Int) (h1 : (r : Int) * e.bh + i ≤ n)
    (h2 : n < ((r : Int) + 1) * e.bh + i) :
    calcnext e s n k p i = if k ≤ r then none else some (p + r) := by
  have hext : ∀ q, extent e s n q = e.bh := by
    intro q; simp [extent, hl]
  induction k generalizing p r i with
  | zero => simp [calcnext]
  | succ k ih =>
    rw [calcnext, hext]
    by_cases hfit : i + e.bh > n
    · have hr : r = 0 := by
        by_contra hne
        have h3 : (1 : Int) ≤ (r : Int) := by omega
        have h4 : e.bh ≤ (r : Int) * e.bh := by nlinarith
        omega
      subst hr
      simp [hfit]
    · rw [if_neg hfit]
      have hr : 1 ≤ r := by
        by_contra hne
        have h0 : r = 0 := by omega
        subst h0
        simp at h2
        omega
      obtain ⟨r1, rfl⟩ : ∃ r1, r = r1 + 1 := ⟨r - 1, by omega⟩
      rw [ih (p + 1) r1 (i + e.bh) (by push_cast at h1; nlinarith) (by push_cast at h2 ⊢; nlinarith)]
      by_cases hk : k ≤ r1
      · simp [hk]
      · simp [hk]
        omega

/-- Vertical mode, the law of the code: with rows of height `bh > 0`, the page opened
at `curr` holds `min (lines - 1 + q) (entries left)` entries, where `q` is the number
of rows that fit the height `bh` when centered and the height `promptheight` otherwise.
It is `lines` exactly when `q = 1`. -/
theorem vertical_page_rows {D : Type} (e : Env D) (s : State) (c q : Nat) (hl : 0 < s.lines)
    (hbh : 0 < e.bh) (hc : s.curr = some c)
    (hq1 : (q : Int) * e.bh ≤ (if e.centered then e.bh else e.promptheight))
    (hq2 : (if e.centered then e.bh else e.promptheight) < ((q : Int) + 1) * e.bh)
    (hint : ((s.lines : Int) - 1) * e.bh + (if e.centered then e.bh else e.promptheight)
      < 2147483648) :
    pagerows (calcoffsets e s) = min (s.lines - 1 + q) (s.matches_.length - c) := by
  have hbud : budget e s =
      ((s.lines : Int) - 1) * e.bh + (if e.centered then e.bh else e.promptheight) := by
    have hl1 : (0 : Int) ≤ ((s.lines : Int) - 1) * e.bh :=
      mul_nonneg (by omega) (le_of_lt hbh)
    have hq0 : (0 : Int) ≤ (q : Int) * e.bh := mul_nonneg (by omega) (le_of_lt hbh)
    unfold budget
    rw [if_pos hl]
    have hval : (if e.centered then (s.lines : Int) * e.bh
        else ((s.lines : Int) - 1) * e.bh + e.promptheight) =
        ((s.lines : Int) - 1) * e.bh + (if e.centered then e.bh else e.promptheight) := by
      split_ifs <;> ring
    rw [hval]
    unfold toSigned
    omega
  have hb1 : ((s.lines - 1 + q : Nat) : Int) * e.bh + 0 ≤ budget e s := by
    have hcast : ((s.lines - 1 + q : Nat) : Int) = (s.lines : Int) - 1 + q := by omega
    rw [hcast, hbud]
    nlinarith
  have hb2 : budget e s < (((s.lines - 1 + q : Nat) : Int) + 1) * e.bh + 0 := by
    have hcast : ((s.lines - 1 + q : Nat) : Int) = (s.lines : Int) - 1 + q := by omega
    rw [hcast, hbud]
    nlinarith
  have hn := calcnext_vertical e s (budget e s) hl hbh (s.matches_.length - c) c
    (s.lines - 1 + q) 0 hb1 hb2
  unfold calcoffsets
  simp only [hc, hn]
  by_cases hk : s.matches_.length - c ≤ s.lines - 1 + q
  · simp [pagerows, hk]
  · simp [pagerows, hk]
    omega

/-- After a match pass the pager invariant holds exactly when the list is empty or its
first entry fits the page budget. -/
theorem rewind_pagerInv {D : Type} (e : Env D) (s : State) (ms : List Nat) :
    pagerInv (rewind e s ms) = true ↔
      ms = [] ∨
        extent e { s with matches_ := ms, curr := first ms, sel := first ms }
            (budget e { s with matches_ := ms, curr := first ms, sel := first ms }) 0 ≤
          budget e { s with matches_ := ms, curr := first ms, sel := first ms } := by
  cases ms with
  | nil => simp [rewind, calcoffsets, first, pagerInv]
  | cons m rest =>
    simp only [rewind, calcoffsets, first, pagerInv, List.cons_ne_nil, if_false, false_or,
      List.length_cons, Nat.sub_zero, calcnext, Int.zero_add]
    by_cases hfit : extent e { s with matches_ := m :: rest, curr := some 0, sel := some 0 }
        (budget e { s with matches_ := m :: rest, curr := some 0, sel := some 0 }) 0 >
        budget e { s with matches_ := m :: rest, curr := some 0, sel := some 0 }
    · simp [hfit]
    · simp only [hfit, if_false]
      have hle := not_lt.1 hfit
      simp only [hle, iff_true]
      cases hn : calcnext e { s with matches_ := m :: rest, curr := some 0, sel := some 0 }
          (budget e { s with matches_ := m :: rest, curr := some 0, sel := some 0 })
          rest.length (0 + 1)
          (extent e { s with matches_ := m :: rest, curr := some 0, sel := some 0 }
            (budget e { s with matches_ := m :: rest, curr := some 0, sel := some 0 }) 0) with
      | none => simp
      | some q =>
        have := calcnext_ge _ _ _ _ _ _ _ hn
        simp
        omega

/-- C8 fails on the code. Not centered, `-l 3 -h 40` (rows 40 high under the prompt
row of height 30), the default fuzzy strategy and five candidates: the window is sized
for three rows, yet the page that `calcoffsets` opens at the first match holds two
entries (`next` is the entry at position 2), not `min(3, 5) = 3`. With rows 14 high the
page holds four. -/
theorem vertical_page_rows_fail :
    ((match_ { demo with bh := 40, fuzzy := true }
        (readstdin { demo with bh := 40, fuzzy := true } (State.initial 3 200)
          fivelines)).lines = 3 ∧
      (match_ { demo with bh := 40, fuzzy := true }
        (readstdin { demo with bh := 40, fuzzy := true } (State.initial 3 200)
          fivelines)).matches_ = [0, 1, 2, 3, 4] ∧
      (match_ { demo with bh := 40, fuzzy := true }
        (readstdin { demo with bh := 40, fuzzy := true } (State.initial 3 200)
          fivelines)).curr = some 0 ∧
      (match_ { demo with bh := 40, fuzzy := true }
        (readstdin { demo with bh := 40, fuzzy := true } (State.initial 3 200)
          fivelines)).next = some 2 ∧
      pagerows (match_ { demo with bh := 40, fuzzy := true }
        (readstdin { demo with bh := 40, fuzzy := true } (State.initial 3 200)
          fivelines)) = 2 ∧
      menuheight { demo with bh := 40, fuzzy := true } 3 = 3 * 40 + 30) ∧
      pagerows (match_ { demo with bh := 14, fuzzy := true }
        (readstdin { demo with bh := 14, fuzzy := true } (State.initial 3 200)
          fivelines)) = 4 := by
  decide

/-- C7 fails on the code. Not centered, `-l 1 -h 40`, the default fuzzy strategy and
the single candidate `a`: after the first match pass `curr`, `sel` and `next` are all
the entry at position 0, so the page is empty and the selection is not strictly before
`next`. -/
theorem pager_invariant_fail :
    (match_ { demo with bh := 40, max_lines := 1, fuzzy := true }
        (readstdin { demo with bh := 40, max_lines := 1, fuzzy := true } (State.initial 1 200)
          [[97, 10]])).matches_ = [0] ∧
      (match_ { demo with bh := 40, max_lines := 1, fuzzy := true }
        (readstdin { demo with bh := 40, max_lines := 1, fuzzy := true } (State.initial 1 200)
          [[97, 10]])).curr = some 0 ∧
      (match_ { demo with bh := 40, max_lines := 1, fuzzy := true }
        (readstdin { demo with bh := 40, max_lines := 1, fuzzy := true } (State.initial 1 200)
          [[97, 10]])).sel = some 0 ∧
      (match_ { demo with bh := 40, max_lines := 1, fuzzy := true }
        (readstdin { demo with bh := 40, max_lines := 1, fuzzy := true } (State.initial 1 200)
          [[97, 10]])).next = some 0 ∧
      pagerInv (match_ { demo with bh := 40, max_lines := 1, fuzzy := true }
        (readstdin { demo with bh := 40, max_lines := 1, fuzzy := true } (State.initial 1 200)
          [[97, 10]])) = false := by
  decide

/-! ## Query buffer -/
theorem iscont_zero : iscont 0 = false := by decide

theorem byteat_nat (text : List Nat) (n : Nat) : byteat text (n : Int) = text.getD n 0 := by
  simp [byteat]

theorem byteat_ge (text : List Nat) (n : Nat) (h : text.length ≤ n) :
    byteat text (n : Int) = 0 := by
  simp [byteat, List.getElem?_eq_none h]

theorem iscont_lt_length (text : List Nat) (n : Nat)
    (h : iscont (byteat text (n : Int)) = true) : n < text.length := by
  by_contra hn
  rw [byteat_ge text n (by omega), iscont_zero] at h
  cases h

theorem ne_zero_lt_length (text : List Nat) (n : Nat) (h : byteat text (n : Int) ≠ 0) :
    n < text.length := by
  by_contra hn
  exact h (byteat_ge text n (by omega))

/-- The forward loop of `nextrune` stops, inside the string, on a byte that is not a
continuation byte. -/
theorem nextrune_loop_fwd (text : List Nat) (fuel n : Nat) (hn : n ≤ text.length)
    (hf : text.length - n < fuel) :
    ∃ m : Nat, nextrune.loop text 1 fuel (n : Int) = (m : Int) ∧ n ≤ m ∧ m ≤ text.length ∧
      iscont (byteat text (m : Int)) = false ∧
      ∀ i, n ≤ i → i < m → iscont (byteat text (i : Int)) = true := by
  induction fuel generalizing n with
  | zero => omega
  | succ fuel ih =>
    rw [nextrune.loop]
    by_cases hc : iscont (byteat text (n : Int)) = true
    · have hlt := iscont_lt_length text n hc
      have h0 : (n : Int) + 1 ≥ 0 := by omega
      rw [if_pos ⟨h0, hc⟩]
      obtain ⟨m, h1, h2, h3, h4, h5⟩ := ih (n + 1) (by omega) (by omega)
      refine ⟨m, by rw [← h1]; rfl, by omega, h3, h4, ?_⟩
      intro i hi1 hi2
      by_cases hin : i = n
      · rw [hin]; exact hc
      · exact h5 i (by omega) hi2
    · rw [if_neg (fun h => hc h.2)]
      exact ⟨n, rfl, le_refl _, hn, by simpa using hc, by intro i h1 h2; omega⟩

/-- The backward loop of `nextrune` stops at the start of the string or on a byte that
is not a continuation byte, having passed continuation bytes only. -/
theorem nextrune_loop_bwd (text : List Nat) (fuel n : Nat) (hf : n < fuel) :
    ∃ m : Nat, nextrune.loop text (-1) fuel (n : Int) = (m : Int) ∧ m ≤ n ∧
      (m = 0 ∨ iscont (byteat text (m : Int)) = false) ∧
      ∀ i, m < i → i ≤ n → iscont (byteat text (i : Int)) = true := by
  induction fuel generalizing n with
  | zero => omega
  | succ fuel ih =>
    rw [nextrune.loop]
    by_cases hc : (n : Int) + -1 ≥ 0 ∧ iscont (byteat text (n : Int)) = true
    · rw [if_pos hc]
      have hn : 1 ≤ n := by omega
      obtain ⟨m, h1, h2, h3, h4⟩ := ih (n - 1) (by omega)
      have hcast : ((n - 1 : Nat) : Int) = (n : Int) + -1 := by omega
      rw [hcast] at h1
      refine ⟨m, h1, by omega, h3, ?_⟩
      intro i hi1 hi2
      by_cases hin : i = n
      · rw [hin]; exact hc.2
      · exact h4 i hi1 (by omega)
    · rw [if_neg hc]
      refine ⟨n, rfl, le_refl _, ?_, by intro i h1 h2; omega⟩
      by_cases h0 : n = 0
      · exact Or.inl h0
      · right
        have : (n : Int) + -1 ≥ 0 := by omega
        simpa using fun h => hc ⟨this, h⟩

theorem nextrune_fwd (s : State) (hlt : s.cursor < s.text.length) :
    ∃ m : Nat, nextrune s 1 = (m : Int) ∧ s.cursor < m ∧ m ≤ s.text.length ∧
      iscont (byteat s.text (m : Int)) = false ∧
      ∀ i, s.cursor < i → i < m → iscont (byteat s.text (i : Int)) = true := by
  obtain ⟨m, h1, h2, h3, h4, h5⟩ :=
    nextrune_loop_fwd s.text (s.text.length + 1) (s.cursor + 1) (by omega) (by omega)
  exact ⟨m, by rw [← h1]; rfl, by omega, h3, h4, fun i hi1 hi2 => h5 i (by omega) hi2⟩

theorem nextrune_bwd (s : State) (hpos : 0 < s.cursor) (hle : s.cursor ≤ s.text.length) :
    ∃ m : Nat, nextrune s (-1) = (m : Int) ∧ m < s.cursor ∧
      (m = 0 ∨ iscont (byteat s.text (m : Int)) = false) ∧
      ∀ i, m < i → i < s.cursor → iscont (byteat s.text (i : Int)) = true := by
  obtain ⟨m, h1, h2, h3, h4⟩ :=
    nextrune_loop_bwd s.text (s.text.length + 1) (s.cursor - 1) (by omega)
  have hcast : ((s.cursor - 1 : Nat) : Int) = (s.cursor : Int) + -1 := by omega
  rw [hcast] at h1
  exact ⟨m, h1, by omega, h3, fun i hi1 hi2 => h4 i hi1 (by omega)⟩

theorem byteat_append_right (a b : List Nat) (i : Nat) :
    byteat (a ++ b) ((a.length + i : Nat) : Int) = byteat b (i : Int) := by
  rw [byteat_nat, byteat_nat]
  simp [List.getD_eq_getElem?_getD, List.getElem?_append_right]

theorem byteat_append_left (a b : List Nat) (i : Nat) (h : i < a.length) :
    byteat (a ++ b) (i : Int) = byteat a (i : Int) := by
  simp [byteat, List.getD_eq_getElem?_getD, List.getElem?_append_left h]

theorem byteat_take (text : List Nat) (m i : Nat) (h : i < m) :
    byteat (text.take m) (i : Int) = byteat text (i : Int) := by
  simp [byteat, List.getD_eq_getElem?_getD, List.getElem?_take, h]

theorem byteat_drop (text : List Nat) (c i : Nat) :
    byteat (text.drop c) (i : Int) = byteat text ((c + i : Nat) : Int) := by
  rw [byteat_nat, byteat_nat]
  simp [List.getD_eq_getElem?_getD]

theorem byteat_head (text : List Nat) : byteat text ((0 : Nat) : Int) = text.headD 0 := by
  cases text <;> simp [byteat]

theorem keyOk_of_core (s1 s2 : State) (h : core s1 = core s2) (hk : keyOk s2) : keyOk s1 := by
  simp only [core, Prod.mk.injEq] at h
  obtain ⟨h1, h2, h3⟩ := h
  obtain ⟨⟨a, b, c⟩, d⟩ := hk
  refine ⟨⟨by rw [h1, h2]; exact a, by rw [h1, h2]; exact b, by rw [h1]; exact c⟩, ?_⟩
  intro it hit
  have hm : it.text ∈ s1.items.map item.text := List.mem_map_of_mem _ hit
  rw [h3] at hm
  obtain ⟨it2, hit2, he⟩ := List.mem_map.1 hm
  rw [← he]
  exact d it2 hit2

@[simp] theorem core_calcoffsets {D : Type} (e : Env D) (s : State) :
    core (calcoffsets e s) = core s := by
  simp [core]

theorem core_rewind {D : Type} (e : Env D) (s : State) (ms : List Nat) :
    core (rewind e s ms) = core s := by
  simp [rewind, core]

@[simp] theorem match_text {D : Type} [LinearOrder D] (e : Env D) (s : State) :
    (match_ e s).text = s.text := by
  unfold match_
  split_ifs
  · simp [rewind]
  · cases e.dynamic with
    | none => simp [rewind]
    | some d =>
      simp only [rewind, refreshoptions, readstdin, calcoffsets_text]
      split_ifs <;> rfl

@[simp] theorem match_cursor {D : Type} [LinearOrder D] (e : Env D) (s : State) :
    (match_ e s).cursor = s.cursor := by
  unfold match_
  split_ifs
  · simp [rewind]
  · cases e.dynamic with
    | none => simp [rewind]
    | some d =>
      simp only [rewind, refreshoptions, readstdin, calcoffsets_cursor]
      split_ifs <;> rfl

theorem readlines_itemsOk {D : Type} (e : Env D) (stream : List (List Nat)) (i : Nat)
    (h : ∀ line ∈ stream, iscont ((chomp line).headD 0) = false) :
    itemsOk (readlines e stream i) := by
  induction stream generalizing i with
  | nil => intro it hit; cases hit
  | cons l r ih =>
    intro it hit
    rw [readlines] at hit
    rcases List.mem_cons.1 hit with rfl | h2
    · exact h l (List.mem_cons_self _ _)
    · exact ih (i + 1) (fun line hl => h line (List.mem_cons_of_mem _ hl)) it h2

theorem match_itemsOk {D : Type} [LinearOrder D] (e : Env D) (s : State)
    (hp : ∀ cmd, ∀ line ∈ e.popen cmd, iscont ((chomp line).headD 0) = false)
    (hi : itemsOk s.items) : itemsOk (match_ e s).items := by
  unfold match_
  split_ifs
  · simpa [rewind] using hi
  · cases e.dynamic with
    | none => simpa [rewind] using hi
    | some d =>
      simp only [rewind, refreshoptions, readstdin, calcoffsets_items]
      split_ifs
      · exact hi
      · exact readlines_itemsOk e _ 0 (hp _)

theorem keyOk_match {D : Type} [LinearOrder D] (e : Env D) (s : State)
    (hp : ∀ cmd, ∀ line ∈ e.popen cmd, iscont ((chomp line).headD 0) = false)
    (hk : keyOk s) : keyOk (match_ e s) := by
  obtain ⟨⟨a, b, c⟩, d⟩ := hk
  exact ⟨⟨by simpa using a, by simpa using b, by simpa using c⟩, match_itemsOk e s hp d⟩

/-- Removing the bytes from `m` up to the cursor keeps the invariant, whatever `m`. -/
theorem keyOk_delete (s : State) (m : Nat) (hm : m ≤ s.cursor) (hk : keyOk s) :
    keyOk { s with text := s.text.take m ++ s.text.drop s.cursor, cursor := m } := by
  obtain ⟨⟨a, b, c⟩, d⟩ := hk
  have hlen : (s.text.take m).length = m := by simp; omega
  have hcur : byteat (s.text.take m ++ s.text.drop s.cursor) ((m : Nat) : Int) =
      byteat s.text (s.cursor : Int) := by
    have := byteat_append_right (s.text.take m) (s.text.drop s.cursor) 0
    rw [hlen] at this
    simp only [Nat.add_zero] at this
    rw [this, byteat_drop]
    simp
  refine ⟨⟨?_, ?_, ?_⟩, d⟩
  · simp only [List.length_append, List.length_take, List.length_drop]
    omega
  · show iscont (byteat (s.text.take m ++ s.text.drop s.cursor) ((m : Nat) : Int)) = false
    rw [hcur]; exact b
  · show iscont (byteat (s.text.take m ++ s.text.drop s.cursor) ((0 : Nat) : Int)) = false
    by_cases h0 : m = 0
    · subst h0
      rw [hcur]; exact b
    · rw [byteat_append_left _ _ 0 (by omega), byteat_take _ _ _ (by omega)]
      exact c

/-- Putting bytes that do not begin with a continuation byte at the cursor keeps the
invariant. -/
theorem keyOk_put (s : State) (str : List Nat) (hs : iscont (str.headD 0) = false)
    (hk : keyOk s) :
    keyOk { s with text := s.text.take s.cursor ++ str ++ s.text.drop s.cursor,
                   cursor := s.cursor + str.length } := by
  obtain ⟨⟨a, b, c⟩, d⟩ := hk
  have hlen : (s.text.take s.cursor ++ str).length = s.cursor + str.length := by
    simp; omega
  refine ⟨⟨?_, ?_, ?_⟩, d⟩
  · simp only [List.length_append, List.length_take, List.length_drop]
    omega
  · show iscont (byteat (s.text.take s.cursor ++ str ++ s.text.drop s.cursor)
      ((s.cursor + str.length : Nat) : Int)) = false
    have := byteat_append_right (s.text.take s.cursor ++ str) (s.text.drop s.cursor) 0
    rw [hlen] at this
    simp only [Nat.add_zero] at this
    rw [this, byteat_drop]
    simpa using b
  · show iscont (byteat (s.text.take s.cursor ++ str ++ s.text.drop s.cursor)
      ((0 : Nat) : Int)) = false
    rw [byteat_head]
    by_cases h0 : s.cursor = 0
    · cases hstr : str with
      | nil =>
        simp only [h0, List.take_zero, List.nil_append, List.drop_zero]
        rw [← byteat_head]; exact c
      | cons x xs =>
        rw [hstr] at hs
        simpa [h0] using hs
    · have hne : s.text ≠ [] := by
        intro hnil
        rw [hnil] at a
        simp at a
        omega
      obtain ⟨x, xs, hx⟩ := List.exists_cons_of_ne_nil hne
      obtain ⟨k, hk⟩ : ∃ k, s.cursor = k + 1 := ⟨s.cursor - 1, by omega⟩
      rw [hx] at c
      simp only [hx, hk, List.take_succ_cons, List.cons_append, List.headD_cons]
      simpa [byteat] using c

/-- Moving the cursor to the start, or onto a byte that is not a continuation byte,
keeps the invariant. -/
theorem keyOk_move (s : State) (m : Nat) (hm : m ≤ s.text.length)
    (hb : m = 0 ∨ iscont (byteat s.text (m : Int)) = false) (hk : keyOk s) :
    keyOk { s with cursor := m } := by
  obtain ⟨⟨a, b, c⟩, d⟩ := hk
  refine ⟨⟨hm, ?_, c⟩, d⟩
  show iscont (byteat s.text (m : Int)) = false
  rcases hb with rfl | hb
  · exact c
  · exact hb

theorem keyOk_insert_del {D : Type} [LinearOrder D] (e : Env D) (s : State) (m : Nat)
    (hm : m ≤ s.cursor)
    (hp : ∀ cmd, ∀ line ∈ e.popen cmd, iscont ((chomp line).headD 0) = false)
    (hk : keyOk s) : keyOk (insert e s [] ((m : Int) - (s.cursor : Int))) := by
  unfold insert
  split_ifs with hrej hpos
  · exact hk
  · omega
  · have hc : ((s.cursor : Int) + ((m : Int) - (s.cursor : Int))).toNat = m := by
      have : (s.cursor : Int) + ((m : Int) - (s.cursor : Int)) = (m : Int) := by omega
      rw [this]; simp
    simp only [hc]
    exact keyOk_match e _ hp (keyOk_delete s m hm hk)

theorem keyOk_insert_put {D : Type} [LinearOrder D] (e : Env D) (s : State) (str : List Nat)
    (len : Nat) (hl : len ≤ str.length) (hs : iscont ((str.take len).headD 0) = false)
    (hp : ∀ cmd, ∀ line ∈ e.popen cmd, iscont ((chomp line).headD 0) = false)
    (hk : keyOk s) : keyOk (insert e s str (len : Int)) := by
  unfold insert
  split_ifs with hrej hpos
  · exact hk
  · have hc : ((s.cursor : Int) + (len : Int)).toNat = s.cursor + (str.take len).length := by
      rw [List.length_take, Nat.min_eq_left hl]
      omega
    simp only [hc, Int.toNat_ofNat]
    exact keyOk_match e _ hp (keyOk_put s (str.take len) hs hk)
  · have h0 : len = 0 := by omega
    subst h0
    apply keyOk_match e _ hp
    refine keyOk_of_core _ s ?_ hk
    simp [core]

theorem keyOk_wordleft (delim : Bool) (fuel : Nat) (s : State) (hk : keyOk s) :
    keyOk (wordleft delim fuel s) := by
  induction fuel generalizing s with
  | zero => exact hk
  | succ fuel ih =>
    rw [wordleft]
    split_ifs with hc
    · obtain ⟨m, h1, h2, h3, _⟩ := nextrune_bwd s hc.1 hk.1.1
      apply ih
      rw [h1, Int.toNat_ofNat]
      exact keyOk_move s m (by have := hk.1.1; omega) h3 hk
    · exact hk

theorem keyOk_wordright (delim : Bool) (fuel : Nat) (s : State) (hk : keyOk s) :
    keyOk (wordright delim fuel s) := by
  induction fuel generalizing s with
  | zero => exact hk
  | succ fuel ih =>
    rw [wordright]
    split_ifs with hc
    · obtain ⟨m, h1, h2, h3, h4, _⟩ := nextrune_fwd s (ne_zero_lt_length s.text s.cursor hc.1)
      apply ih
      rw [h1, Int.toNat_ofNat]
      exact keyOk_move s m h3 (Or.inr h4) hk
    · exact hk

theorem keyOk_movewordedge (s : State) (dir : Int) (hk : keyOk s) :
    keyOk (movewordedge s dir) := by
  unfold movewordedge
  split_ifs
  · exact keyOk_wordleft _ _ _ (keyOk_wordleft _ _ _ hk)
  · exact keyOk_wordright _ _ _ (keyOk_wordright _ _ _ hk)

theorem keyOk_deleteword {D : Type} [LinearOrder D] (e : Env D) (delim : Bool) (fuel : Nat)
    (s : State)
    (hp : ∀ cmd, ∀ line ∈ e.popen cmd, iscont ((chomp line).headD 0) = false)
    (hk : keyOk s) : keyOk (deleteword e delim fuel s) := by
  induction fuel generalizing s with
  | zero => exact hk
  | succ fuel ih =>
    rw [deleteword]
    split_ifs with hc
    · obtain ⟨m, h1, h2, _, _⟩ := nextrune_bwd s hc.1 hk.1.1
      apply ih
      rw [h1]
      exact keyOk_insert_del e s m (by omega) hp hk
    · exact hk

theorem markout_text (items : List item) (i : Nat) :
    (markout items i).map item.text = items.map item.text := by
  induction items generalizing i with
  | nil => rfl
  | cons it rest ih =>
    cases i with
    | zero => simp [markout]
    | succ i => simp [markout, ih]

theorem core_endloop {D : Type} (e : Env D) (fuel : Nat) (s : State) :
    core (endloop e fuel s) = core s := by
  induction fuel generalizing s with
  | zero => rfl
  | succ fuel ih =>
    rw [endloop]
    cases s.next with
    | none => rfl
    | some n =>
      simp only
      cases s.curr.bind (right s.matches_) with
      | none => rfl
      | some c =>
        simp only
        rw [ih, core_calcoffsets]
        rfl

theorem core_keyup {D : Type} (e : Env D) (s : State) : core (keyup e s) = core s := by
  unfold keyup
  cases s.sel with
  | none => rfl
  | some p =>
    simp only
    cases left p with
    | none => rfl
    | some q =>
      simp only
      split_ifs
      · rw [core_calcoffsets]; rfl
      · rfl

theorem core_keydown {D : Type} (e : Env D) (s : State) : core (keydown e s) = core s := by
  unfold keydown
  cases s.sel with
  | none => rfl
  | some p =>
    simp only
    cases right s.matches_ p with
    | none => rfl
    | some q =>
      simp only
      split_ifs
      · rw [core_calcoffsets]; rfl
      · rfl

theorem wellformed_head (str : List Nat) (h : wellformed str = true) :
    iscont (str.headD 0) = false := by
  cases str with
  | nil => exact iscont_zero
  | cons c r =>
    simp only [wellformed, utf8, Bool.and_eq_true, Bool.not_eq_true'] at h
    simpa using h.1.1.1

theorem keyOk_delete_key {D : Type} [LinearOrder D] (e : Env D) (s : State)
    (hp : ∀ cmd, ∀ line ∈ e.popen cmd, iscont ((chomp line).headD 0) = false)
    (hk : keyOk s) (hpos : 0 < s.cursor) :
    keyOk (insert e s [] (nextrune s (-1) - (s.cursor : Int))) := by
  obtain ⟨m, h1, h2, _, _⟩ := nextrune_bwd s hpos hk.1.1
  rw [h1]
  exact keyOk_insert_del e s m (by omega) hp hk

theorem keyOk_right (s : State) (hk : keyOk s)
    (hne : byteat s.text (s.cursor : Int) ≠ 0) :
    keyOk { s with cursor := (nextrune s 1).toNat } ∧ 0 < (nextrune s 1).toNat := by
  obtain ⟨m, h1, h2, h3, h4, _⟩ := nextrune_fwd s (ne_zero_lt_length s.text s.cursor hne)
  rw [h1, Int.toNat_ofNat]
  exact ⟨keyOk_move s m h3 (Or.inr h4) hk, by omega⟩

theorem keyOk_left (s : State) (hk : keyOk s) (hpos : 0 < s.cursor) :
    keyOk { s with cursor := (nextrune s (-1)).toNat } := by
  obtain ⟨m, h1, h2, h3, _⟩ := nextrune_bwd s hpos hk.1.1
  rw [h1, Int.toNat_ofNat]
  exact keyOk_move s m (by have := hk.1.1; omega) h3 hk

theorem textat_head (s : State) (p : Nat) (hi : itemsOk s.items) :
    iscont ((textat s p).headD 0) = false := by
  unfold textat
  cases hg : s.items.get? (s.matches_.getD p 0) with
  | none => exact iscont_zero
  | some it =>
    simp only [Option.map_some', Option.getD_some]
    exact hi it (List.get?_mem hg)

theorem keyOk_tab (s : State) (p c : Nat) (hc : c ≤ (textat s p).length) (hk : keyOk s) :
    keyOk { s with cursor := c, text := (textat s p).take c } := by
  have hlen : ((textat s p).take c).length = c := by simp; omega
  refine ⟨⟨by show c ≤ ((textat s p).take c).length; omega, ?_, ?_⟩, hk.2⟩
  · show iscont (byteat ((textat s p).take c) (c : Int)) = false
    rw [byteat_ge _ _ (by omega)]; exact iscont_zero
  · show iscont (byteat ((textat s p).take c) ((0 : Nat) : Int)) = false
    by_cases h0 : c = 0
    · subst h0
      rw [byteat_ge _ _ (by simp)]; exact iscont_zero
    · rw [byteat_take _ _ _ (by omega), byteat_head]
      exact textat_head s p hk.2

theorem keyOk_keysym {D : Type} [LinearOrder D] (e : Env D) (s : State) (ev : XKeyEvent)
    (k : KeySym)
    (hp : ∀ cmd, ∀ line ∈ e.popen cmd, iscont ((chomp line).headD 0) = false)
    (hev : evOk ev) (hk : keyOk s) : keyOk (keysym e s ev k).1 := by
  have hdel : keyOk (keysym e s ev .XK_Delete).1 := by
    simp only [keysym]
    split_ifs with h1 h2
    · exact hk
    · exact (keyOk_right s hk h1).1
    · exact keyOk_delete_key e _ hp (keyOk_right s hk h1).1 (keyOk_right s hk h1).2
  have hback : keyOk (keysym e s ev .XK_BackSpace).1 := by
    simp only [keysym]
    split_ifs with h1
    · exact hk
    · exact keyOk_delete_key e s hp hk (by omega)
  have hend : keyOk (keysym e s ev .XK_End).1 := by
    simp only [keysym]
    split_ifs with h1
    · exact keyOk_move s _ (le_refl _)
        (Or.inr (by rw [byteat_ge _ _ (le_refl _)]; exact iscont_zero)) hk
    · cases s.next with
      | none => exact keyOk_of_core _ s rfl hk
      | some n =>
        refine keyOk_of_core _ s ?_ hk
        show core (endloop e s.matches_.length _) = core s
        rw [core_endloop, core_calcoffsets]
        show core (calcoffsets e _) = core s
        rw [core_calcoffsets]
        rfl
  have hhome : keyOk (keysym e s ev .XK_Home).1 := by
    simp only [keysym]
    split_ifs
    · exact keyOk_move s 0 (Nat.zero_le _) (Or.inl rfl) hk
    · refine keyOk_of_core _ s ?_ hk
      show core (calcoffsets e _) = core s
      rw [core_calcoffsets]; rfl
  have hleft : keyOk (keysym e s ev .XK_Left).1 := by
    simp only [keysym]
    split_ifs with h1 h2
    · exact keyOk_left s hk h1.1
    · exact hk
    · exact keyOk_of_core _ s (core_keyup e s) hk
  have hright : keyOk (keysym e s ev .XK_Right).1 := by
    simp only [keysym]
    split_ifs with h1 h2
    · exact (keyOk_right s hk h1).1
    · exact hk
    · exact keyOk_of_core _ s (core_keydown e s) hk
  have hnext : keyOk (keysym e s ev .XK_Next).1 := by
    simp only [keysym]
    cases s.next with
    | none => exact hk
    | some p =>
      refine keyOk_of_core _ s ?_ hk
      show core (calcoffsets e _) = core s
      rw [core_calcoffsets]; rfl
  have hprior : keyOk (keysym e s ev .XK_Prior).1 := by
    simp only [keysym]
    cases s.prev with
    | none => exact hk
    | some p =>
      refine keyOk_of_core _ s ?_ hk
      show core (calcoffsets e _) = core s
      rw [core_calcoffsets]; rfl
  have hreturn : keyOk (keysym e s ev .XK_Return).1 := by
    refine keyOk_of_core _ s ?_ hk
    simp only [keysym]
    cases hs : s.sel <;> split_ifs <;> simp [core, exit, markout_text]
  have htab : keyOk (keysym e s ev .XK_Tab).1 := by
    simp only [keysym]
    cases hs : s.sel with
    | none => exact hk
    | some p =>
      exact keyOk_match e _ hp (keyOk_tab s p _ (Nat.min_le_left _ _) hk)
  have hdefault : keyOk (keysym e s ev .other).1 := by
    simp only [keysym]
    split_ifs with h1
    · have h2 := hev (by simpa using h1)
      exact keyOk_insert_put e s ev.buf ev.len h2.1 (wellformed_head _ h2.2) hp hk
    · exact hk
  cases k
  all_goals first
    | exact hdel
    | exact hback
    | exact hend
    | exact hhome
    | exact hleft
    | exact hright
    | exact hnext
    | exact hprior
    | exact hreturn
    | exact htab
    | exact hdefault
    | exact keyOk_of_core _ s (core_keyup e s) hk
    | exact keyOk_of_core _ s (core_keydown e s) hk
    | exact keyOk_of_core _ s rfl hk

theorem keyOk_kill (s : State) (hk : keyOk s) :
    keyOk { s with text := s.text.take s.cursor } := by
  obtain ⟨⟨a, b, c⟩, d⟩ := hk
  have hlen : (s.text.take s.cursor).length = s.cursor := by simp; omega
  refine ⟨⟨by show s.cursor ≤ (s.text.take s.cursor).length; omega, ?_, ?_⟩, d⟩
  · show iscont (byteat (s.text.take s.cursor) (s.cursor : Int)) = false
    rw [byteat_ge _ _ (by omega)]; exact iscont_zero
  · show iscont (byteat (s.text.take s.cursor) ((0 : Nat) : Int)) = false
    by_cases h0 : s.cursor = 0
    · rw [byteat_ge _ _ (by omega)]; exact iscont_zero
    · rw [byteat_take _ _ _ (by omega)]; exact c

theorem keyOk_keycontrol {D : Type} [LinearOrder D] (e : Env D) (s : State) (ev : XKeyEvent)
    (hp : ∀ cmd, ∀ line ∈ e.popen cmd, iscont ((chomp line).headD 0) = false)
    (hev : evOk ev) (hk : keyOk s) : keyOk (keycontrol e s ev).1 := by
  have hev2 : evOk { ev with control := false } := hev
  have hu : keyOk (insert e s [] (0 - (s.cursor : Int))) := by
    have := keyOk_insert_del e s 0 (Nat.zero_le _) hp hk
    simpa using this
  unfold keycontrol
  cases hks : ev.ksym
  case XK_a => exact keyOk_keysym e s ev .XK_Home hp hev hk
  case XK_b => exact keyOk_keysym e s ev .XK_Left hp hev hk
  case XK_c => exact keyOk_keysym e s ev .XK_Escape hp hev hk
  case XK_d => exact keyOk_keysym e s ev .XK_Delete hp hev hk
  case XK_e => exact keyOk_keysym e s ev .XK_End hp hev hk
  case XK_f => exact keyOk_keysym e s ev .XK_Right hp hev hk
  case XK_g => exact keyOk_keysym e s ev .XK_Escape hp hev hk
  case XK_h => exact keyOk_keysym e s ev .XK_BackSpace hp hev hk
  case XK_i => exact keyOk_keysym e s ev .XK_Tab hp hev hk
  case XK_j => exact keyOk_keysym e s { ev with control := false } .XK_Return hp hev2 hk
  case XK_J => exact keyOk_keysym e s { ev with control := false } .XK_Return hp hev2 hk
  case XK_m => exact keyOk_keysym e s { ev with control := false } .XK_Return hp hev2 hk
  case XK_M => exact keyOk_keysym e s { ev with control := false } .XK_Return hp hev2 hk
  case XK_n => exact keyOk_keysym e s ev .XK_Down hp hev hk
  case XK_p => exact keyOk_keysym e s ev .XK_Up hp hev hk
  case XK_k =>
    exact keyOk_keysym e _ ev .XK_k hp hev (keyOk_match e _ hp (keyOk_kill s hk))
  case XK_u => exact keyOk_keysym e _ ev .XK_u hp hev hu
  case XK_w =>
    exact keyOk_keysym e _ ev .XK_w hp hev
      (keyOk_deleteword e _ _ _ hp (keyOk_deleteword e _ _ _ hp hk))
  case XK_Left => exact keyOk_movewordedge s _ hk
  case XK_KP_Left => exact keyOk_movewordedge s _ hk
  case XK_Right => exact keyOk_movewordedge s _ hk
  case XK_KP_Right => exact keyOk_movewordedge s _ hk
  case XK_Return => exact keyOk_keysym e s ev .XK_Return hp hev hk
  case XK_KP_Enter => exact keyOk_keysym e s ev .XK_KP_Enter hp hev hk
  case XK_bracketleft => exact keyOk_of_core _ s rfl hk
  all_goals exact hk

theorem keyOk_keymod1 {D : Type} [LinearOrder D] (e : Env D) (s : State) (ev : XKeyEvent)
    (hp : ∀ cmd, ∀ line ∈ e.popen cmd, iscont ((chomp line).headD 0) = false)
    (hev : evOk ev) (hk : keyOk s) : keyOk (keymod1 e s ev).1 := by
  unfold keymod1
  cases hks : ev.ksym
  case XK_b => exact keyOk_movewordedge s _ hk
  case XK_f => exact keyOk_movewordedge s _ hk
  case XK_g => exact keyOk_keysym e s ev .XK_Home hp hev hk
  case XK_G => exact keyOk_keysym e s ev .XK_End hp hev hk
  case XK_h => exact keyOk_keysym e s ev .XK_Up hp hev hk
  case XK_j => exact keyOk_keysym e s ev .XK_Next hp hev hk
  case XK_k => exact keyOk_keysym e s ev .XK_Prior hp hev hk
  case XK_l => exact keyOk_keysym e s ev .XK_Down hp hev hk
  all_goals exact hk

theorem keyOk_keypress {D : Type} [LinearOrder D] (e : Env D) (s : State) (ev : XKeyEvent)
    (hp : ∀ cmd, ∀ line ∈ e.popen cmd, iscont ((chomp line).headD 0) = false)
    (hev : evOk ev) (hk : keyOk s) : keyOk (keypress e s ev) := by
  have hd : keyOk (keydispatch e s ev).1 := by
    unfold keydispatch
    cases ev.status
    · exact hk
    · exact hk
    · exact keyOk_keysym e s ev _ hp hev hk
    · simp only
      split_ifs
      · exact keyOk_keycontrol e s ev hp hev hk
      · exact keyOk_keymod1 e s ev hp hev hk
      · exact keyOk_keysym e s ev _ hp hev hk
    · simp only
      split_ifs
      · exact keyOk_keycontrol e s ev hp hev hk
      · exact keyOk_keymod1 e s ev hp hev hk
      · exact keyOk_keysym e s ev _ hp hev hk
  unfold keypress
  simp only
  split_ifs
  · exact keyOk_of_core _ _ rfl hd
  · exact hd

theorem keyOk_runkeys {D : Type} [LinearOrder D] (e : Env D) (evs : List XKeyEvent) (s : State)
    (hp : ∀ cmd, ∀ line ∈ e.popen cmd, iscont ((chomp line).headD 0) = false)
    (hev : ∀ ev ∈ evs, evOk ev) (hk : keyOk s) : keyOk (runkeys e evs s) := by
  induction evs generalizing s with
  | nil => exact hk
  | cons ev evs ih =>
    rw [runkeys]
    split_ifs
    · exact hk
    · exact ih _ (fun ev2 h2 => hev ev2 (List.mem_cons_of_mem _ h2))
        (keyOk_keypress e s ev hp (hev ev (List.mem_cons_self _ _)) hk)

/-- C9. Query Buffer invariant: starting from the empty buffer with cursor 0, after
any sequence of key presses (typed or composed text that is well-formed UTF-8, delete
rune forward and backward, delete word, delete to start, delete to end, move by rune
and by word, Home, End, Tab completion, with well-formed candidates from standard
input and from the dynamic command) the cursor is at most the length of the text and
the byte at the cursor is not a UTF-8 continuation byte. -/
theorem buffer_invariant {D : Type} [LinearOrder D] (e : Env D) (s0 : State)
    (evs : List XKeyEvent) (htext : s0.text = []) (hcur : s0.cursor = 0)
    (hitems : ∀ it ∈ s0.items, wellformed it.text = true)
    (hpopen : ∀ cmd, ∀ line ∈ e.popen cmd, wellformed (chomp line) = true)
    (hevs : ∀ ev ∈ evs, evOk ev) :
    (runkeys e evs s0).cursor ≤ (runkeys e evs s0).text.length ∧
      iscont (byteat (runkeys e evs s0).text (runkeys e evs s0).cursor) = false := by
  have h0 : keyOk s0 := by
    refine ⟨⟨by rw [hcur]; exact Nat.zero_le _, ?_, ?_⟩,
      fun it hit => wellformed_head _ (hitems it hit)⟩
    · rw [htext, hcur]; exact iscont_zero
    · rw [htext]; exact iscont_zero
  have h := keyOk_runkeys e evs s0
    (fun cmd line hl => wellformed_head _ (hpopen cmd line hl)) hevs h0
  exact ⟨h.1.1, h.1.2.1⟩

/-- Witness for C9: the key presses `demokeys` on the store `hé`. -/
theorem buffer_invariant_witness :
    accent.text = [] ∧ accent.cursor = 0 ∧ (∀ ev ∈ demokeys, evOk ev) ∧
      (runkeys demo demokeys accent).cursor ≤ (runkeys demo demokeys accent).text.length ∧
      iscont (byteat (runkeys demo demokeys accent).text
        (runkeys demo demokeys accent).cursor) = false :=
  ⟨rfl, rfl, by decide,
    buffer_invariant demo accent demokeys rfl rfl (by decide)
      (by
        intro cmd line hl
        have h : line = [120, 10] ∨ line = [121, 10] := by simpa [demo] using hl
        rcases h with rfl | rfl <;> decide)
      (by decide)⟩

/-! ## Round trip of `insert` and BackSpace -/

theorem insert_put_eq {D : Type} [LinearOrder D] (e : Env D) (s : State) (str : List Nat)
    (hfit : s.text.length + str.length < e.BUFSIZ) :
    (insert e s str (str.length : Int)).text =
        s.text.take s.cursor ++ str ++ s.text.drop s.cursor ∧
      (insert e s str (str.length : Int)).cursor = s.cursor + str.length := by
  have hacc : ¬ (((s.text.length : Int) + (str.length : Int)) % 18446744073709551616 >
      (e.BUFSIZ : Int) - 1) := by
    omega
  unfold insert
  rw [if_neg hacc]
  simp only [match_text, match_cursor]
  by_cases hpos : (str.length : Int) > 0
  · rw [if_pos hpos]
    refine ⟨by simp, by omega⟩
  · have h0 : str = [] := by
      apply List.eq_nil_of_length_eq_zero
      omega
    subst h0
    simp

theorem insert_del_eq {D : Type} [LinearOrder D] (e : Env D) (s : State) (m : Nat)
    (hm : m ≤ s.cursor) (hc : s.cursor ≤ s.text.length) (hb : s.text.length < e.BUFSIZ) :
    (insert e s [] ((m : Int) - (s.cursor : Int))).text =
        s.text.take m ++ s.text.drop s.cursor ∧
      (insert e s [] ((m : Int) - (s.cursor : Int))).cursor = m := by
  have hacc : ¬ (((s.text.length : Int) + ((m : Int) - (s.cursor : Int))) %
      18446744073709551616 > (e.BUFSIZ : Int) - 1) := by
    omega
  unfold insert
  rw [if_neg hacc]
  simp only [match_text, match_cursor]
  have hneg : ¬ ((m : Int) - (s.cursor : Int) > 0) := by omega
  rw [if_neg hneg]
  have hcast : ((s.cursor : Int) + ((m : Int) - (s.cursor : Int))).toNat = m := by
    have : (s.cursor : Int) + ((m : Int) - (s.cursor : Int)) = (m : Int) := by omega
    rw [this]; simp
  rw [hcast]
  exact ⟨rfl, rfl⟩

/-- A string with a rune ends in a lead byte followed by continuation bytes only. -/
theorem last_rune (str : List Nat) (h : 1 ≤ runecount str) :
    ∃ mid lead conts, str = mid ++ lead :: conts ∧ iscont lead = false ∧
      (∀ c ∈ conts, iscont c = true) ∧ runecount mid + 1 = runecount str := by
  induction str using List.reverseRecOn with
  | nil => simp [runecount] at h
  | append_singleton r x ih =>
    by_cases hx : iscont x = true
    · have hr : runecount (r ++ [x]) = runecount r := by
        simp [runecount, List.countP_append, hx]
      rw [hr] at h
      obtain ⟨mid, lead, conts, h1, h2, h3, h4⟩ := ih h
      refine ⟨mid, lead, conts ++ [x], by rw [h1]; simp, h2, ?_, by rw [hr]; exact h4⟩
      intro c hc
      rcases List.mem_append.1 hc with hc | hc
      · exact h3 c hc
      · simp at hc; rw [hc]; exact hx
    · have hx2 : iscont x = false := by simpa using hx
      refine ⟨r, x, [], rfl, hx2, by simp, ?_⟩
      simp [runecount, List.countP_append, hx2]

/-- One BackSpace behind a rune removes that rune. -/
theorem backspace_rune {D : Type} [LinearOrder D] (e : Env D) (t : State)
    (front conts post : List Nat) (lead : Nat)
    (htext : t.text = front ++ lead :: conts ++ post)
    (hcur : t.cursor = front.length + 1 + conts.length)
    (hlead : iscont lead = false) (hconts : ∀ c ∈ conts, iscont c = true)
    (hb : t.text.length < e.BUFSIZ) :
    (keypress e t backspace).text = front ++ post ∧
      (keypress e t backspace).cursor = front.length := by
  have hlen : t.text.length = front.length + 1 + conts.length + post.length := by
    rw [htext]; simp; omega
  have hpos : 0 < t.cursor := by omega
  have hle : t.cursor ≤ t.text.length := by omega
  obtain ⟨m, h1, h2, h3, h4⟩ := nextrune_bwd t hpos hle
  have hbyte : ∀ j, j ≤ conts.length →
      byteat t.text ((front.length + j : Nat) : Int) = (lead :: conts).getD j 0 := by
    intro j hj
    rw [htext, List.append_assoc, byteat_append_right, byteat_nat]
    simp only [List.getD_eq_getElem?_getD]
    rw [List.getElem?_append_left (by simp; omega)]
  have hm : m = front.length := by
    rcases Nat.lt_trichotomy m front.length with hlt | heq | hgt
    · have := h4 front.length hlt (by omega)
      have hb0 := hbyte 0 (Nat.zero_le _)
      simp only [Nat.add_zero, List.getD_cons_zero] at hb0
      rw [hb0, hlead] at this
      cases this
    · exact heq
    · obtain ⟨j, hj⟩ : ∃ j, m = front.length + (j + 1) := ⟨m - front.length - 1, by omega⟩
      have hjlt : j < conts.length := by omega
      have hbj := hbyte (j + 1) (by omega)
      rw [← hj] at hbj
      have hc : iscont (byteat t.text (m : Int)) = true := by
        have hget : (lead :: conts).getD (j + 1) 0 = conts[j] := by
          simp [List.getD_eq_getElem?_getD, List.getElem?_eq_getElem hjlt]
        rw [hbj, hget]
        exact hconts _ (List.getElem_mem _)
      rcases h3 with h0 | h0
      · omega
      · rw [hc] at h0; cases h0
  subst hm
  have hkey : keypress e t backspace =
      drawmenu (insert e t [] (nextrune t (-1) - (t.cursor : Int))) := by
    have hne : ¬ t.cursor = 0 := by omega
    simp [keypress, keydispatch, backspace, keysym, hne]
  rw [hkey, h1]
  have hd := insert_del_eq e t front.length (by omega) hle hb
  refine ⟨?_, hd.2⟩
  show (insert e t [] ((front.length : Int) - (t.cursor : Int))).text = front ++ post
  rw [hd.1, htext, hcur]
  have e1 : List.take front.length (front ++ lead :: conts ++ post) = front := by
    rw [List.append_assoc, List.take_left']
    rfl
  have e2 : List.drop (front.length + 1 + conts.length) (front ++ lead :: conts ++ post) =
      post := by
    have : front.length + 1 + conts.length = (front ++ lead :: conts).length := by
      simp; omega
    rw [this, List.drop_left']
    rfl
  rw [e1, e2]

theorem runecount_zero (str : List Nat) (h : runecount str = 0)
    (hh : iscont (str.headD 0) = false) : str = [] := by
  cases str with
  | nil => rfl
  | cons c r =>
    simp only [List.headD_cons] at hh
    simp [runecount, List.countP_cons, hh] at h

/-- BackSpace pressed once per rune removes a string that stands before the cursor and
does not begin with a continuation byte. -/
theorem presses_backspace {D : Type} [LinearOrder D] (e : Env D) (k : Nat) (str : List Nat)
    (front post : List Nat) (t : State) (hk : runecount str = k)
    (hh : iscont (str.headD 0) = false)
    (htext : t.text = front ++ str ++ post) (hcur : t.cursor = front.length + str.length)
    (hb : t.text.length < e.BUFSIZ) :
    (presses e backspace k t).text = front ++ post ∧
      (presses e backspace k t).cursor = front.length := by
  induction k generalizing str t with
  | zero =>
    have h0 := runecount_zero str hk hh
    subst h0
    simp only [presses]
    exact ⟨by simpa using htext, by simpa using hcur⟩
  | succ k ih =>
    obtain ⟨mid, lead, conts, h1, h2, h3, h4⟩ := last_rune str (by omega)
    have hstep := backspace_rune e t (front ++ mid) conts post lead
      (by rw [htext, h1]; simp) (by rw [hcur, h1]; simp; omega) h2 h3 hb
    rw [presses]
    have hmid : iscont (mid.headD 0) = false := by
      cases mid with
      | nil => exact iscont_zero
      | cons c r =>
        rw [h1] at hh
        simpa using hh
    have := ih mid (keypress e t backspace) (by omega) hmid
      hstep.1 (by rw [hstep.2]; simp)
      (by
        rw [hstep.1]
        have : t.text.length = (front ++ str ++ post).length := by rw [htext]
        rw [h1] at this
        simp at this
        simp
        omega)
    exact this

/-- C10. Round trip: from a Query Buffer state that satisfies the buffer invariant,
inserting a well-formed UTF-8 string of `k` runes that `insert` accepts (the text with
it stays below the buffer size) and then pressing BackSpace `k` times restores the
text and the cursor exactly. -/
theorem insert_backspace_roundtrip {D : Type} [LinearOrder D] (e : Env D) (s : State)
    (str : List Nat) (hinv : bufferInv s) (hwf : wellformed str = true)
    (hfit : s.text.length + str.length < e.BUFSIZ) :
    (presses e backspace (runecount str) (insert e s str (str.length : Int))).text = s.text ∧
      (presses e backspace (runecount str) (insert e s str (str.length : Int))).cursor =
        s.cursor := by
  have hins := insert_put_eq e s str hfit
  have hc : s.cursor ≤ s.text.length := hinv.1
  have htake : (s.text.take s.cursor).length = s.cursor := by simp; omega
  have h := presses_backspace e (runecount str) str (s.text.take s.cursor)
    (s.text.drop s.cursor) (insert e s str (str.length : Int)) rfl (wellformed_head str hwf)
    hins.1 (by rw [hins.2, htake])
    (by rw [hins.1]; simp; omega)
  rw [List.take_append_drop, htake] at h
  exact h

/-- Witness for C10: `hé€` (three runes, six bytes) inserted between `a` and `b`. -/
theorem insert_backspace_roundtrip_witness :
    bufferInv { State.initial 3 200 with text := [97, 98], cursor := 1 } ∧
      wellformed [104, 195, 169, 226, 130, 172] = true ∧
      (presses demo backspace 3 (insert demo
        { State.initial 3 200 with text := [97, 98], cursor := 1 }
        [104, 195, 169, 226, 130, 172] 6)).text = [97, 98] ∧
      (presses demo backspace 3 (insert demo
        { State.initial 3 200 with text := [97, 98], cursor := 1 }
        [104, 195, 169, 226, 130, 172] 6)).cursor = 1 :=
  ⟨by decide, by decide,
    insert_backspace_roundtrip demo { State.initial 3 200 with text := [97, 98], cursor := 1 }
      [104, 195, 169, 226, 130, 172] (by decide) (by decide) (by decide)⟩

/-! ## Rejected insertion -/

/-- C11. For every state and every string of `n` bytes (`n > 0` included) with
`length(text) + n` greater than the buffer capacity `BUFSIZ - 1`, `insert` returns with
every global as it was: the text, the cursor, the Match List and the selection are
unchanged and no part of the string is inserted. The sum is formed in `size_t`, so it
is taken below `2^64`. -/
theorem insert_rejects {D : Type} [LinearOrder D] (e : Env D) (s : State) (str : List Nat)
    (hover : s.text.length + str.length > e.BUFSIZ - 1)
    (hsz : s.text.length + str.length < 18446744073709551616) :
    insert e s str (str.length : Int) = s ∧
      (insert e s str (str.length : Int)).text = s.text ∧
      (insert e s str (str.length : Int)).cursor = s.cursor ∧
      (insert e s str (str.length : Int)).matches_ = s.matches_ ∧
      (insert e s str (str.length : Int)).sel = s.sel := by
  have hrej : ((s.text.length : Int) + (str.length : Int)) % 18446744073709551616 >
      (e.BUFSIZ : Int) - 1 := by
    omega
  have h : insert e s str (str.length : Int) = s := by
    unfold insert
    rw [if_pos hrej]
  rw [h]
  exact ⟨rfl, rfl, rfl, rfl, rfl⟩

/-- Witness for C11: a buffer of 16 bytes holding ten; six more bytes are refused. -/
theorem insert_rejects_witness :
    tenbytes.text.length + [98, 98, 98, 98, 98, 98].length > demo.BUFSIZ - 1 ∧
      insert demo tenbytes [98, 98, 98, 98, 98, 98] 6 = tenbytes :=
  ⟨by decide,
    (insert_rejects demo tenbytes [98, 98, 98, 98, 98, 98] (by decide) (by decide)).1⟩

/-! ## Dynamic command line -/

theorem shellquote_eq_quoted (q : List Nat) : shellquote q = quoted q := by
  induction q with
  | nil => rfl
  | cons c t ih =>
    by_cases h : c = 39
    · simp [shellquote, quoted, h, List.flatMap_cons] at ih ⊢
      exact ih
    · simp [shellquote, quoted, h, List.flatMap_cons] at ih ⊢
      exact ih

theorem cmdlen_eq (d q : List Nat) : cmdlen d q = d.length + 4 + (shellquote q).length := by
  induction q with
  | nil => simp [cmdlen, shellquote]
  | cons c t ih =>
    by_cases h : c = 39
    · simp [cmdlen, shellquote, h, ih]; omega
    · simp [cmdlen, shellquote, h, ih]; omega

/-- C16. For every command string `d` and query `q`, `refreshoptions` builds exactly
`d`, one space, a single quote, `q` with each single quote replaced by the four bytes
`'\''` and every other byte unchanged, and a closing single quote, and hands it to
`popen`; the bytes written, the terminator included, are as many as the allocated
`cmdlen`. -/
theorem dynamic_command_line {D : Type} (e : Env D) (s : State) (d q : List Nat) :
    dyncmd d q = d ++ [32] ++ [39] ++ quoted q ++ [39] ∧
      (dyncmd d q).length + 1 = cmdlen d q ∧
      refreshoptions e s d = readstdin e s (e.popen (d ++ [32] ++ [39] ++ quoted s.text ++ [39])) := by
  have h1 : ∀ t, dyncmd d t = d ++ [32] ++ [39] ++ quoted t ++ [39] := by
    intro t
    simp [dyncmd, shellquote_eq_quoted]
  refine ⟨h1 q, ?_, ?_⟩
  · rw [cmdlen_eq]
    simp [dyncmd]
    omega
  · rw [refreshoptions, h1]

/-! ## Password rendering -/

/-- C17, as the code has it. Password mode: for every query the text drawn in the input
cell is one dot per byte of the query, and every byte drawn is the dot whatever the
query holds; the dots are as many as the runes when no rune of the query is longer
than one byte. -/
theorem password_cell {D : Type} (e : Env D) (s : State) (hp : e.passwd = true) :
    inputcell e s = List.replicate s.text.length 46 ∧
      (∀ b ∈ inputcell e s, b = 46) ∧
      ((∀ c ∈ s.text, iscont c = false) → (inputcell e s).length = runecount s.text) := by
  have h : inputcell e s = List.replicate s.text.length 46 := by
    simp [inputcell, hp]
  refine ⟨h, ?_, ?_⟩
  · intro b hb
    rw [h] at hb
    exact (List.mem_replicate.1 hb).2
  · intro hc
    rw [h, List.length_replicate, runecount]
    symm
    rw [List.countP_eq_length]
    intro c hm
    simp [hc c hm]

/-- Witness for C17 as amended: the query `ab` in password mode is drawn as two dots. -/
theorem password_cell_witness :
    inputcell { demo with passwd := true }
        (runkeys { demo with passwd := true } [typed [97], typed [98]] (State.initial 0 0)) =
      [46, 46] :=
  (password_cell { demo with passwd := true }
    (runkeys { demo with passwd := true } [typed [97], typed [98]] (State.initial 0 0))
    rfl).1.trans (by decide)

/-- C17 fails as stated: in password mode the query `é`, one rune of two bytes, is drawn
as two dots. -/
theorem password_cell_fails :
    (runkeys { demo with passwd := true } [typed [195, 169]] (State.initial 0 0)).text =
        [195, 169] ∧
      wellformed [195, 169] = true ∧ runecount [195, 169] = 1 ∧
      inputcell { demo with passwd := true }
        (runkeys { demo with passwd := true } [typed [195, 169]] (State.initial 0 0)) =
          [46, 46] := by
  decide

/-! ## High-priority flag -/

theorem strncmp_full_iff (a b : List Nat) (n : Nat) (h : a.length < n) :
    strncmp a b n = 0 ↔ a = b := by
  induction a generalizing b n with
  | nil =>
    obtain ⟨m, rfl⟩ : ∃ m, n = m + 1 := ⟨n - 1, by simp at h; omega⟩
    cases b <;> simp [strncmp]
  | cons x a ih =>
    obtain ⟨m, rfl⟩ : ∃ m, n = m + 1 := ⟨n - 1, by simp at h; omega⟩
    cases b with
    | nil => simp [strncmp]
    | cons y b =>
      by_cases hxy : x = y
      · simp only [List.length_cons] at h
        simp [strncmp, hxy, ih b m (by omega)]
      · simp [strncmp, hxy, bytecmp_ne x y hxy]

theorem str_compar_eq_zero_iff (ci : Bool) (s0 s1 : List Nat) :
    str_compar ci s0 s1 = 0 ↔ s0.map (fold ci) = s1.map (fold ci) := by
  rw [str_compar, fstrncmp_eq]
  exact strncmp_full_iff _ _ _ (by simp; omega)

theorem hpflag_ne_zero_iff {D : Type} (e : Env D) (hp : List (List Nat)) (i : Nat)
    (text : List Nat) (hh : e.hpitems = some hp) :
    hpflag e i text ≠ 0 ↔
      ∃ h ∈ hp, text.map (fold e.insensitive) = h.map (fold e.insensitive) := by
  unfold hpflag
  rw [hh]
  simp only
  by_cases hany : (hp.any fun h => str_compar e.insensitive text h == 0) = true
  · rw [if_pos hany]
    simp only [ne_eq, one_ne_zero, not_false_eq_true, true_iff]
    obtain ⟨h, hm, hc⟩ := List.any_eq_true.1 hany
    exact ⟨h, hm, (str_compar_eq_zero_iff _ _ _).1 (by simpa using hc)⟩
  · rw [if_neg hany]
    simp only [ne_eq, not_true_eq_false, false_iff]
    rintro ⟨h, hm, hc⟩
    apply hany
    exact List.any_eq_true.2 ⟨h, hm, by simpa using (str_compar_eq_zero_iff _ _ _).2 hc⟩

theorem readlines_hp {D : Type} (e : Env D) (stream : List (List Nat)) (i : Nat) (it : item)
    (hit : it ∈ readlines e stream i) : ∃ j, it.hp = hpflag e j it.text := by
  induction stream generalizing i with
  | nil => cases hit
  | cons l r ih =>
    rw [readlines] at hit
    rcases List.mem_cons.1 hit with rfl | h2
    · exact ⟨i, rfl⟩
    · exact ih (i + 1) h2

/-- C13, as the code has it. Load with a configured high-priority list, password mode
off: the loaded texts are the lines without their newline, and a candidate's
`high_priority` flag is set after the load exactly when its text equals one of the
listed strings under the active comparison of `str_compar`: byte for byte without `-i`
(exact-string membership), up to the case of ASCII letters with `-i`. The pointer that
`bsearch` returns is taken to stay non-zero when cast to `int`. -/
theorem hp_flag_membership {D : Type} (e : Env D) (s : State) (stream : List (List Nat))
    (hp : List (List Nat)) (hh : e.hpitems = some hp) (hpw : e.passwd = false) :
    (readstdin e s stream).items.map item.text = stream.map chomp ∧
      (∀ it ∈ (readstdin e s stream).items,
        (it.hp ≠ 0 ↔
          ∃ h ∈ hp, it.text.map (fold e.insensitive) = h.map (fold e.insensitive))) ∧
      (e.insensitive = false →
        ∀ it ∈ (readstdin e s stream).items, (it.hp ≠ 0 ↔ it.text ∈ hp)) := by
  have hitems : (readstdin e s stream).items = readlines e stream 0 := by
    simp [readstdin, hpw]
  have hmain : ∀ it ∈ (readstdin e s stream).items,
      (it.hp ≠ 0 ↔
        ∃ h ∈ hp, it.text.map (fold e.insensitive) = h.map (fold e.insensitive)) := by
    intro it hit
    rw [hitems] at hit
    obtain ⟨j, hj⟩ := readlines_hp e stream 0 it hit
    rw [hj]
    exact hpflag_ne_zero_iff e hp j it.text hh
  refine ⟨by rw [hitems, readlines_text], hmain, ?_⟩
  intro hci it hit
  rw [hmain it hit, hci]
  have hf : fold false = id := by funext c; simp [fold]
  simp [hf]

/-- Witness for C13 as amended: the list `banana` and the stream `apple`, `banana`,
without `-i`; the second candidate is flagged, the first is not. -/
theorem hp_flag_membership_witness :
    (readstdin { demo with hpitems := some [[98, 97, 110, 97, 110, 97]] }
        (State.initial 3 200)
        [[97, 112, 112, 108, 101, 10], [98, 97, 110, 97, 110, 97, 10]]).items =
        [⟨[97, 112, 112, 108, 101], 0, 0⟩, ⟨[98, 97, 110, 97, 110, 97], 0, 1⟩] ∧
      ∀ it ∈ (readstdin { demo with hpitems := some [[98, 97, 110, 97, 110, 97]] }
        (State.initial 3 200)
        [[97, 112, 112, 108, 101, 10], [98, 97, 110, 97, 110, 97, 10]]).items,
        (it.hp ≠ 0 ↔ it.text ∈ [[98, 97, 110, 97, 110, 97]]) :=
  ⟨by decide,
    (hp_flag_membership { demo with hpitems := some [[98, 97, 110, 97, 110, 97]] }
      (State.initial 3 200)
      [[97, 112, 112, 108, 101, 10], [98, 97, 110, 97, 110, 97, 10]]
      [[98, 97, 110, 97, 110, 97]] rfl rfl).2.2 rfl⟩

/-- C13 fails as stated: with `-i`, the list `apple` and the stream `Apple`, the
candidate `Apple` is flagged although its text is not one of the listed strings. -/
theorem hp_flag_membership_fails :
    (readstdin { demo with insensitive := true, hpitems := some [[97, 112, 112, 108, 101]] }
        (State.initial 3 200) [[65, 112, 112, 108, 101, 10]]).items =
        [⟨[65, 112, 112, 108, 101], 0, 1⟩] ∧
      ([65, 112, 112, 108, 101] : List Nat) ∉ [[97, 112, 112, 108, 101]] := by
  decide

/-! ## Case-insensitive mode -/

theorem tolower_idem (c : Nat) : tolower (tolower c) = tolower c := by
  unfold tolower
  split_ifs <;> omega

theorem tolower_eq_space (c : Nat) : tolower c = 32 ↔ c = 32 := by
  unfold tolower
  split_ifs <;> omega

theorem map_tolower_idem (l : List Nat) : (l.map tolower).map tolower = l.map tolower := by
  simp [List.map_map, Function.comp_def, tolower_idem]

theorem fold_true : fold true = tolower := by
  funext c; simp [fold]

theorem strtok_go_map (s acc : List Nat) :
    strtok.go 32 (s.map tolower) (acc.map tolower) =
      (strtok.go 32 s acc).map (List.map tolower) := by
  induction s generalizing acc with
  | nil =>
    by_cases h : acc = []
    · simp [strtok.go, h]
    · simp [strtok.go, h, List.map_reverse]
  | cons c s ih =>
    have ih0 := ih []
    simp only [List.map_nil] at ih0
    by_cases hc : c = 32
    · by_cases h : acc = []
      · simp [strtok.go, hc, h, tolower_eq_space, ih0]
      · simp [strtok.go, hc, h, tolower_eq_space, ih0, List.map_reverse]
    · have := ih (c :: acc)
      simp only [List.map_cons] at this
      simp [strtok.go, hc, tolower_eq_space, this]

theorem spaceTokens_map (q : List Nat) :
    spaceTokens (q.map tolower) = (spaceTokens q).map (List.map tolower) := by
  rw [← tokv_eq_spaceTokens, ← tokv_eq_spaceTokens]
  exact strtok_go_map q []

theorem tokenPred_lower (q t : List Nat) :
    tokenPred true q t ↔ ∀ x ∈ spaceTokens (q.map tolower), x <:+: t.map tolower := by
  rw [spaceTokens_map]
  simp [tokenPred, foldInfix, fold_true]

theorem startsFirstToken_lower (q t : List Nat) :
    startsFirstToken true q t ↔
      ∃ x ∈ (spaceTokens (q.map tolower)).head?, x <+: t.map tolower := by
  rw [spaceTokens_map]
  cases h : spaceTokens q with
  | nil => simp [startsFirstToken, h]
  | cons a b => simp [startsFirstToken, h, foldStarts, fold_true]

theorem specBucket_lower (q q2 : List Nat) (it it2 : item)
    (hq : q2.map tolower = q.map tolower) (ht : it2.text.map tolower = it.text.map tolower)
    (hh : it2.hp = it.hp) : specBucket true q2 it2 = specBucket true q it := by
  have h1 : tokenPred true q2 it2.text ↔ tokenPred true q it.text := by
    rw [tokenPred_lower, tokenPred_lower, hq, ht]
  have h2 : startsFirstToken true q2 it2.text ↔ startsFirstToken true q it.text := by
    rw [startsFirstToken_lower, startsFirstToken_lower, hq, ht]
  unfold specBucket
  simp only [fold_true, h1, h2, hq, ht, hh]

theorem pick_congr (cls cls2 : item → Option Nat) (k : Nat) (items items2 : List item)
    (h : List.Forall₂ (fun a b => cls2 b = cls a) items items2) (idx : Nat) :
    pick cls2 k idx items2 = pick cls k idx items := by
  induction h generalizing idx with
  | nil => rfl
  | cons hab _ ih =>
    have := ih (idx + 1)
    simp only [pick, List.enumFrom, List.filter_cons, hab] at this ⊢
    split_ifs
    · simp [this]
    · exact this

theorem tokenmatch_lower (items items2 : List item) (q q2 : List Nat)
    (hq : q2.map tolower = q.map tolower)
    (hi : List.Forall₂ (fun a b => b.text.map tolower = a.text.map tolower ∧ b.hp = a.hp)
      items items2) :
    tokenmatch true items2 q2 = tokenmatch true items q := by
  have hempty : spaceTokens q2 = [] ↔ spaceTokens q = [] := by
    have e1 := spaceTokens_map q
    have e2 := spaceTokens_map q2
    rw [hq] at e2
    constructor
    · intro h
      rw [h] at e2
      rw [e2] at e1
      simpa using e1.symm
    · intro h
      rw [h] at e1
      rw [e1] at e2
      simpa using e2.symm
  have hcls : List.Forall₂ (fun a b => specBucket true q2 b = specBucket true q a)
      items items2 :=
    List.Forall₂.imp (fun a b h => specBucket_lower q q2 a b hq h.1 h.2) hi
  rw [tokenmatch_eq, tokenmatch_eq]
  by_cases he : spaceTokens q = []
  · rw [if_pos he, if_pos (hempty.2 he), hi.length_eq]
  · rw [if_neg he, if_neg (fun h => he (hempty.1 h))]
    simp only [bucketOrder, bucketList_eq_pick]
    rw [pick_congr _ _ 0 items items2 hcls, pick_congr _ _ 1 items items2 hcls,
      pick_congr _ _ 2 items items2 hcls, pick_congr _ _ 3 items items2 hcls]

theorem fuzzyscan_lower (q q2 : List Nat) (hq : q2.map tolower = q.map tolower)
    (t t2 : List Nat) (ht : t2.map tolower = t.map tolower) (i pidx : Nat) (sidx : Int) :
    fuzzyscan true q2 t2 i pidx sidx = fuzzyscan true q t i pidx sidx := by
  have hlen : q2.length = q.length := by
    have := congrArg List.length hq
    simpa using this
  induction t generalizing t2 i pidx sidx with
  | nil =>
    cases t2 with
    | nil => rfl
    | cons a b => simp at ht
  | cons c r ih =>
    cases t2 with
    | nil => simp at ht
    | cons c2 r2 =>
      simp only [List.map_cons, List.cons.injEq] at ht
      have hcond : fstrncmp true (q2.drop pidx) [c2] 1 = fstrncmp true (q.drop pidx) [c] 1 := by
        rw [fstrncmp_eq, fstrncmp_eq, fold_true, List.map_drop, List.map_drop, hq]
        simp [ht.1]
      rw [fuzzyscan, fuzzyscan, hcond, hlen]
      simp only [ih r2 ht.2]

theorem fuzzycollect_lower {D : Type} (L : Libm D) (q q2 : List Nat)
    (hq : q2.map tolower = q.map tolower) (items items2 : List item)
    (hi : List.Forall₂ (fun a b => b.text.map tolower = a.text.map tolower ∧ b.hp = a.hp)
      items items2) (idx : Nat) :
    fuzzycollect L true q2 items2 idx = fuzzycollect L true q items idx := by
  have hlen : q2.length = q.length := by
    have := congrArg List.length hq
    simpa using this
  induction hi generalizing idx with
  | nil => rfl
  | cons hab _ ih =>
    rw [fuzzycollect, fuzzycollect, fuzzyscan_lower q q2 hq _ _ hab.1, hlen, ih]

theorem hpflag_lower {D : Type} (e : Env D) (hci : e.insensitive = true) (i : Nat)
    (t t2 : List Nat) (ht : t2.map tolower = t.map tolower) : hpflag e i t2 = hpflag e i t := by
  unfold hpflag
  cases e.hpitems with
  | none => rfl
  | some hp =>
    simp only
    have hany : (hp.any fun h => str_compar e.insensitive t2 h == 0) =
        (hp.any fun h => str_compar e.insensitive t h == 0) := by
      congr 1
      funext h
      rw [Bool.eq_iff_iff]
      simp only [beq_iff_eq, str_compar_eq_zero_iff, hci, fold_true, ht]
    rw [hany]

/-- Under `-i` a load of lines that differ in the case of ASCII letters only gives
stores with the same lower-cased texts and the same high-priority flags. -/
theorem readlines_lower {D : Type} (e : Env D) (hci : e.insensitive = true)
    (stream stream2 : List (List Nat))
    (hs : List.Forall₂ (fun a b => (chomp b).map tolower = (chomp a).map tolower)
      stream stream2) (i : Nat) :
    List.Forall₂ (fun a b => b.text.map tolower = a.text.map tolower ∧ b.hp = a.hp)
      (readlines e stream i) (readlines e stream2 i) := by
  induction hs generalizing i with
  | nil => exact List.Forall₂.nil
  | cons hab _ ih =>
    rw [readlines, readlines]
    exact List.Forall₂.cons ⟨hab, hpflag_lower e hci i _ _ hab⟩ (ih (i + 1))

/-- C12. Case-insensitive mode, both strategies: for every store and query, changing
the case of ASCII letters in the query and in the candidate texts (so that the
lower-cased bytes, and the high-priority flags, stay the same) leaves the Match List
unchanged as a sequence of store positions. -/
theorem case_insensitive_invariant {D : Type} [LinearOrder D] (L : Libm D)
    (qsort : (Nat × D → Nat × D → Int) → List (Nat × D) → List (Nat × D))
    (items items2 : List item) (q q2 : List Nat)
    (hq : q2.map tolower = q.map tolower)
    (hi : List.Forall₂ (fun a b => b.text.map tolower = a.text.map tolower ∧ b.hp = a.hp)
      items items2) :
    tokenmatch true items2 q2 = tokenmatch true items q ∧
      fuzzymatch L qsort true items2 q2 = fuzzymatch L qsort true items q := by
  refine ⟨tokenmatch_lower items items2 q q2 hq hi, ?_⟩
  have hlen : q2.length = q.length := by
    have := congrArg List.length hq
    simpa using this
  unfold fuzzymatch
  rw [hlen, fuzzycollect_lower L q q2 hq items items2 hi, hi.length_eq]

/-- Witness for C12: the stores `Apple`, `BANANA`, `apricot` and `aPPLE`, `banana`,
`APRICOT` with the queries `ap` and `AP`. -/
theorem case_insensitive_invariant_witness :
    ([65, 80] : List Nat).map tolower = [97, 112].map tolower ∧
      tokenmatch true casemixed [65, 80] = tokenmatch true mixedcase [97, 112] ∧
      tokenmatch true mixedcase [97, 112] = [0, 2] ∧
      fuzzymatch intLibm stableqsort true casemixed [65, 80] =
        fuzzymatch intLibm stableqsort true mixedcase [97, 112] :=
  have h := case_insensitive_invariant intLibm stableqsort mixedcase casemixed
    [97, 112] [65, 80] (by decide)
    (List.Forall₂.cons (by decide) (List.Forall₂.cons (by decide)
      (List.Forall₂.cons (by decide) List.Forall₂.nil)))
  ⟨by decide, h.1, by decide, h.2⟩

/-! ## Commit -/

theorem keydispatch_commit {D : Type} [LinearOrder D] (e : Env D) (s : State)
    (ev : XKeyEvent) (h : iscommit ev) :
    keydispatch e s ev = keysym e s ev .XK_Return := by
  obtain ⟨hk, hs, hm⟩ := h
  have hret : keysym e s ev .XK_KP_Enter = keysym e s ev .XK_Return := rfl
  have hdisp : keydispatch e s ev =
      if ev.control then keycontrol e s ev
      else if ev.mod1 then keymod1 e s ev
      else keysym e s ev ev.ksym := by
    unfold keydispatch
    rcases hs with hs | hs <;> rw [hs]
  rw [hdisp]
  by_cases hc : ev.control = true
  · rw [if_pos hc]
    unfold keycontrol
    rcases hk with hk | hk
    · rw [hk]
    · rw [hk]; rfl
  · rw [if_neg hc]
    have hm1 : ev.mod1 = false := by
      rcases hm with hm | hm
      · exact absurd hm hc
      · exact hm
    simp only [hm1, Bool.false_eq_true, if_false]
    rcases hk with hk | hk
    · rw [hk]
    · rw [hk]; rfl

theorem markout_get (items : List item) (i : Nat) (it : item) (h : items[i]? = some it) :
    (markout items i)[i]? = some ⟨it.text, 1, it.hp⟩ := by
  induction items generalizing i with
  | nil => simp at h
  | cons x xs ih =>
    cases i with
    | zero =>
      simp only [List.getElem?_cons_zero, Option.some.injEq] at h
      subst h
      simp [markout]
    | succ i =>
      simp only [List.getElem?_cons_succ] at h
      simp [markout, ih i h]

/-- C14. Commit: for every state, a Return or Enter key press writes one line, the text
of the selection when there is a selection and Shift is not held, and the query text
otherwise. Without `Control` the process then exits with status 0; with `Control`
(commit-keep) it does not exit, the selected entry is marked as emitted (`out = 1`)
and the query, the Match List and the selection stay as they are. -/
theorem commit_line {D : Type} [LinearOrder D] (e : Env D) (s : State) (ev : XKeyEvent)
    (h : iscommit ev) :
    (keypress e s ev).stdout = s.stdout ++ [commitline s ev.shift] ∧
      (ev.control = false → (keypress e s ev).exited = some 0) ∧
      (ev.control = true →
        (keypress e s ev).exited = s.exited ∧
        (keypress e s ev).text = s.text ∧
        (keypress e s ev).matches_ = s.matches_ ∧
        (keypress e s ev).sel = s.sel ∧
        (∀ p, s.sel = some p →
          (keypress e s ev).items = markout s.items (s.matches_.getD p 0) ∧
          ∀ it, s.items[s.matches_.getD p 0]? = some it →
            (keypress e s ev).items[s.matches_.getD p 0]? = some ⟨it.text, 1, it.hp⟩) ∧
        (s.sel = none → (keypress e s ev).items = s.items)) := by
  have hd := keydispatch_commit e s ev h
  unfold keypress
  simp only [hd]
  cases hsel : s.sel with
  | none =>
    by_cases hc : ev.control = true
    · simp [keysym, hsel, hc, commitline, drawmenu]
    · simp [keysym, hsel, hc, commitline, exit]
  | some p =>
    by_cases hc : ev.control = true
    · simp only [keysym, hsel, hc, commitline, drawmenu]
      refine ⟨by simp, by simp, ?_⟩
      intro _
      refine ⟨by simp, by simp, by simp, by simp, ?_, by simp⟩
      intro p2 hp2
      simp only [Option.some.injEq] at hp2
      subst hp2
      refine ⟨by simp, ?_⟩
      intro it hit
      simpa using markout_get s.items _ it hit
    · simp [keysym, hsel, hc, commitline, exit]

/-- Witness for C14: on the store `apple`, `banana`, `cherry` with the first entry
selected, Return writes `apple` and exits with status 0. -/
theorem commit_line_witness :
    iscommit (key .XK_Return false false false) ∧
      (keypress demo (match_ demo { State.initial 3 200 with items := fruit })
        (key .XK_Return false false false)).stdout = [[97, 112, 112, 108, 101]] ∧
      (keypress demo (match_ demo { State.initial 3 200 with items := fruit })
        (key .XK_Return false false false)).exited = some 0 :=
  have h := commit_line demo (match_ demo { State.initial 3 200 with items := fruit })
    (key .XK_Return false false false) (by decide)
  ⟨by decide, h.1.trans (by decide), h.2.1 rfl⟩

/-! ## Arrows in horizontal mode -/

theorem keydispatch_plain {D : Type} [LinearOrder D] (e : Env D) (s : State)
    (ev : XKeyEvent) (h : isplain ev) : keydispatch e s ev = keysym e s ev ev.ksym := by
  obtain ⟨hs, hc, hm⟩ := h
  unfold keydispatch
  rcases hs with hs | hs <;> simp [hs, hc, hm]

theorem keypress_sel {D : Type} [LinearOrder D] (e : Env D) (s : State) (ev : XKeyEvent) :
    (keypress e s ev).sel = (keydispatch e s ev).1.sel := by
  unfold keypress
  simp only
  split_ifs <;> rfl

theorem keypress_cursor {D : Type} [LinearOrder D] (e : Env D) (s : State) (ev : XKeyEvent) :
    (keypress e s ev).cursor = (keydispatch e s ev).1.cursor := by
  unfold keypress
  simp only
  split_ifs <;> rfl

theorem keypress_text {D : Type} [LinearOrder D] (e : Env D) (s : State) (ev : XKeyEvent) :
    (keypress e s ev).text = (keydispatch e s ev).1.text := by
  unfold keypress
  simp only
  split_ifs <;> rfl

theorem keypress_matches {D : Type} [LinearOrder D] (e : Env D) (s : State)
    (ev : XKeyEvent) : (keypress e s ev).matches_ = (keydispatch e s ev).1.matches_ := by
  unfold keypress
  simp only
  split_ifs <;> rfl

theorem keyup_sel {D : Type} (e : Env D) (s : State) :
    (keyup e s).sel = match s.sel with
      | some p => if 0 < p then some (p - 1) else some p
      | none => none := by
  unfold keyup
  cases hs : s.sel with
  | none => simp [hs]
  | some p =>
    simp only [left]
    by_cases hp : 0 < p
    · simp only [hp, if_true]
      split_ifs <;> simp
    · simp [hp, hs]

theorem keydown_sel {D : Type} (e : Env D) (s : State) :
    (keydown e s).sel = match s.sel with
      | some p => if p + 1 < s.matches_.length then some (p + 1) else some p
      | none => none := by
  unfold keydown
  cases hs : s.sel with
  | none => simp [hs]
  | some p =>
    simp only [right]
    by_cases hp : p + 1 < s.matches_.length
    · simp only [hp, if_true]
      split_ifs <;> simp
    · simp [hp, hs]

theorem keyup_core {D : Type} (e : Env D) (s : State) :
    (keyup e s).text = s.text ∧ (keyup e s).cursor = s.cursor := by
  have h := core_keyup e s
  simp only [core, Prod.mk.injEq] at h
  exact ⟨h.1, h.2.1⟩

theorem keydown_core {D : Type} (e : Env D) (s : State) :
    (keydown e s).text = s.text ∧ (keydown e s).cursor = s.cursor := by
  have h := core_keydown e s
  simp only [core, Prod.mk.injEq] at h
  exact ⟨h.1, h.2.1⟩

/-- C18, as the code has it. Horizontal mode (`lines = 0`), an arrow pressed without
`Control` and `Mod1`. Left: when the selection has a left neighbour the selection moves
to it and the query and its cursor stay; otherwise (no selection, or the first match
selected) the selection stays and the cursor moves one rune left, if it is not at the
start. Right: when the cursor is not at the end of the query it moves one rune right
and the selection stays, whether or not a right neighbour exists; when the cursor is at
the end, the cursor stays and the selection moves to its right neighbour if there is
one. -/
theorem horizontal_arrows {D : Type} [LinearOrder D] (e : Env D) (s : State) (ev : XKeyEvent)
    (hl : s.lines = 0) (hp : isplain ev) :
    ((ev.ksym = .XK_Left ∨ ev.ksym = .XK_KP_Left) →
      (keypress e s ev).text = s.text ∧
      (∀ p, s.sel = some p → 0 < p →
        (keypress e s ev).sel = some (p - 1) ∧ (keypress e s ev).cursor = s.cursor) ∧
      ((s.sel = none ∨ s.sel = some 0) →
        (keypress e s ev).sel = s.sel ∧
        (keypress e s ev).cursor =
          if 0 < s.cursor then (nextrune s (-1)).toNat else s.cursor)) ∧
    ((ev.ksym = .XK_Right ∨ ev.ksym = .XK_KP_Right) →
      (keypress e s ev).text = s.text ∧
      (byteat s.text s.cursor ≠ 0 →
        (keypress e s ev).sel = s.sel ∧ (keypress e s ev).cursor = (nextrune s 1).toNat) ∧
      (byteat s.text s.cursor = 0 →
        (keypress e s ev).cursor = s.cursor ∧
        (∀ p, s.sel = some p → p + 1 < s.matches_.length →
          (keypress e s ev).sel = some (p + 1)) ∧
        (∀ p, s.sel = some p → ¬ p + 1 < s.matches_.length →
          (keypress e s ev).sel = some p) ∧
        (s.sel = none → (keypress e s ev).sel = none))) := by
  have hd := keydispatch_plain e s ev hp
  have hl0 : ¬ s.lines > 0 := by omega
  constructor
  · intro hk
    have hks : keysym e s ev ev.ksym = keysym e s ev .XK_Left := by
      rcases hk with hk | hk
      · rw [hk]
      · rw [hk]; rfl
    rw [keypress_text, keypress_sel, keypress_cursor, hd, hks]
    simp only [keysym, hl0, or_false]
    refine ⟨?_, ?_, ?_⟩
    · split_ifs <;> first | rfl | exact (keyup_core e s).1
    · intro p hsel hpos
      have hcond : ¬ (s.cursor > 0 ∧ (s.sel = none ∨ s.sel.bind left = none)) := by
        simp [hsel, left, hpos]
      rw [if_neg hcond]
      simp only [if_false]
      exact ⟨by rw [keyup_sel, hsel]; simp [hpos], (keyup_core e s).2⟩
    · intro hsel
      have hnoleft : s.sel = none ∨ s.sel.bind left = none := by
        rcases hsel with h | h
        · exact Or.inl h
        · exact Or.inr (by simp [h, left])
      by_cases hc : 0 < s.cursor
      · rw [if_pos ⟨hc, hnoleft⟩, if_pos hc]
        exact ⟨rfl, rfl⟩
      · have hcond : ¬ (s.cursor > 0 ∧ (s.sel = none ∨ s.sel.bind left = none)) :=
          fun h => hc h.1
        rw [if_neg hcond, if_neg hc]
        simp only [if_false]
        refine ⟨?_, (keyup_core e s).2⟩
        rw [keyup_sel]
        rcases hsel with h | h <;> simp [h]
  · intro hk
    have hks : keysym e s ev ev.ksym = keysym e s ev .XK_Right := by
      rcases hk with hk | hk
      · rw [hk]
      · rw [hk]; rfl
    rw [keypress_text, keypress_sel, keypress_cursor, hd, hks]
    simp only [keysym, hl0]
    refine ⟨?_, ?_, ?_⟩
    · split_ifs <;> first | rfl | exact (keydown_core e s).1
    · intro hne
      rw [if_pos hne]
      exact ⟨rfl, rfl⟩
    · intro hz
      have hcond : ¬ byteat s.text (s.cursor : Int) ≠ 0 := by simp [hz]
      rw [if_neg hcond]
      simp only [if_false]
      refine ⟨(keydown_core e s).2, ?_, ?_, ?_⟩
      · intro p hsel hlt
        rw [keydown_sel, hsel]; simp [hlt]
      · intro p hsel hlt
        rw [keydown_sel, hsel]; simp [hlt]
      · intro hsel
        rw [keydown_sel, hsel]

/-- Witness for C18 as amended: with the cursor at the end of the query `a` and `apple`
selected, Right selects `banana`. -/
theorem horizontal_arrows_witness :
    (runkeys hdemo [typed [97]]
        (match_ hdemo { State.initial 0 200 with items := fruit })).lines = 0 ∧
      isplain (key .XK_Right false false false) ∧
      (keypress hdemo (runkeys hdemo [typed [97]]
        (match_ hdemo { State.initial 0 200 with items := fruit }))
        (key .XK_Right false false false)).sel = some 1 :=
  ⟨by decide, by decide,
    ((horizontal_arrows hdemo (runkeys hdemo [typed [97]]
        (match_ hdemo { State.initial 0 200 with items := fruit }))
      (key .XK_Right false false false) (by decide) (by decide)).2 (Or.inl rfl)).2.2
      (by decide) |>.2.1 0 (by decide) (by decide)⟩

/-- C18 fails as stated: horizontal mode, query `a` with the cursor at its start, the
matches `apple`, `banana` and `apple` selected. A right neighbour exists, yet Right
moves the cursor and leaves the selection on `apple`. -/
theorem horizontal_arrows_fail :
    typedleft.lines = 0 ∧ typedleft.text = [97] ∧ typedleft.cursor = 0 ∧
      typedleft.matches_ = [0, 1] ∧ typedleft.sel = some 0 ∧
      (keypress hdemo typedleft (key .XK_Right false false false)).sel = some 0 ∧
      (keypress hdemo typedleft (key .XK_Right false false false)).cursor = 1 := by
  decide

/-! ## The End key -/

theorem extent_geom {D : Type} (e : Env D) (s t : State) (h : geom t = geom s) (n : Int)
    (p : Nat) : extent e t n p = extent e s n p := by
  simp only [geom, Prod.mk.injEq] at h
  obtain ⟨h1, _, _, h4, h5⟩ := h
  simp [extent, textat, h1, h4, h5]

theorem budget_geom {D : Type} (e : Env D) (s t : State) (h : geom t = geom s) :
    budget e t = budget e s := by
  simp only [geom, Prod.mk.injEq] at h
  obtain ⟨h1, h2, h3, _, _⟩ := h
  simp [budget, h1, h2, h3]

theorem calcnext_geom {D : Type} (e : Env D) (s t : State) (h : geom t = geom s) (n : Int)
    (k p : Nat) (i : Int) : calcnext e t n k p i = calcnext e s n k p i := by
  induction k generalizing p i with
  | zero => simp [calcnext]
  | succ k ih => simp only [calcnext, extent_geom e s t h, ih]

theorem calcprev_le {D : Type} (e : Env D) (s : State) (n : Int) (p : Nat) (i : Int) :
    calcprev e s n p i ≤ p := by
  induction p generalizing i with
  | zero => simp [calcprev]
  | succ p ih =>
    rw [calcprev]
    split_ifs
    · exact le_rfl
    · exact Nat.le_succ_of_le (ih _)

theorem geom_calcoffsets {D : Type} (e : Env D) (s : State) :
    geom (calcoffsets e s) = geom s := by
  unfold calcoffsets
  cases s.curr <;> rfl

theorem calcoffsets_next {D : Type} (e : Env D) (s : State) (c : Nat)
    (h : s.curr = some c) :
    (calcoffsets e s).next = calcnext e s (budget e s) (s.matches_.length - c) c 0 := by
  unfold calcoffsets
  simp only [h]

theorem calcoffsets_prev {D : Type} (e : Env D) (s : State) (c : Nat)
    (h : s.curr = some c) :
    (calcoffsets e s).prev = some (calcprev e s (budget e s) c 0) := by
  unfold calcoffsets
  simp only [h]

/-- When every entry alone fits the budget, a page that starts at its last entry has no
next page. -/
theorem calcnext_some_lt {D : Type} (e : Env D) (s : State) (n : Int) (k p q : Nat)
    (hfit : extent e s n p ≤ n) (h : calcnext e s n k p 0 = some q) : 1 < k := by
  match k, h with
  | 0, h => simp [calcnext] at h
  | 1, h =>
    simp only [calcnext, zero_add] at h
    rw [if_neg (by omega)] at h
    exact absurd h (by simp)
  | k + 2, _ => omega

/-- The paging loop of the End key: started on a page whose `next` is the one
`calcoffsets` computes, with every entry fitting the budget and fuel for the entries
left, it stops on a page inside the list with `next = NULL`. -/
theorem endloop_end {D : Type} (e : Env D) (s0 : State)
    (hfit : ∀ p, extent e s0 (budget e s0) p ≤ budget e s0) (fuel : Nat) (s : State)
    (c : Nat) (hg : geom s = geom s0) (hc : s.curr = some c)
    (hlt : c < s0.matches_.length)
    (hn : s.next = calcnext e s0 (budget e s0) (s0.matches_.length - c) c 0)
    (hfuel : s0.matches_.length - c ≤ fuel) :
    ∃ c2, (endloop e fuel s).curr = some c2 ∧ c2 < s0.matches_.length ∧
      (endloop e fuel s).next = none ∧ geom (endloop e fuel s) = geom s0 := by
  induction fuel generalizing s c with
  | zero => omega
  | succ fuel ih =>
    have hm : s.matches_ = s0.matches_ := by
      have := hg
      simp only [geom, Prod.mk.injEq] at this
      exact this.2.2.2.2
    rw [endloop]
    cases hnx : s.next with
    | none => exact ⟨c, hc, hlt, hnx, hg⟩
    | some q =>
      have hk := calcnext_some_lt e s0 _ _ c q (hfit c) (hn ▸ hnx)
      have hr : s.curr.bind (right s.matches_) = some (c + 1) := by
        rw [hc, hm]
        simp only [Option.some_bind, right]
        rw [if_pos (by omega)]
      simp only [hr]
      refine ih _ (c + 1) ?_ ?_ ?_ ?_ ?_
      · rw [geom_calcoffsets]; exact hg
      · simp
      · omega
      · have hg3 : geom { s with curr := some (c + 1), next := some q } = geom s0 := hg
        rw [calcoffsets_next e _ (c + 1) rfl, calcnext_geom e s0 _ hg3,
          budget_geom e s0 _ hg3]
        show calcnext e s0 (budget e s0) (s.matches_.length - (c + 1)) (c + 1) 0 = _
        rw [hm]
      · omega

theorem keypress_next {D : Type} [LinearOrder D] (e : Env D) (s : State) (ev : XKeyEvent) :
    (keypress e s ev).next = (keydispatch e s ev).1.next := by
  unfold keypress
  simp only
  split_ifs <;> rfl

theorem keypress_curr {D : Type} [LinearOrder D] (e : Env D) (s : State) (ev : XKeyEvent) :
    (keypress e s ev).curr = (keydispatch e s ev).1.curr := by
  unfold keypress
  simp only
  split_ifs <;> rfl

theorem pagerInv_of {m : Nat} {ms : List Nat} (s : State) (c p : Nat)
    (hm : s.matches_ = m :: ms) (hc : s.curr = some c) (hs : s.sel = some p) (hcp : c ≤ p)
    (hp : p < s.matches_.length) (hn : s.next = none) : pagerInv s = true := by
  unfold pagerInv
  rw [hc, hs, hn] at *
  simp only [hm, List.length_cons] at hp ⊢
  simp [hcp, hp]

theorem pagerInv_curr {m : Nat} {ms : List Nat} (s : State) (hm : s.matches_ = m :: ms)
    (h : pagerInv s = true) :
    ∃ c p, s.curr = some c ∧ s.sel = some p ∧ c ≤ p ∧ p < s.matches_.length := by
  unfold pagerInv at h
  cases hc : s.curr with
  | none => simp [hm, hc] at h
  | some c =>
    cases hs : s.sel with
    | none => simp [hm, hc, hs] at h
    | some p =>
      simp only [hm, hc, hs, Bool.and_eq_true, decide_eq_true_eq] at h
      exact ⟨c, p, rfl, rfl, h.1.1, by simpa [hm] using h.1.2⟩

theorem pagerInv_keypress {D : Type} [LinearOrder D] (e : Env D) (s : State)
    (ev : XKeyEvent) : pagerInv (keypress e s ev) = pagerInv (keydispatch e s ev).1 := by
  unfold keypress
  simp only
  split_ifs <;> rfl

/-- The paging of the End key (`curr = matchend; calcoffsets(); curr = prev;
calcoffsets(); while (next && (curr = curr->right)) calcoffsets();`) on a non-empty
Match List whose entries each fit the budget: it ends on a page inside the list that
has no next page, and leaves the query alone. -/
theorem endpage {D : Type} (e : Env D) (s : State) (hne : s.matches_ ≠ [])
    (hfit : ∀ p, extent e s (budget e s) p ≤ budget e s) :
    ∃ c2,
      (endloop e s.matches_.length (calcoffsets e
        { calcoffsets e { s with curr := matchend s.matches_ } with
          curr := (calcoffsets e { s with curr := matchend s.matches_ }).prev })).curr
        = some c2 ∧
      c2 < s.matches_.length ∧
      (endloop e s.matches_.length (calcoffsets e
        { calcoffsets e { s with curr := matchend s.matches_ } with
          curr := (calcoffsets e { s with curr := matchend s.matches_ }).prev })).next
        = none ∧
      geom (endloop e s.matches_.length (calcoffsets e
        { calcoffsets e { s with curr := matchend s.matches_ } with
          curr := (calcoffsets e { s with curr := matchend s.matches_ }).prev }))
        = geom s := by
  have hpos : 0 < s.matches_.length := List.length_pos.mpr hne
  have h1c : ({ s with curr := matchend s.matches_ } : State).curr
      = some (s.matches_.length - 1) := by
    simp [matchend, hne]
  have hg1 : geom (calcoffsets e { s with curr := matchend s.matches_ }) = geom s :=
    geom_calcoffsets e _
  have hp1 := calcoffsets_prev e _ _ h1c
  generalize calcoffsets e { s with curr := matchend s.matches_ } = s1 at hg1 hp1 ⊢
  have hle := calcprev_le e { s with curr := matchend s.matches_ }
    (budget e { s with curr := matchend s.matches_ }) (s.matches_.length - 1) 0
  generalize calcprev e { s with curr := matchend s.matches_ }
    (budget e { s with curr := matchend s.matches_ }) (s.matches_.length - 1) 0 = p1
    at hp1 hle
  have hg1b : geom { s1 with curr := s1.prev } = geom s := hg1
  have hg2 : geom (calcoffsets e { s1 with curr := s1.prev }) = geom s :=
    (geom_calcoffsets e _).trans hg1b
  have hm1 : s1.matches_ = s.matches_ := by
    have := hg1
    simp only [geom, Prod.mk.injEq] at this
    exact this.2.2.2.2
  refine endloop_end e s hfit _ _ p1 hg2 ?_ (by omega) ?_ (by omega)
  · simp [hp1]
  · rw [calcoffsets_next e _ p1 hp1, calcnext_geom e s _ hg1b, budget_geom e s _ hg1b]
    show calcnext e s (budget e s) (s1.matches_.length - p1) p1 0 = _
    rw [hm1]

/-- C15, as the code has it. End (or KP_End) pressed without `Control` and `Mod1`, in a
state with a non-empty Match List that meets the pager invariant and in which every
entry alone fits the page budget. When the cursor is not at the end of the query, End
only moves it there: selection and page stay. When the cursor is at the end of the
query, the selection becomes the last element of the Match List, there is no next page,
and the pager invariant holds again (the page start is set and at or before the
selection); Match List and query are unchanged. -/
theorem end_key {D : Type} [LinearOrder D] (e : Env D) (s : State) (ev : XKeyEvent)
    (hp : isplain ev) (hk : ev.ksym = .XK_End ∨ ev.ksym = .XK_KP_End)
    (hne : s.matches_ ≠ []) (hinv : pagerInv s = true)
    (hfit : ∀ p, extent e s (budget e s) p ≤ budget e s) :
    (byteat s.text s.cursor ≠ 0 →
      (keypress e s ev).cursor = s.text.length ∧ (keypress e s ev).text = s.text ∧
      (keypress e s ev).sel = s.sel ∧ (keypress e s ev).curr = s.curr ∧
      (keypress e s ev).next = s.next) ∧
    (byteat s.text s.cursor = 0 →
      (keypress e s ev).sel = some (s.matches_.length - 1) ∧
      (keypress e s ev).next = none ∧
      pagerInv (keypress e s ev) = true ∧
      (keypress e s ev).matches_ = s.matches_ ∧
      (keypress e s ev).text = s.text ∧ (keypress e s ev).cursor = s.cursor) := by
  have hd := keydispatch_plain e s ev hp
  have hks : keysym e s ev ev.ksym = keysym e s ev .XK_End := by
    rcases hk with hk | hk
    · rw [hk]
    · rw [hk]; rfl
  obtain ⟨m, ms, hm⟩ : ∃ m ms, s.matches_ = m :: ms := by
    cases h : s.matches_ with
    | nil => exact absurd h hne
    | cons m ms => exact ⟨m, ms, rfl⟩
  obtain ⟨c, p, hc, hs, hcp, hpl⟩ := pagerInv_curr s hm hinv
  have hend : matchend s.matches_ = some (s.matches_.length - 1) := by
    simp [matchend, hne]
  rw [pagerInv_keypress, keypress_cursor, keypress_text, keypress_sel, keypress_curr,
    keypress_next, keypress_matches, hd, hks]
  constructor
  · intro hb
    have hr : keysym e s ev .XK_End = ({ s with cursor := s.text.length }, true) := by
      simp only [keysym, if_pos hb]
    rw [hr]
    exact ⟨rfl, rfl, rfl, rfl, rfl⟩
  · intro hb
    have hnb : ¬ byteat s.text (s.cursor : Int) ≠ 0 := by simp [hb]
    cases hnx : s.next with
    | none =>
      have hr : keysym e s ev .XK_End = ({ s with sel := matchend s.matches_ }, true) := by
        simp only [keysym, if_neg hnb, hnx]
      rw [hr]
      refine ⟨hend, hnx, ?_, rfl, rfl, rfl⟩
      exact pagerInv_of _ c (s.matches_.length - 1) hm hc hend (by omega)
        (by show s.matches_.length - 1 < s.matches_.length; omega) hnx
    | some q =>
      have hr : keysym e s ev .XK_End =
          ({ endloop e s.matches_.length (calcoffsets e
              { calcoffsets e { s with curr := matchend s.matches_ } with
                curr := (calcoffsets e { s with curr := matchend s.matches_ }).prev })
             with sel := matchend s.matches_ }, true) := by
        simp only [keysym, if_neg hnb, hnx]
      rw [hr]
      obtain ⟨c2, h2c, h2l, h2n, h2g⟩ := endpage e s hne hfit
      have h2m := h2g
      simp only [geom, Prod.mk.injEq] at h2m
      have hcore := core_endloop e s.matches_.length (calcoffsets e
        { calcoffsets e { s with curr := matchend s.matches_ } with
          curr := (calcoffsets e { s with curr := matchend s.matches_ }).prev })
      rw [core_calcoffsets] at hcore
      have hcore2 : core (calcoffsets e { s with curr := matchend s.matches_ }) = core s :=
        core_calcoffsets e _
      simp only [core, Prod.mk.injEq] at hcore hcore2
      refine ⟨hend, h2n, ?_, h2m.2.2.2.2, hcore.1.trans hcore2.1, hcore.2.1.trans hcore2.2.1⟩
      exact pagerInv_of _ c2 (s.matches_.length - 1) (h2m.2.2.2.2.trans hm) h2c hend
        (by omega) (by rw [show (_ : State).matches_ = s.matches_ from h2m.2.2.2.2]; omega)
        h2n

/-- Witness for C15 as amended: five matches on pages of three rows, empty query. End
selects the last match, with no next page and the pager invariant kept. -/
theorem end_key_witness :
    isplain (key .XK_End false false false) ∧ fivepage.matches_ = [0, 1, 2, 3, 4] ∧
      fivepage.next = some 3 ∧ pagerInv fivepage = true ∧
      byteat fivepage.text fivepage.cursor = 0 ∧
      (keypress demo fivepage (key .XK_End false false false)).sel
        = some (fivepage.matches_.length - 1) ∧
      (keypress demo fivepage (key .XK_End false false false)).next = none ∧
      pagerInv (keypress demo fivepage (key .XK_End false false false)) = true := by
  have hfit : ∀ p, extent demo fivepage (budget demo fivepage) p ≤ budget demo fivepage := by
    intro p
    have h1 : extent demo fivepage (budget demo fivepage) p = 20 := rfl
    have h2 : budget demo fivepage = 70 := by decide
    rw [h1, h2]
    decide
  have h := (end_key demo fivepage (key .XK_End false false false) (by decide)
    (Or.inl rfl) (by decide) (by decide) hfit).2 (by decide)
  exact ⟨by decide, by decide, by decide, by decide, by decide, h.1, h.2.1, h.2.2.1⟩

/-- C15 fails as stated: query `a` with the cursor at its start, matches `apple`,
`banana`, `apple` selected. End moves the cursor to the end of the query and leaves
the selection on the first match, not the last. -/
theorem end_key_fails :
    typedleft.matches_ = [0, 1] ∧ typedleft.text = [97] ∧ typedleft.cursor = 0 ∧
      typedleft.sel = some 0 ∧ matchend typedleft.matches_ = some 1 ∧
      (keypress hdemo typedleft (key .XK_End false false false)).sel = some 0 ∧
      (keypress hdemo typedleft (key .XK_End false false false)).cursor = 1 := by
  decide

/-! ## Tab completion -/

theorem strtok_go_ne_nil (s acc : List Nat) (h : acc ≠ [] ∨ ∃ c ∈ s, c ≠ 32) :
    strtok.go 32 s acc ≠ [] := by
  induction s generalizing acc with
  | nil =>
    have hacc : acc ≠ [] := by
      rcases h with h | ⟨c, hc, _⟩
      · exact h
      · simp at hc
    simp [strtok.go, hacc]
  | cons c s ih =>
    rw [strtok.go]
    by_cases hc : c = 32
    · rw [if_pos hc]
      by_cases hacc : acc = []
      · rw [if_pos hacc]
        apply ih
        right
        rcases h with h | ⟨d, hd, hd32⟩
        · exact absurd hacc h
        · rcases List.mem_cons.1 hd with hd | hd
          · exact absurd (hd.trans hc) hd32
          · exact ⟨d, hd, hd32⟩
      · rw [if_neg hacc]
        exact List.cons_ne_nil _ _
    · rw [if_neg hc]
      exact ih _ (Or.inl (List.cons_ne_nil _ _))

theorem strtok_go_infix (s acc : List Nat) :
    ∀ tok ∈ strtok.go 32 s acc, tok <:+: acc.reverse ++ s := by
  induction s generalizing acc with
  | nil =>
    intro tok htok
    by_cases hacc : acc = []
    · simp [strtok.go, hacc] at htok
    · simp only [strtok.go, if_neg hacc, List.mem_singleton] at htok
      rw [htok, List.append_nil]
  | cons c s ih =>
    intro tok htok
    rw [strtok.go] at htok
    have hsuf : ∀ t, t <:+: s → t <:+: acc.reverse ++ c :: s := by
      intro t ht
      have h1 : s <:+ acc.reverse ++ c :: s := by
        rw [show acc.reverse ++ c :: s = (acc.reverse ++ [c]) ++ s by simp]
        exact List.suffix_append _ _
      exact ht.trans h1.isInfix
    by_cases hc : c = 32
    · rw [if_pos hc] at htok
      by_cases hacc : acc = []
      · rw [if_pos hacc] at htok
        exact hsuf tok (by simpa using ih [] tok htok)
      · rw [if_neg hacc] at htok
        rcases List.mem_cons.1 htok with h | h
        · rw [h]
          exact (List.prefix_append _ _).isInfix
        · exact hsuf tok (by simpa using ih [] tok h)
    · rw [if_neg hc] at htok
      have := ih (c :: acc) tok htok
      simpa using this

theorem spaceTokens_ne_nil (t : List Nat) (h : ∃ c ∈ t, c ≠ 32) : spaceTokens t ≠ [] := by
  rw [← tokv_eq_spaceTokens]
  exact strtok_go_ne_nil t [] (Or.inr h)

/-- A text meets the token predicate of itself taken as the query. -/
theorem tokenPred_self (t : List Nat) : tokenPred false t t := by
  intro tok htok
  rw [← tokv_eq_spaceTokens] at htok
  have := strtok_go_infix t [] tok htok
  have hf : fold false = id := by funext c; simp [fold]
  simpa [foldInfix, hf] using this

/-- Case-sensitive matching: the Exact bucket holds the entries whose text is the query. -/
theorem specBucket_zero_iff (q : List Nat) (it : item) :
    specBucket false q it = some 0 ↔ it.text = q := by
  have hf : fold false = id := by funext c; simp [fold]
  unfold specBucket
  constructor
  · intro h
    split_ifs at h with h1 h2
    · simpa [hf] using h2
    all_goals exact absurd h (by decide)
  · intro h
    have h1 : tokenPred false q it.text := by rw [h]; exact tokenPred_self q
    rw [if_neg (not_not.2 h1), if_pos (by rw [h])]

/-- The first index a filter of the enumerated store keeps is the least index of an
entry that meets the test. -/
theorem enumFrom_filter_head (P : item → Bool) (items : List item) (idx : Nat)
    (h : ∃ it ∈ items, P it = true) :
    ∃ i0 it0, (((items.enumFrom idx).filter fun p => P p.2).map Prod.fst)[0]?
        = some (idx + i0) ∧
      items[i0]? = some it0 ∧ P it0 = true ∧
      ∀ j < i0, ∀ jt, items[j]? = some jt → P jt = false := by
  induction items generalizing idx with
  | nil => simp at h
  | cons a rest ih =>
    by_cases ha : P a = true
    · refine ⟨0, a, ?_, by simp, ha, fun j hj => absurd hj (Nat.not_lt_zero j)⟩
      simp [List.enumFrom, List.filter_cons, ha]
    · have hrest : ∃ it ∈ rest, P it = true := by
        obtain ⟨it, hit, hp⟩ := h
        rcases List.mem_cons.1 hit with h1 | h1
        · rw [h1] at hp; exact absurd hp ha
        · exact ⟨it, h1, hp⟩
      obtain ⟨i0, it0, h0, h1, h2, h3⟩ := ih (idx + 1) hrest
      refine ⟨i0 + 1, it0, ?_, by simpa using h1, h2, ?_⟩
      · simp only [List.enumFrom, List.filter_cons, ha]
        rw [show idx + (i0 + 1) = idx + 1 + i0 by omega]
        simpa using h0
      · intro j hj jt hjt
        cases j with
        | zero =>
          simp only [List.getElem?_cons_zero, Option.some.injEq] at hjt
          rw [← hjt]; simpa using ha
        | succ j =>
          exact h3 j (by omega) jt (by simpa using hjt)

theorem keypress_items {D : Type} [LinearOrder D] (e : Env D) (s : State)
    (ev : XKeyEvent) : (keypress e s ev).items = (keydispatch e s ev).1.items := by
  unfold keypress
  simp only
  split_ifs <;> rfl

/-- C19. Tab completion under the token strategy, case-sensitive, without a dynamic
command, Tab pressed without `Control` and `Mod1`. With no selection the key changes
nothing. With a selection whose text fits the buffer (`strlen < sizeof text`) and holds
a byte other than the space: after Tab the query is the selection's text, the cursor is
at its end, the store is unchanged, and the selection is the head of the new Match
List, which is the first entry in store order whose text equals the query. -/
theorem tab_completion {D : Type} [LinearOrder D] (e : Env D) (s : State) (ev : XKeyEvent)
    (hf : e.fuzzy = false) (hi : e.insensitive = false) (hdy : e.dynamic = none)
    (hp : isplain ev) (hk : ev.ksym = .XK_Tab) :
    (s.sel = none → keypress e s ev = s) ∧
    (∀ p, s.sel = some p → (textat s p).length < e.BUFSIZ → (∃ c ∈ textat s p, c ≠ 32) →
      (keypress e s ev).text = textat s p ∧
      (keypress e s ev).cursor = (textat s p).length ∧
      (keypress e s ev).items = s.items ∧
      (keypress e s ev).sel = some 0 ∧
      ∃ i it, (keypress e s ev).matches_[0]? = some i ∧ s.items[i]? = some it ∧
        it.text = textat s p ∧
        ∀ j < i, ∀ jt, s.items[j]? = some jt → jt.text ≠ textat s p) := by
  have hd := keydispatch_plain e s ev hp
  constructor
  · intro hsel
    unfold keypress
    rw [hd, hk]
    simp [keysym, hsel]
  · intro p hsel hlen hbyte
    have hr : keysym e s ev .XK_Tab =
        (rewind e { s with cursor := (textat s p).length, text := textat s p }
          (tokenmatch false s.items (textat s p)), true) := by
      have hmin : min (textat s p).length (e.BUFSIZ - 1) = (textat s p).length :=
        min_eq_left (by omega)
      simp only [keysym, hsel, hmin, List.take_length, match_, hf, hdy, hi]
      rfl
    rw [keypress_text, keypress_cursor, keypress_items, keypress_sel, keypress_matches, hd,
      hk, hr]
    have htok : spaceTokens (textat s p) ≠ [] := spaceTokens_ne_nil _ hbyte
    -- the selected entry is in the store and carries the text
    have hmem : ∃ it ∈ s.items,
        decide (specBucket false (textat s p) it = some 0) = true := by
      obtain ⟨c, hc, _⟩ := hbyte
      cases hget : s.items.get? (s.matches_.getD p 0) with
      | none =>
        have hnil : textat s p = [] := by unfold textat; rw [hget]; rfl
        rw [hnil] at hc
        exact absurd hc (List.not_mem_nil c)
      | some it =>
        have htext : textat s p = it.text := by unfold textat; rw [hget]; rfl
        refine ⟨it, List.get?_mem hget, ?_⟩
        rw [decide_eq_true_eq, specBucket_zero_iff, htext]
    obtain ⟨i0, it0, h0, h1, h2, h3⟩ :=
      enumFrom_filter_head (fun it => decide (specBucket false (textat s p) it = some 0))
        s.items 0 hmem
    rw [decide_eq_true_eq, specBucket_zero_iff] at h2
    have hms : tokenmatch false s.items (textat s p) =
        bucketList false (textat s p) s.items 0 ++ bucketList false (textat s p) s.items 1 ++
          bucketList false (textat s p) s.items 2 ++ bucketList false (textat s p) s.items 3 := by
      rw [tokenmatch_eq, if_neg htok]; rfl
    have hhead : (bucketList false (textat s p) s.items 0)[0]? = some i0 := by
      simpa [bucketList, List.enum] using h0
    have hfirst : (tokenmatch false s.items (textat s p))[0]? = some i0 := by
      rw [hms]
      cases hb : bucketList false (textat s p) s.items 0 with
      | nil => simp [hb] at hhead
      | cons a r =>
        rw [hb] at hhead
        simpa using hhead
    have hne : tokenmatch false s.items (textat s p) ≠ [] := by
      intro h
      rw [h] at hfirst
      simp at hfirst
    refine ⟨by simp [rewind], by simp [rewind], by simp [rewind],
      by simp [rewind, first, hne], i0, it0, by simpa [rewind] using hfirst, h1, h2, ?_⟩
    intro j hj jt hjt heq
    have := h3 j hj jt hjt
    rw [decide_eq_false_iff_not, specBucket_zero_iff] at this
    exact this heq

/-- Witness for C19: the store `pear`, `apple pie`, `apple`, `apple pie`, query `pie`,
the second `apple pie` selected. Tab makes `apple pie` the query and selects the first
`apple pie` of the store (index 1). -/
theorem tab_completion_witness :
    piesnext.matches_ = [1, 3] ∧ piesnext.sel = some 1 ∧
      textat piesnext 1 = [97, 112, 112, 108, 101, 32, 112, 105, 101] ∧
      (keypress demo piesnext (key .XK_Tab false false false)).text = textat piesnext 1 ∧
      (keypress demo piesnext (key .XK_Tab false false false)).cursor = 9 ∧
      (keypress demo piesnext (key .XK_Tab false false false)).sel = some 0 ∧
      (keypress demo piesnext (key .XK_Tab false false false)).matches_[0]? = some 1 := by
  have h := (tab_completion demo piesnext (key .XK_Tab false false false) rfl rfl rfl
    (by decide) rfl).2 1 (by decide) (by decide) ⟨97, by decide, by decide⟩
  exact ⟨by decide, by decide, by decide, h.1, h.2.1, h.2.2.2.1, by decide⟩

end Dmenu
